import Mathlib

/-! # AdaptiveContainer and HashTree: shallow embeddings and their verified properties

The file covers the two classes of the repository. The definitions of both
embeddings come first; the lemmas and the theorems `C1` to `C20` follow, first
for `AdaptiveContainer`, then for `HashTree`.

The C++ class template `AdaptiveContainer<T, THRESHOLD>` keeps its elements in an
embedded array `stackArray[THRESHOLD]` while the element count is small and in a
heap buffer `heapArray` once it has been promoted.

Modelling conventions.

* `size_t` values are natural numbers (no wrap-around).
* An array is a list of slots; `new T[n]` gives `n` value-initialised slots
  (`default`), and fails with `bad_alloc` when the allocator `mem n` says so.
  `mem : Nat → Bool` answers, for a requested slot count, whether the
  allocation succeeds.
* `heapArray` is `none` for `nullptr` and `some buf` for a live buffer.
* `std::move` of an element leaves the source slot's value in place (as it
  does for scalar element types such as the `int` of the demo driver).
* A member function is a function from the state before the call to the pair
  of what the call produced (`Except.error e` when it threw `e`) and the state
  after the call.
* The argument of `push_back` is a reference (`Arg`), read where the source
  reads it. A read of a slot that does not exist ends the call with
  `undefined_behaviour`.
* A store `a[sz++] = v` into a slot that does not exist leaves the arrays as
  they are. The invariants (`Inv`) rule such a store out, and the theorems
  about `push_back` assume them or start from a fresh container.
* The loop of `reserve` is run with fuel; `none` means the fuel ran out.
* Copying and moving involve two objects; for them the namespace `Mem` gives a
  second model in which `heapArray` is an address into a free store, and lemmas
  that relate it to the `State` model.
-/

set_option autoImplicit false

namespace AdaptiveContainer

/-- The ways a call can end other than by returning: the exceptions the class
can raise, `std::out_of_range` with its message and `std::bad_alloc` from
`new[]`; and `undefined_behaviour`, which is not a C++ exception but marks a
call that reads a slot that does not exist: through a null pointer, past the
end of an array, or in an array that has been deleted. -/
inductive Exception where
  | out_of_range (what : String)
  | bad_alloc
  | undefined_behaviour
  deriving DecidableEq, Repr

/-- The data members of `AdaptiveContainer<T, THRESHOLD>`. -/
structure State (α : Type) where
  sz : Nat
  cap : Nat
  usingHeap : Bool
  stackArray : List α
  heapArray : Option (List α)
  deriving DecidableEq, Repr

variable {α : Type}

/-- The default member initialisers: `sz = 0`, `cap = THRESHOLD`,
`usingHeap = false`, `heapArray = nullptr`. -/
def init [Inhabited α] (THRESHOLD : Nat) : State α :=
  { sz := 0, cap := THRESHOLD, usingHeap := false,
    stackArray := List.replicate THRESHOLD default, heapArray := none }

/-- The expression `new T[n]`: a fresh array of `n` slots, or `none` when the
allocator refuses. -/
def newArray [Inhabited α] (mem : Nat → Bool) (n : Nat) : Option (List α) :=
  if mem n then some (List.replicate n default) else none

/-- The loop `for (i = 0; i < n; ++i) dst[i] = std::move(src[i]);`. -/
def moveLoop [Inhabited α] (n : Nat) (src dst : List α) : List α :=
  (List.range n).foldl (fun d i => d.set i (src.getD i default)) dst

/-- The buffer `heapArray` points to (no slots for `nullptr`). -/
def heapSlots (c : State α) : List α := c.heapArray.getD []

/-- The private member `promoteToHeap()`. -/
def promoteToHeap [Inhabited α] (mem : Nat → Bool) (c : State α) :
    Except Exception Unit × State α :=
  match newArray mem (c.cap * 2) with
  | none => (.error .bad_alloc, c)
  | some buf =>
    (.ok (), { c with heapArray := some (moveLoop c.sz c.stackArray buf),
                      cap := c.cap * 2, usingHeap := true })

/-- The private member `grow()`. -/
def grow [Inhabited α] (mem : Nat → Bool) (c : State α) :
    Except Exception Unit × State α :=
  let newCap := c.cap * 2
  match newArray mem newCap with
  | none => (.error .bad_alloc, c)
  | some newHeap =>
    (.ok (), { c with heapArray := some (moveLoop c.sz (heapSlots c) newHeap),
                      cap := newCap })

/-- The private member `demoteToStack()`. -/
def demoteToStack [Inhabited α] (THRESHOLD : Nat) (c : State α) : State α :=
  if !c.usingHeap then c
  else { c with stackArray := moveLoop c.sz (heapSlots c) c.stackArray,
                heapArray := none, cap := THRESHOLD, usingHeap := false }

/-- The argument `val` of `push_back`, which the source takes by reference
(`const T&`, `T&&`): a reference to an object outside the container, or to
slot `i` of the array of the container that is live when the call begins (what
`c[i]`, `c.front()`, `c.back()` and the iterators give). -/
inductive Arg (α : Type) where
  | outside (v : α)
  | element (i : Nat)
  deriving DecidableEq, Repr

/-- Reading the argument: `arr` is the array an `element` reference refers
into, or `none` when that array has been deleted or never existed. `none` is a
read of a slot that does not exist. -/
def Arg.read : Arg α → Option (List α) → Option α
  | .outside v, _ => some v
  | .element i, arr => arr.bind (fun a => a[i]?)

/-- The statement `heapArray[sz++] = val;`, with `val` already read. -/
def storeHeap (c : State α) (val : α) : State α :=
  { c with heapArray := c.heapArray.map (fun h => h.set c.sz val), sz := c.sz + 1 }

/-- The statement `stackArray[sz++] = val;`, with `val` already read. -/
def storeStack (c : State α) (val : α) : State α :=
  { c with stackArray := c.stackArray.set c.sz val, sz := c.sz + 1 }

/-- The member `push_back(const T& val)`. The reference `val` is read where
the source reads it: after `grow()` has deleted the array that was live when
the call began, after `promoteToHeap()` has left the embedded array in place,
or at once. -/
def push_back [Inhabited α] (mem : Nat → Bool) (THRESHOLD : Nat) (c : State α) (val : Arg α) :
    Except Exception Unit × State α :=
  if c.usingHeap then
    if c.sz = c.cap then
      match grow mem c with
      | (.error e, c1) => (.error e, c1)
      | (.ok _, c1) =>
        match val.read none with
        | none => (.error .undefined_behaviour, c1)
        | some v => (.ok (), storeHeap c1 v)
    else
      match val.read c.heapArray with
      | none => (.error .undefined_behaviour, c)
      | some v => (.ok (), storeHeap c v)
  else
    if c.sz = THRESHOLD then
      match promoteToHeap mem c with
      | (.error e, c1) => (.error e, c1)
      | (.ok _, c1) =>
        match val.read (some c1.stackArray) with
        | none => (.error .undefined_behaviour, c1)
        | some v => (.ok (), storeHeap c1 v)
    else
      match val.read (some c.stackArray) with
      | none => (.error .undefined_behaviour, c)
      | some v => (.ok (), storeStack c v)

/-- The member `push_back(T&& val)`; the moved-from object keeps its value, as
under `std::move` elsewhere in this model. -/
def push_back_move [Inhabited α] (mem : Nat → Bool) (THRESHOLD : Nat) (c : State α)
    (val : Arg α) : Except Exception Unit × State α :=
  if c.usingHeap then
    if c.sz = c.cap then
      match grow mem c with
      | (.error e, c1) => (.error e, c1)
      | (.ok _, c1) =>
        match val.read none with
        | none => (.error .undefined_behaviour, c1)
        | some v => (.ok (), storeHeap c1 v)
    else
      match val.read c.heapArray with
      | none => (.error .undefined_behaviour, c)
      | some v => (.ok (), storeHeap c v)
  else
    if c.sz = THRESHOLD then
      match promoteToHeap mem c with
      | (.error e, c1) => (.error e, c1)
      | (.ok _, c1) =>
        match val.read (some c1.stackArray) with
        | none => (.error .undefined_behaviour, c1)
        | some v => (.ok (), storeHeap c1 v)
    else
      match val.read (some c.stackArray) with
      | none => (.error .undefined_behaviour, c)
      | some v => (.ok (), storeStack c v)

/-- The member `pop_back()`. -/
def pop_back [Inhabited α] (THRESHOLD : Nat) (c : State α) :
    Except Exception Unit × State α :=
  if c.sz = 0 then (.error (.out_of_range "pop_back on empty container"), c)
  else
    let c1 := { c with sz := c.sz - 1 }
    if c1.usingHeap && decide (c1.sz ≤ THRESHOLD) then (.ok (), demoteToStack THRESHOLD c1)
    else (.ok (), c1)

/-- The member `size()`. -/
def size (c : State α) : Nat := c.sz

/-- The member `empty()`. -/
def empty (c : State α) : Bool := c.sz == 0

/-- The member `clear()`. -/
def clear (THRESHOLD : Nat) (c : State α) : State α :=
  let c1 := { c with sz := 0 }
  if c1.usingHeap then
    { c1 with heapArray := none, cap := THRESHOLD, usingHeap := false }
  else c1

/-- The array selected by `usingHeap ? heapArray : stackArray`, which is what
`begin()` points to. -/
def begin_ (c : State α) : List α :=
  if c.usingHeap then heapSlots c else c.stackArray

/-- The member `end()`, as the offset of the returned pointer from `begin()`. -/
def end_ (c : State α) : Nat := c.sz

/-- The sequence visited by a range-based `for` over the container: the slots
from `begin()` up to `end()`. -/
def elements (c : State α) : List α := (begin_ c).take (end_ c)

/-- The array selected by `usingHeap ? heapArray : stackArray`, if there is one
(`none` for `nullptr`). -/
def liveArray (c : State α) : Option (List α) :=
  if c.usingHeap then c.heapArray else some c.stackArray

/-- The member `operator[](size_t idx)`; the returned reference is modelled
by the value of the slot it refers to, and a slot that does not exist by
`undefined_behaviour`. -/
def operator_index (c : State α) (idx : Nat) : Except Exception α × State α :=
  if idx ≥ c.sz then (.error (.out_of_range "Index out of bounds"), c)
  else
    match (liveArray c).bind (fun a => a[idx]?) with
    | none => (.error .undefined_behaviour, c)
    | some x => (.ok x, c)

/-- The member `operator[](size_t idx) const`. -/
def operator_index_const (c : State α) (idx : Nat) : Except Exception α × State α :=
  if idx ≥ c.sz then (.error (.out_of_range "Index out of bounds"), c)
  else
    match (liveArray c).bind (fun a => a[idx]?) with
    | none => (.error .undefined_behaviour, c)
    | some x => (.ok x, c)

/-- The loop `while (cap < newCap) grow();` of `reserve`, with fuel. -/
def reserveLoop [Inhabited α] (mem : Nat → Bool) (newCap : Nat) :
    Nat → State α → Option (Except Exception Unit × State α)
  | 0, _ => none
  | fuel + 1, c =>
    if c.cap < newCap then
      match grow mem c with
      | (.error e, c1) => some (.error e, c1)
      | (.ok _, c1) => reserveLoop mem newCap fuel c1
    else some (.ok (), c)

/-- The member `reserve(size_t newCap)`; `fuel` bounds the iterations of its
loop. -/
def reserve [Inhabited α] (mem : Nat → Bool) (fuel : Nat) (c : State α) (newCap : Nat) :
    Option (Except Exception Unit × State α) :=
  if newCap ≤ c.cap then some (.ok (), c)
  else if !c.usingHeap then
    match promoteToHeap mem c with
    | (.error e, c1) => some (.error e, c1)
    | (.ok _, c1) => reserveLoop mem newCap fuel c1
  else reserveLoop mem newCap fuel c

/-- The member `optimize()`. -/
def optimize [Inhabited α] (THRESHOLD : Nat) (c : State α) : State α :=
  if c.usingHeap && decide (c.sz ≤ THRESHOLD) then demoteToStack THRESHOLD c else c

/-- The member `isStackMode()`. -/
def isStackMode (c : State α) : Bool := !c.usingHeap

/-- The member `capacity()`. -/
def capacity (c : State α) : Nat := c.cap

/-- The member `front()`. -/
def front (c : State α) : Except Exception α × State α :=
  if empty c then (.error (.out_of_range "front() on empty container"), c)
  else operator_index c 0

/-- The member `back()`. -/
def back (c : State α) : Except Exception α × State α :=
  if empty c then (.error (.out_of_range "back() on empty container"), c)
  else operator_index c (c.sz - 1)

/-- An allocator that never refuses. -/
def always : Nat → Bool := fun _ => true

/-- The invariants of the data model: the count fits the capacity, the
embedded array has `THRESHOLD` slots, stack mode has capacity `THRESHOLD` and
no heap buffer, heap mode has capacity at least `THRESHOLD` and a heap buffer
of exactly `cap` slots. -/
def Inv (THRESHOLD : Nat) (c : State α) : Prop :=
  c.sz ≤ c.cap ∧ c.stackArray.length = THRESHOLD ∧
  (if c.usingHeap then
    THRESHOLD ≤ c.cap ∧ c.heapArray.map List.length = some c.cap
   else c.cap = THRESHOLD ∧ c.heapArray.map List.length = none)

instance instDecidableInv (THRESHOLD : Nat) (c : State α) : Decidable (Inv THRESHOLD c) := by
  unfold Inv
  infer_instance

/-- One call of a mutating public member, as issued by a client; the argument
of `push_back` is an object outside the container. -/
inductive Op (α : Type) where
  | push_back (v : α)
  | pop_back
  | clear
  | reserve (n : Nat)
  | optimize
  deriving Repr

/-- The state after one client call with an allocator that never refuses; an
exception thrown by the call is caught by the client. `reserve n` runs its
loop with fuel `n`. -/
def applyOp [Inhabited α] (THRESHOLD : Nat) (c : State α) : Op α → Option (State α)
  | .push_back v => some (push_back always THRESHOLD c (.outside v)).2
  | .pop_back => some (pop_back THRESHOLD c).2
  | .clear => some (clear THRESHOLD c)
  | .reserve n => (reserve always n c n).map Prod.snd
  | .optimize => some (optimize THRESHOLD c)

/-- The state after a sequence of client calls. -/
def run [Inhabited α] (THRESHOLD : Nat) : List (Op α) → State α → Option (State α)
  | [], c => some c
  | op :: ops, c => (applyOp THRESHOLD c op).bind (run THRESHOLD ops)

/-- A call of `push_back`, with an object outside the container as argument,
or of `pop_back`. -/
inductive Call (α : Type) where
  | push_back (v : α)
  | pop_back
  deriving Repr

/-- The state after a sequence of `push_back` and `pop_back` calls with an
allocator that never refuses. -/
def runCalls [Inhabited α] (THRESHOLD : Nat) : List (Call α) → State α → State α
  | [], c => c
  | .push_back v :: cs, c => runCalls THRESHOLD cs (push_back always THRESHOLD c (.outside v)).2
  | .pop_back :: cs, c => runCalls THRESHOLD cs (pop_back THRESHOLD c).2

/-- The same calls on a plain list, as the specification words them:
`push_back` appends at the end, `pop_back` drops the last element, and
`pop_back` on an empty list is rejected and changes nothing. -/
def listCalls : List (Call α) → List α → List α
  | [], l => l
  | .push_back v :: cs, l => listCalls cs (l ++ [v])
  | .pop_back :: cs, l => listCalls cs (if l.isEmpty then l else l.dropLast)

/-- Appending the values of a list in order with `push_back`. -/
def pushAll [Inhabited α] (mem : Nat → Bool) (THRESHOLD : Nat) : List α → State α → State α
  | [], c => c
  | v :: vs, c => pushAll mem THRESHOLD vs (push_back mem THRESHOLD c (.outside v)).2

/-- Repeated cycles of one `push_back` followed by one `pop_back`, one cycle
per value of the list, with an allocator that never refuses. -/
def oscillate [Inhabited α] (THRESHOLD : Nat) : List α → State α → State α
  | [], c => c
  | x :: xs, c =>
    oscillate THRESHOLD xs (pop_back THRESHOLD (push_back always THRESHOLD c (.outside x)).2).2

/-- Whether a client call is a call of `reserve`. -/
def Op.isReserve : Op α → Bool
  | .reserve _ => true
  | _ => false

/-- Two states that no observer tells apart: same `size()`, `capacity()`,
mode and iteration sequence. -/
def ObsEq (c1 c2 : State α) : Prop :=
  size c1 = size c2 ∧ capacity c1 = capacity c2 ∧ isStackMode c1 = isStackMode c2 ∧
    elements c1 = elements c2

/-! ## Objects in a shared free store

Copying and moving involve two objects and the arrays they point to. Here an
object holds the address of its heap array, the free store maps addresses to
arrays, and `view` reads an object back into a `State`. -/

namespace Mem

/-- The free store: the cell at address `a` holds the array allocated there,
or `none` once it has been deleted. -/
abbrev Heap (α : Type) := List (Option (List α))

/-- The data members of one `AdaptiveContainer` object; `heapArray` is a
pointer (`none` for `nullptr`). -/
structure Object (α : Type) where
  sz : Nat
  cap : Nat
  usingHeap : Bool
  stackArray : List α
  heapArray : Option Nat
  deriving DecidableEq, Repr

/-- The expression `new T[n]`: the address of a fresh array of `n` slots and
the store extended by it, or `none` when the allocator refuses. -/
def new_ [Inhabited α] (mem : Nat → Bool) (H : Heap α) (n : Nat) : Option (Nat × Heap α) :=
  if mem n then some (H.length, H ++ [some (List.replicate n default)]) else none

/-- The statement `delete[] p;` (nothing happens for `nullptr`). -/
def delete (H : Heap α) : Option Nat → Heap α
  | none => H
  | some a => H.set a none

/-- The live array a pointer refers to, if any. -/
def read (H : Heap α) : Option Nat → Option (List α)
  | none => none
  | some a => H.getD a none

/-- The array a pointer refers to (no slots for `nullptr` or a deleted array). -/
def deref (H : Heap α) (p : Option Nat) : List α := (read H p).getD []

/-- Storing new contents into the live array a pointer refers to. -/
def write (H : Heap α) (p : Option Nat) (buf : List α) : Heap α :=
  match p with
  | none => H
  | some a => if (H.getD a none).isSome then H.set a (some buf) else H

/-- The object as a `State`: the pointer replaced by the array it refers to. -/
def view (H : Heap α) (o : Object α) : State α :=
  { sz := o.sz, cap := o.cap, usingHeap := o.usingHeap, stackArray := o.stackArray,
    heapArray := read H o.heapArray }

/-- The default constructor. -/
def init [Inhabited α] (THRESHOLD : Nat) : Object α :=
  { sz := 0, cap := THRESHOLD, usingHeap := false,
    stackArray := List.replicate THRESHOLD default, heapArray := none }

/-- The private member `promoteToHeap()`. -/
def promoteToHeap [Inhabited α] (mem : Nat → Bool) (H : Heap α) (o : Object α) :
    Except Exception Unit × Heap α × Object α :=
  match new_ mem H (o.cap * 2) with
  | none => (.error .bad_alloc, H, o)
  | some (p, H1) =>
    (.ok (), write H1 (some p) (moveLoop o.sz o.stackArray (deref H1 (some p))),
      { o with heapArray := some p, cap := o.cap * 2, usingHeap := true })

/-- The private member `grow()`. -/
def grow [Inhabited α] (mem : Nat → Bool) (H : Heap α) (o : Object α) :
    Except Exception Unit × Heap α × Object α :=
  let newCap := o.cap * 2
  match new_ mem H newCap with
  | none => (.error .bad_alloc, H, o)
  | some (newHeap, H1) =>
    let H2 := write H1 (some newHeap)
      (moveLoop o.sz (deref H1 o.heapArray) (deref H1 (some newHeap)))
    (.ok (), delete H2 o.heapArray, { o with heapArray := some newHeap, cap := newCap })

/-- The private member `demoteToStack()`. -/
def demoteToStack [Inhabited α] (THRESHOLD : Nat) (H : Heap α) (o : Object α) :
    Heap α × Object α :=
  if !o.usingHeap then (H, o)
  else (delete H o.heapArray,
    { o with stackArray := moveLoop o.sz (deref H o.heapArray) o.stackArray,
             heapArray := none, cap := THRESHOLD, usingHeap := false })

/-- The statement `heapArray[sz++] = val;`. -/
def storeHeap (H : Heap α) (o : Object α) (val : α) : Heap α × Object α :=
  (write H o.heapArray ((deref H o.heapArray).set o.sz val), { o with sz := o.sz + 1 })

/-- The statement `stackArray[sz++] = val;`. -/
def storeStack (H : Heap α) (o : Object α) (val : α) : Heap α × Object α :=
  (H, { o with stackArray := o.stackArray.set o.sz val, sz := o.sz + 1 })

/-- The member `push_back(const T& val)`. An `element` reference refers into
the array the object points to when the call begins, and is read from the
store as it is when the source reads `val`. -/
def push_back [Inhabited α] (mem : Nat → Bool) (THRESHOLD : Nat) (H : Heap α) (o : Object α)
    (val : Arg α) : Except Exception Unit × Heap α × Object α :=
  if o.usingHeap then
    if o.sz = o.cap then
      match grow mem H o with
      | (.error e, H1, o1) => (.error e, H1, o1)
      | (.ok _, H1, o1) =>
        match val.read (read H1 o.heapArray) with
        | none => (.error .undefined_behaviour, H1, o1)
        | some v => (.ok (), storeHeap H1 o1 v)
    else
      match val.read (read H o.heapArray) with
      | none => (.error .undefined_behaviour, H, o)
      | some v => (.ok (), storeHeap H o v)
  else
    if o.sz = THRESHOLD then
      match promoteToHeap mem H o with
      | (.error e, H1, o1) => (.error e, H1, o1)
      | (.ok _, H1, o1) =>
        match val.read (some o1.stackArray) with
        | none => (.error .undefined_behaviour, H1, o1)
        | some v => (.ok (), storeHeap H1 o1 v)
    else
      match val.read (some o.stackArray) with
      | none => (.error .undefined_behaviour, H, o)
      | some v => (.ok (), storeStack H o v)

/-- The member `pop_back()`. -/
def pop_back [Inhabited α] (THRESHOLD : Nat) (H : Heap α) (o : Object α) :
    Except Exception Unit × Heap α × Object α :=
  if o.sz = 0 then (.error (.out_of_range "pop_back on empty container"), H, o)
  else
    let o1 := { o with sz := o.sz - 1 }
    if o1.usingHeap && decide (o1.sz ≤ THRESHOLD) then (.ok (), demoteToStack THRESHOLD H o1)
    else (.ok (), H, o1)

/-- The copy constructor `AdaptiveContainer(const AdaptiveContainer& other)`:
the new object, or the exception of `new[]`, and the store afterwards. -/
def copy_construct [Inhabited α] (mem : Nat → Bool) (THRESHOLD : Nat) (H : Heap α)
    (other : Object α) : Except Exception (Object α) × Heap α :=
  let this : Object α :=
    { sz := other.sz, cap := other.cap, usingHeap := other.usingHeap,
      stackArray := List.replicate THRESHOLD default, heapArray := none }
  if this.usingHeap then
    match new_ mem H this.cap with
    | none => (.error .bad_alloc, H)
    | some (p, H1) =>
      (.ok { this with heapArray := some p },
        write H1 (some p) (moveLoop this.sz (deref H1 other.heapArray) (deref H1 (some p))))
  else
    (.ok { this with stackArray := moveLoop this.sz other.stackArray this.stackArray,
                     heapArray := none }, H)

/-- The body of the copy assignment operator for `this != &other`: what the
call produced, the store and `this` afterwards (`other` is `const`). -/
def copy_assign [Inhabited α] (mem : Nat → Bool) (H : Heap α) (this other : Object α) :
    Except Exception Unit × Heap α × Object α :=
  let cleaned := this.usingHeap && this.heapArray.isSome
  let H0 := if cleaned then delete H this.heapArray else H
  let this0 := if cleaned then { this with heapArray := none } else this
  let this1 := { this0 with sz := other.sz, cap := other.cap, usingHeap := other.usingHeap }
  if this1.usingHeap then
    match new_ mem H0 this1.cap with
    | none => (.error .bad_alloc, H0, this1)
    | some (p, H1) =>
      (.ok (),
        write H1 (some p) (moveLoop this1.sz (deref H1 other.heapArray) (deref H1 (some p))),
        { this1 with heapArray := some p })
  else
    (.ok (), H0,
      { this1 with stackArray := moveLoop this1.sz other.stackArray this1.stackArray,
                   heapArray := none })

/-- The move constructor `AdaptiveContainer(AdaptiveContainer&& other)`: the
new object and `other` afterwards; the store is not touched. -/
def move_construct [Inhabited α] (THRESHOLD : Nat) (other : Object α) :
    Object α × Object α :=
  let this : Object α :=
    { sz := other.sz, cap := other.cap, usingHeap := other.usingHeap,
      stackArray := List.replicate THRESHOLD default, heapArray := none }
  let this1 :=
    if this.usingHeap then { this with heapArray := other.heapArray }
    else { this with stackArray := moveLoop this.sz other.stackArray this.stackArray,
                     heapArray := none }
  let other1 := if this.usingHeap then { other with heapArray := none } else other
  (this1, { other1 with sz := 0, cap := THRESHOLD, usingHeap := false })

/-- The body of the move assignment operator for `this != &other`: the store,
`this` and `other` afterwards. -/
def move_assign [Inhabited α] (THRESHOLD : Nat) (H : Heap α) (this other : Object α) :
    Heap α × Object α × Object α :=
  let H0 := if this.usingHeap && this.heapArray.isSome then delete H this.heapArray else H
  let this1 := { this with sz := other.sz, cap := other.cap, usingHeap := other.usingHeap }
  let this2 :=
    if this1.usingHeap then { this1 with heapArray := other.heapArray }
    else { this1 with stackArray := moveLoop this1.sz other.stackArray this1.stackArray,
                      heapArray := none }
  let other1 := if this1.usingHeap then { other with heapArray := none } else other
  (H0, this2, { other1 with sz := 0, cap := THRESHOLD, usingHeap := false })

/-- The names of the two objects of a `World`. -/
inductive Side where
  | first
  | second
  deriving DecidableEq, Repr

/-- Two objects and the free store their pointers refer to. -/
structure World (α : Type) where
  heap : Heap α
  first : Object α
  second : Object α

/-- The object of a given name. -/
def World.get (w : World α) : Side → Object α
  | .first => w.first
  | .second => w.second

/-- Replacing the store and the object of a given name. -/
def World.put (w : World α) (s : Side) (H : Heap α) (o : Object α) : World α :=
  match s with
  | .first => { w with heap := H, first := o }
  | .second => { w with heap := H, second := o }

/-- One `push_back` (of an object outside the containers) or `pop_back` on the
object of a given name, with an allocator that never refuses; an exception is
caught by the client. -/
def World.call [Inhabited α] (THRESHOLD : Nat) (w : World α) (s : Side) : Call α → World α
  | .push_back v =>
    let r := push_back always THRESHOLD w.heap (w.get s) (.outside v)
    w.put s r.2.1 r.2.2
  | .pop_back =>
    let r := pop_back THRESHOLD w.heap (w.get s)
    w.put s r.2.1 r.2.2

/-- A sequence of calls, each on one of the two objects. -/
def World.run [Inhabited α] (THRESHOLD : Nat) : List (Side × Call α) → World α → World α
  | [], w => w
  | (s, c) :: cs, w => World.run THRESHOLD cs (w.call THRESHOLD s c)

/-- The calls of a sequence that are on the object of a given name. -/
def callsOn (s : Side) : List (Side × Call α) → List (Call α)
  | [] => []
  | (s1, c) :: cs => if s1 = s then c :: callsOn s cs else callsOn s cs

/-- The copy assignment `dst = src` between named objects: the guard
`this != &other` compares the names. -/
def World.copy_assign [Inhabited α] (mem : Nat → Bool) (w : World α) (dst src : Side) :
    Except Exception Unit × World α :=
  if dst ≠ src then
    let r := Mem.copy_assign mem w.heap (w.get dst) (w.get src)
    (r.1, w.put dst r.2.1 r.2.2)
  else (.ok (), w)

/-- The move assignment `dst = std::move(src)` between named objects. -/
def World.move_assign [Inhabited α] (THRESHOLD : Nat) (w : World α) (dst src : Side) :
    World α :=
  if dst ≠ src then
    let r := Mem.move_assign THRESHOLD w.heap (w.get dst) (w.get src)
    (w.put dst r.1 r.2.1).put src r.1 r.2.2
  else w

/-- The pointer of an object is null or an address of the store. -/
def Valid (H : Heap α) (o : Object α) : Prop :=
  ∀ a, o.heapArray = some a → a < H.length

/-- Two objects do not point to the same array. -/
def Sep (o1 o2 : Object α) : Prop :=
  ∀ a, o1.heapArray = some a → o2.heapArray ≠ some a

/-- A step of object `o` from store `H` to store `H1`, ending as `o1`: the
store only grows, cells `o` does not point to are kept, and `o1` points where
`o` did, to a new cell, or nowhere. -/
def Steps (H : Heap α) (o : Object α) (H1 : Heap α) (o1 : Object α) : Prop :=
  Valid H1 o1 ∧ H.length ≤ H1.length ∧
  (∀ a, a < H.length → o.heapArray ≠ some a → H1.getD a none = H.getD a none) ∧
  (∀ a, o1.heapArray = some a → o.heapArray = some a ∨ H.length ≤ a)

instance instDecidableValid (H : Heap α) (o : Object α) : Decidable (Valid H o) :=
  match h : o.heapArray with
  | none => isTrue (fun a ha => by rw [h] at ha; cases ha)
  | some b =>
    if hb : b < H.length then isTrue (fun a ha => by rw [h] at ha; cases ha; exact hb)
    else isFalse (fun hv => hb (hv b h))

instance instDecidableSep (o1 o2 : Object α) : Decidable (Sep o1 o2) :=
  match h : o1.heapArray with
  | none => isTrue (fun a ha => by rw [h] at ha; cases ha)
  | some b =>
    if hb : o2.heapArray = some b then isFalse (fun hs => hs b h hb)
    else isTrue (fun a ha => by rw [h] at ha; cases ha; exact hb)

/-- A well-formed object: its view satisfies the invariants, its pointer is
null or an address of the store, and in stack mode the pointer is null. -/
def WF (THRESHOLD : Nat) (H : Heap α) (o : Object α) : Prop :=
  Inv THRESHOLD (view H o) ∧ Valid H o ∧ (o.usingHeap = false → o.heapArray = none)

instance instDecidableWF (THRESHOLD : Nat) (H : Heap α) (o : Object α) :
    Decidable (WF THRESHOLD H o) := by
  unfold WF
  infer_instance

/-- A well-formed world: two well-formed objects that do not share an array. -/
def World.Good (THRESHOLD : Nat) (w : World α) : Prop :=
  WF THRESHOLD w.heap w.first ∧ WF THRESHOLD w.heap w.second ∧ Sep w.first w.second

instance instDecidableGood (THRESHOLD : Nat) (w : World α) :
    Decidable (World.Good THRESHOLD w) := by
  unfold World.Good
  infer_instance

/-- The other name. -/
def Side.other : Side → Side
  | .first => .second
  | .second => .first

/-- A world at threshold 2 for the examples: the first object has received
1, 2, 3 and the second 7, 8, 9, so both are in heap mode with capacity 4. -/
def demoWorld : World Nat :=
  World.run 2 [(.first, .push_back 1), (.first, .push_back 2), (.first, .push_back 3),
    (.second, .push_back 7), (.second, .push_back 8), (.second, .push_back 9)]
    (World.mk [] (init 2) (init 2))

end Mem

end AdaptiveContainer

/-! # HashTree: a shallow embedding

The C++ class template `HashTree<Key, Value>` is a tree of fixed depth whose
nodes hold an `unordered_map` from keys to child nodes. The first `depth - 1`
levels branch on 4-bit parts of the hash of the key, the last level on the key
itself.

Modelling conventions.

* An `unordered_map<Key, unique_ptr<Node>>` is an association list; `find` and
  `count` look the key up, `operator[]` replaces or adds an entry, `erase`
  removes it, and iteration follows the list (one of the orders the map may
  have).
* Child pointers come from `make_unique` and are never null, so a child is a
  node value; the walk of `insert`, `search` and `remove` down the tree is a
  recursion that rebuilds the nodes it modifies.
* `std::hash<Key>` is a parameter `hasher : K → Nat`, taken modulo `2 ^ 64`,
  and `static_cast<Key>` of a `size_t` is a parameter `cast : Nat → K`.
* `size_t` values are natural numbers; `depth - 1` is the truncated difference,
  which agrees with the C++ expression for `depth ≥ 1`.
-/

/-- The exception `value()` of an empty `std::optional` raises. -/
inductive HashTree.Exception where
  | bad_optional_access
  deriving DecidableEq, Repr

/-- The struct `HashTree::Node`. -/
inductive HashTree.Node (K V : Type) where
  | mk (children : List (K × HashTree.Node K V)) (value : Option V) (isLeaf : Bool)

/-- The data members of `HashTree<Key, Value>`. -/
structure HashTree (K V : Type) where
  root : HashTree.Node K V
  depth : Nat

namespace HashTree

variable {K V : Type}

/-- The member `children` of a node. -/
def Node.children : Node K V → List (K × Node K V)
  | .mk c _ _ => c

/-- The member `value` of a node. -/
def Node.value : Node K V → Option V
  | .mk _ v _ => v

/-- The member `isLeaf` of a node. -/
def Node.isLeaf : Node K V → Bool
  | .mk _ _ l => l

/-- The node `std::make_unique<Node>()` creates: no children, no value,
`isLeaf = false`. -/
def Node.fresh : Node K V := .mk [] none false

/-- A node with its `children` map replaced. -/
def Node.withChildren (n : Node K V) (c : List (K × Node K V)) : Node K V :=
  .mk c n.value n.isLeaf

/-- The lookup `m.find(k)` of an `unordered_map` (`none` for `end()`). -/
def mapFind {N : Type} [DecidableEq K] : List (K × N) → K → Option N
  | [], _ => none
  | (k1, n) :: m, k => if k1 = k then some n else mapFind m k

/-- The assignment `m[k] = n` of an `unordered_map`. -/
def mapSet {N : Type} [DecidableEq K] : List (K × N) → K → N → List (K × N)
  | [], k, n => [(k, n)]
  | (k1, n1) :: m, k, n => if k1 = k then (k, n) :: m else (k1, n1) :: mapSet m k n

/-- The call `m.erase(k)` of an `unordered_map`. -/
def mapErase {N : Type} [DecidableEq K] : List (K × N) → K → List (K × N)
  | [], _ => []
  | (k1, n1) :: m, k => if k1 = k then mapErase m k else (k1, n1) :: mapErase m k

/-- The constructor `HashTree(size_t maxDepth)`. -/
def construct (maxDepth : Nat) : HashTree K V :=
  { root := Node.fresh, depth := maxDepth }

/-- The member `hashAtLevel`: `(hasher(key) >> (level * 4)) & 0xF`. -/
def hashAtLevel (hasher : K → Nat) (key : K) (level : Nat) : Nat :=
  ((hasher key % 2 ^ 64) >>> (level * 4)) &&& 0xF

/-- The member `getChildKey`. -/
def getChildKey (hasher : K → Nat) (cast : Nat → K) (key : K) (level : Nat) : K :=
  cast (hashAtLevel hasher key level)

/-- The walk of `insert` from `current` at `level`, with `steps` iterations of
the loop `for (level = 0; level < depth - 1; ++level)` left, followed by the
statements after the loop. -/
def insertLoop [DecidableEq K] (hasher : K → Nat) (cast : Nat → K) (key : K) (val : V) :
    Nat → Nat → Node K V → Node K V
  | _, 0, current =>
    let children1 :=
      if (mapFind current.children key).isNone then mapSet current.children key Node.fresh
      else current.children
    let leaf := (mapFind children1 key).getD Node.fresh
    current.withChildren (mapSet children1 key (.mk leaf.children (some val) true))
  | level, steps + 1, current =>
    let childKey := getChildKey hasher cast key level
    let children1 :=
      if (mapFind current.children childKey).isNone then
        mapSet current.children childKey Node.fresh
      else current.children
    let child := (mapFind children1 childKey).getD Node.fresh
    current.withChildren
      (mapSet children1 childKey (insertLoop hasher cast key val (level + 1) steps child))

/-- The member `insert(key, val)`. -/
def insert [DecidableEq K] (hasher : K → Nat) (cast : Nat → K) (t : HashTree K V)
    (key : K) (val : V) : HashTree K V :=
  { t with root := insertLoop hasher cast key val 0 (t.depth - 1) t.root }

/-- The walk of `search` from `current` at `level`, with `steps` iterations of
its loop left, followed by the statements after the loop. -/
def searchLoop [DecidableEq K] (hasher : K → Nat) (cast : Nat → K) (key : K) :
    Nat → Nat → Node K V → Option V
  | _, 0, current =>
    match mapFind current.children key with
    | none => none
    | some n => if n.isLeaf then n.value else none
  | level, steps + 1, current =>
    match mapFind current.children (getChildKey hasher cast key level) with
    | none => none
    | some child => searchLoop hasher cast key (level + 1) steps child

/-- The member `search(key)`. -/
def search [DecidableEq K] (hasher : K → Nat) (cast : Nat → K) (t : HashTree K V)
    (key : K) : Option V :=
  searchLoop hasher cast key 0 (t.depth - 1) t.root

/-- The walk of `remove` from `current` at `level`, with `steps` iterations of
its first loop left: `none` when the member returns `false`, otherwise the
node after the erasure and whether the clean-up loop, coming back up, has not
met its `break` yet. -/
def removeLoop [DecidableEq K] (hasher : K → Nat) (cast : Nat → K) (key : K) :
    Nat → Nat → Node K V → Option (Node K V × Bool)
  | _, 0, current =>
    match mapFind current.children key with
    | none => none
    | some n =>
      if !n.isLeaf then none
      else some (current.withChildren (mapErase current.children key), true)
  | level, steps + 1, current =>
    let childKey := getChildKey hasher cast key level
    match mapFind current.children childKey with
    | none => none
    | some child =>
      match removeLoop hasher cast key (level + 1) steps child with
      | none => none
      | some (child1, cleaning) =>
        if cleaning && child1.children.isEmpty then
          some (current.withChildren (mapErase current.children childKey), true)
        else
          some (current.withChildren (mapSet current.children childKey child1), false)

/-- The member `remove(key)`: the returned flag and the tree afterwards. -/
def remove [DecidableEq K] (hasher : K → Nat) (cast : Nat → K) (t : HashTree K V)
    (key : K) : Bool × HashTree K V :=
  match removeLoop hasher cast key 0 (t.depth - 1) t.root with
  | none => (false, t)
  | some (root1, _) => (true, { t with root := root1 })

/-- The loop over the children of a node at the leaf level in
`rangeQueryHelper`. -/
def leafLoop [LE K] [DecidableRel (fun a b : K => a ≤ b)] (minKey maxKey : K) :
    List (K × Node K V) → List (K × V) → Except Exception (List (K × V))
  | [], results => .ok results
  | (key, child) :: rest, results =>
    if child.isLeaf && decide (minKey ≤ key) && decide (key ≤ maxKey) then
      match child.value with
      | none => .error .bad_optional_access
      | some v => leafLoop minKey maxKey rest (results ++ [(key, v)])
    else leafLoop minKey maxKey rest results

mutual
/-- The member `rangeQueryHelper(node, level, minKey, maxKey, results)`. -/
def rangeQueryHelper [LE K] [DecidableRel (fun a b : K => a ≤ b)] (depth : Nat)
    (minKey maxKey : K) : Node K V → Nat → List (K × V) → Except Exception (List (K × V))
  | .mk children _ _, level, results =>
    if level = depth - 1 then leafLoop minKey maxKey children results
    else childrenLoop depth minKey maxKey children level results
/-- The loop over the children of an internal node in `rangeQueryHelper`. -/
def childrenLoop [LE K] [DecidableRel (fun a b : K => a ≤ b)] (depth : Nat)
    (minKey maxKey : K) : List (K × Node K V) → Nat → List (K × V) →
    Except Exception (List (K × V))
  | [], _, results => .ok results
  | (_, child) :: rest, level, results =>
    match rangeQueryHelper depth minKey maxKey child (level + 1) results with
    | .error e => .error e
    | .ok results1 => childrenLoop depth minKey maxKey rest level results1
end

/-- The member `rangeQuery(minKey, maxKey)`. -/
def rangeQuery [LE K] [DecidableRel (fun a b : K => a ≤ b)] (t : HashTree K V)
    (minKey maxKey : K) : Except Exception (List (K × V)) :=
  rangeQueryHelper t.depth minKey maxKey t.root 0 []

/-- The key-value pairs stored at the leaf level below a node that has
`steps` levels of internal nodes below it. -/
def entriesBelow : Nat → Node K V → List (K × V)
  | 0, node =>
    node.children.filterMap
      (fun e => if e.2.isLeaf then e.2.value.map (fun v => (e.1, v)) else none)
  | steps + 1, node => node.children.flatMap (fun e => entriesBelow steps e.2)

/-- The shape `insert` and `remove` maintain for a node at `level` with
`steps` levels of internal nodes below it: the keys of its `children` map are
distinct; at the leaf level every child is a leaf with a value; above it every
child has the shape for the next level and holds only keys whose hash part at
`level` is the key the child is stored under. -/
def WFNode [DecidableEq K] (hasher : K → Nat) (cast : Nat → K) : Nat → Nat → Node K V → Prop
  | _, 0, node =>
    (node.children.map Prod.fst).Nodup ∧
    ∀ e ∈ node.children, e.2.isLeaf = true ∧ e.2.value.isSome = true
  | level, steps + 1, node =>
    (node.children.map Prod.fst).Nodup ∧
    ∀ e ∈ node.children, WFNode hasher cast (level + 1) steps e.2 ∧
      ∀ kv ∈ entriesBelow steps e.2, getChildKey hasher cast kv.1 level = e.1

/-- The shape of a whole tree. -/
def WFTree [DecidableEq K] (hasher : K → Nat) (cast : Nat → K) (t : HashTree K V) : Prop :=
  WFNode hasher cast 0 (t.depth - 1) t.root

/-- One call of `insert` or `remove`, as issued by a client. -/
inductive Cmd (K V : Type) where
  | insert (key : K) (val : V)
  | remove (key : K)

/-- The tree after a sequence of `insert` and `remove` calls. -/
def runCmds [DecidableEq K] (hasher : K → Nat) (cast : Nat → K) :
    List (Cmd K V) → HashTree K V → HashTree K V
  | [], t => t
  | .insert k v :: cs, t => runCmds hasher cast cs (insert hasher cast t k v)
  | .remove k :: cs, t => runCmds hasher cast cs (remove hasher cast t k).2

/-- The reference finite map of the specification under the same calls:
`insert` binds the key to the value, `remove` unbinds it. -/
def refMap [DecidableEq K] : List (Cmd K V) → (K → Option V) → K → Option V
  | [], m => m
  | .insert k v :: cs, m => refMap cs (fun x => if x = k then some v else m x)
  | .remove k :: cs, m => refMap cs (fun x => if x = k then none else m x)

/-- The calls of the demo driver: six insertions with `int` keys. -/
def demoCmds : List (Cmd Nat String) :=
  [.insert 42 "Answer to everything", .insert 7 "Lucky number", .insert 100 "Century",
    .insert 15 "Fifteen", .insert 8 "Eight", .insert 99 "Almost 100"]

end HashTree

namespace AdaptiveContainer

variable {α : Type}

/-! # Lemmas -/

/-! ## Lists as arrays -/

@[simp] theorem Arg.read_outside (v : α) (arr : Option (List α)) :
    (Arg.outside v).read arr = some v := rfl

theorem moveLoop_succ [Inhabited α] (n : Nat) (src dst : List α) :
    moveLoop (n + 1) src dst = (moveLoop n src dst).set n (src.getD n default) := by
  simp [moveLoop, List.range_succ, List.foldl_append]

theorem moveLoop_length [Inhabited α] (n : Nat) (src dst : List α) :
    (moveLoop n src dst).length = dst.length := by
  induction n with
  | zero => simp [moveLoop]
  | succ n ih => rw [moveLoop_succ, List.length_set, ih]

theorem moveLoop_eq [Inhabited α] (n : Nat) (src dst : List α)
    (hs : n ≤ src.length) (hd : n ≤ dst.length) :
    moveLoop n src dst = src.take n ++ dst.drop n := by
  induction n with
  | zero => simp [moveLoop]
  | succ n ih =>
    rw [moveLoop_succ, ih (by omega) (by omega)]
    have h1 : (List.take n src).length = n := by simp; omega
    have h2 : src[n]? = some (src[n]) := List.getElem?_eq_getElem (by omega)
    rw [List.set_append_right _ _ (by omega), h1, Nat.sub_self,
      List.drop_eq_getElem_cons (show n < dst.length by omega)]
    rw [List.take_succ, List.getD_eq_getElem?_getD, h2]
    simp only [List.set_cons_zero, Option.toList_some, Option.getD_some, List.append_assoc,
      List.singleton_append]

theorem take_moveLoop [Inhabited α] (n : Nat) (src dst : List α)
    (hs : n ≤ src.length) (hd : n ≤ dst.length) :
    (moveLoop n src dst).take n = src.take n := by
  rw [moveLoop_eq n src dst hs hd]
  have h1 : (List.take n src).length = n := by simp; omega
  rw [List.take_append_eq_append_take, h1]
  simp

theorem take_set_self (l : List α) (n : Nat) (v : α) (h : n < l.length) :
    (l.set n v).take (n + 1) = l.take n ++ [v] := by
  induction l generalizing n with
  | nil => simp at h
  | cons a l ih =>
    cases n with
    | zero => simp
    | succ n =>
      simp only [List.length_cons] at h
      simp [ih n (by omega)]

theorem take_dropLast (l : List α) (n : Nat) (h : n ≤ l.length) :
    (l.take n).dropLast = l.take (n - 1) := by
  rw [List.dropLast_eq_take, List.take_take, List.length_take]
  congr 1
  omega

/-! ## The invariant by mode -/

theorem Inv.stack {T : Nat} {c : State α} (h : Inv T c) (hm : c.usingHeap = false) :
    c.sz ≤ T ∧ c.cap = T ∧ c.stackArray.length = T ∧ c.heapArray = none := by
  obtain ⟨h1, h2, h3⟩ := h
  rw [hm] at h3
  simp at h3
  exact ⟨by omega, h3.1, h2, h3.2⟩

theorem Inv.heap {T : Nat} {c : State α} (h : Inv T c) (hm : c.usingHeap = true) :
    c.sz ≤ c.cap ∧ T ≤ c.cap ∧ c.stackArray.length = T ∧
      ∃ buf, c.heapArray = some buf ∧ buf.length = c.cap := by
  obtain ⟨h1, h2, h3⟩ := h
  rw [hm] at h3
  simp at h3
  obtain ⟨h4, buf, h5, h6⟩ := h3
  exact ⟨h1, h4, h2, buf, h5, h6⟩

theorem init_Inv [Inhabited α] (T : Nat) : Inv T (init T : State α) := by
  simp [Inv, init]

theorem elements_length {T : Nat} {c : State α} (h : Inv T c) :
    (elements c).length = c.sz := by
  cases hm : c.usingHeap with
  | false =>
    obtain ⟨h1, h2, h3, h4⟩ := h.stack hm
    simp [elements, begin_, end_, hm, h3, h1]
  | true =>
    obtain ⟨h1, h2, h3, buf, h4, h5⟩ := h.heap hm
    simp [elements, begin_, end_, hm, heapSlots, h4, h5, h1]

theorem newArray_always [Inhabited α] (n : Nat) :
    (newArray always n : Option (List α)) = some (List.replicate n default) := by
  simp [newArray, always]

/-- With enough memory, `push_back` in stack mode below the threshold. -/
theorem push_back_stack_lt [Inhabited α] (mem : Nat → Bool) {T : Nat} {c : State α}
    (hm : c.usingHeap = false) (hlt : c.sz ≠ T) (v : α) :
    push_back mem T c (.outside v) = (.ok (), storeStack c v) := by
  simp [push_back, hm, hlt]

theorem push_back_heap_lt [Inhabited α] (mem : Nat → Bool) {T : Nat} {c : State α}
    (hm : c.usingHeap = true) (hlt : c.sz ≠ c.cap) (v : α) :
    push_back mem T c (.outside v) = (.ok (), storeHeap c v) := by
  simp [push_back, hm, hlt]

theorem push_back_promote [Inhabited α] {T : Nat} {c : State α}
    (hm : c.usingHeap = false) (heq : c.sz = T) (v : α) :
    push_back always T c (.outside v) = (.ok (), storeHeap
      { c with heapArray := some (moveLoop c.sz c.stackArray (List.replicate (c.cap * 2) default)),
               cap := c.cap * 2, usingHeap := true } v) := by
  simp [push_back, hm, heq, promoteToHeap, newArray_always]

theorem push_back_grow [Inhabited α] {T : Nat} {c : State α}
    (hm : c.usingHeap = true) (heq : c.sz = c.cap) (v : α) :
    push_back always T c (.outside v) = (.ok (), storeHeap
      { c with heapArray := some (moveLoop c.sz (heapSlots c) (List.replicate (c.cap * 2) default)),
               cap := c.cap * 2 } v) := by
  simp [push_back, hm, heq, grow, newArray_always]

/-- Everything `push_back` does on a state satisfying the invariant when
allocation succeeds. -/
theorem push_back_always [Inhabited α] {T : Nat} (hT : 1 ≤ T) {c : State α} (h : Inv T c) (v : α) :
    (push_back always T c (.outside v)).1 = .ok () ∧
    Inv T (push_back always T c (.outside v)).2 ∧
    (push_back always T c (.outside v)).2.sz = c.sz + 1 ∧
    elements (push_back always T c (.outside v)).2 = elements c ++ [v] ∧
    (push_back always T c (.outside v)).2.usingHeap = (c.usingHeap || decide (c.sz = T)) ∧
    (push_back always T c (.outside v)).2.cap = (if c.sz = c.cap then 2 * c.cap else c.cap) := by
  cases hm : c.usingHeap with
  | false =>
    obtain ⟨h1, h2, h3, h4⟩ := h.stack hm
    by_cases heq : c.sz = T
    · rw [push_back_promote hm heq]
      have hl : (moveLoop c.sz c.stackArray (List.replicate (c.cap * 2) (default : α))).length
          = c.cap * 2 := by rw [moveLoop_length]; simp
      refine ⟨rfl, ?_, rfl, ?_, by simp [storeHeap, heq], by simp [storeHeap, heq, h2]; omega⟩
      · simp [Inv, storeHeap, h3, hl]
        omega
      · simp only [elements, begin_, end_, storeHeap, heapSlots, Option.map_some', Option.getD_some,
          if_true, hm, Bool.false_eq_true, if_false]
        rw [take_set_self _ _ _ (by rw [hl]; omega),
          take_moveLoop _ _ _ (by omega) (by simp; omega)]
    · rw [push_back_stack_lt always hm heq]
      refine ⟨rfl, ?_, rfl, ?_, by simp [storeStack, hm, heq], ?_⟩
      · simp [Inv, storeStack, hm, h2, h3, h4]
        omega
      · simp only [elements, begin_, end_, storeStack, hm, Bool.false_eq_true, if_false]
        rw [take_set_self _ _ _ (by omega)]
      · have : c.sz ≠ c.cap := by omega
        simp [storeStack, this]
  | true =>
    obtain ⟨h1, h2, h3, buf, h4, h5⟩ := h.heap hm
    by_cases heq : c.sz = c.cap
    · have hs : heapSlots c = buf := by simp [heapSlots, h4]
      rw [push_back_grow hm heq, hs]
      have hl : (moveLoop c.sz buf (List.replicate (c.cap * 2) (default : α))).length
          = c.cap * 2 := by rw [moveLoop_length]; simp
      refine ⟨rfl, ?_, rfl, ?_, by simp [storeHeap, hm], by simp [storeHeap, heq]; omega⟩
      · simp [Inv, storeHeap, h3, hl, hm]
        omega
      · simp only [elements, begin_, end_, storeHeap, Option.map_some', heapSlots,
          Option.getD_some, if_true, hm, h4]
        rw [take_set_self _ _ _ (by rw [hl]; omega),
          take_moveLoop _ _ _ (by omega) (by simp; omega)]
    · rw [push_back_heap_lt always hm heq]
      refine ⟨rfl, ?_, rfl, ?_, by simp [storeHeap, hm], by simp [storeHeap, heq]⟩
      · simp [Inv, storeHeap, hm, h3, h4, h5]
        omega
      · simp only [elements, begin_, end_, storeHeap, hm, if_true, heapSlots, h4,
          Option.map_some', Option.getD_some]
        rw [take_set_self _ _ _ (by omega)]

theorem pop_back_empty [Inhabited α] (T : Nat) {c : State α} (h0 : c.sz = 0) :
    pop_back T c = (.error (.out_of_range "pop_back on empty container"), c) := by
  simp [pop_back, h0]

/-- What `demoteToStack` does to a heap-mode state whose count fits the
embedded array. -/
theorem demoteToStack_heap [Inhabited α] {T : Nat} {c : State α} (h : Inv T c)
    (hm : c.usingHeap = true) (hle : c.sz ≤ T) :
    Inv T (demoteToStack T c) ∧ (demoteToStack T c).sz = c.sz ∧
    elements (demoteToStack T c) = elements c ∧
    (demoteToStack T c).usingHeap = false ∧ (demoteToStack T c).cap = T := by
  obtain ⟨h1, h2, h3, buf, h4, h5⟩ := h.heap hm
  have hs : heapSlots c = buf := by simp [heapSlots, h4]
  have hd : demoteToStack T c =
      { c with
        stackArray := moveLoop c.sz buf c.stackArray
        heapArray := none
        cap := T
        usingHeap := false } := by
    simp [demoteToStack, hm, hs]
  rw [hd]
  refine ⟨?_, rfl, ?_, rfl, rfl⟩
  · simp [Inv, moveLoop_length, h3, hle]
  · simp only [elements, begin_, end_, Bool.false_eq_true, if_false, hm, if_true, hs]
    rw [take_moveLoop _ _ _ (by omega) (by omega)]

/-- Decrementing the count keeps the invariant and drops the last element. -/
theorem decr_spec {T : Nat} {c : State α} (h : Inv T c) :
    Inv T { c with sz := c.sz - 1 } ∧
    elements { c with sz := c.sz - 1 } = (elements c).dropLast := by
  constructor
  · obtain ⟨h1, h2, h3⟩ := h
    exact ⟨by show c.sz - 1 ≤ c.cap; omega, h2, h3⟩
  · cases hm : c.usingHeap with
    | false =>
      obtain ⟨h1, h2, h3, h4⟩ := h.stack hm
      simp only [elements, begin_, end_, hm, Bool.false_eq_true, if_false]
      rw [take_dropLast _ _ (by omega)]
    | true =>
      obtain ⟨h1, h2, h3, buf, h4, h5⟩ := h.heap hm
      simp only [elements, begin_, end_, hm, if_true, heapSlots, h4, Option.getD_some]
      rw [take_dropLast _ _ (by omega)]

/-- Everything `pop_back` does on a non-empty state satisfying the invariant. -/
theorem pop_back_nonempty [Inhabited α] {T : Nat} {c : State α} (h : Inv T c) (hpos : c.sz ≠ 0) :
    (pop_back T c).1 = .ok () ∧
    Inv T (pop_back T c).2 ∧
    (pop_back T c).2.sz = c.sz - 1 ∧
    elements (pop_back T c).2 = (elements c).dropLast ∧
    (pop_back T c).2.usingHeap = (c.usingHeap && !decide (c.sz - 1 ≤ T)) ∧
    (pop_back T c).2.cap = (if c.usingHeap = true ∧ c.sz - 1 ≤ T then T else c.cap) := by
  obtain ⟨hi, he⟩ := decr_spec h
  by_cases hd : c.usingHeap = true ∧ c.sz - 1 ≤ T
  · have hp : pop_back T c = (.ok (), demoteToStack T { c with sz := c.sz - 1 }) := by
      simp [pop_back, hpos, hd.1, hd.2]
    obtain ⟨g1, g2, g3, g4, g5⟩ := demoteToStack_heap hi hd.1 hd.2
    rw [hp]
    refine ⟨rfl, g1, g2, by rw [g3, he], ?_, ?_⟩
    · rw [g4]; simp [hd.2]
    · rw [if_pos hd]; exact g5
  · have hp : pop_back T c = (.ok (), { c with sz := c.sz - 1 }) := by
      simp only [pop_back, hpos, if_false]
      rw [if_neg]
      simpa using hd
    rw [hp]
    refine ⟨rfl, hi, rfl, he, ?_, ?_⟩
    · cases hm : c.usingHeap with
      | false => simp
      | true =>
        have : ¬ (c.sz - 1 ≤ T) := fun hh => hd ⟨hm, hh⟩
        simp [this]
    · rw [if_neg hd]

/-- The state after `pop_back`, whether it is rejected or not, satisfies the invariant. -/
theorem pop_back_Inv [Inhabited α] {T : Nat} {c : State α} (h : Inv T c) :
    Inv T (pop_back T c).2 := by
  by_cases h0 : c.sz = 0
  · rw [pop_back_empty T h0]; exact h
  · exact (pop_back_nonempty h h0).2.1

theorem clear_spec {T : Nat} {c : State α} (h : Inv T c) :
    Inv T (clear T c) ∧ (clear T c).sz = 0 ∧ (clear T c).usingHeap = false ∧
    (clear T c).cap = T ∧ (clear T c).heapArray = none := by
  cases hm : c.usingHeap with
  | false =>
    obtain ⟨h1, h2, h3, h4⟩ := h.stack hm
    simp [clear, hm, Inv, h2, h3, h4]
  | true =>
    obtain ⟨h1, h2, h3, buf, h4, h5⟩ := h.heap hm
    simp [clear, hm, Inv, h3]

theorem optimize_spec [Inhabited α] {T : Nat} {c : State α} (h : Inv T c) :
    Inv T (optimize T c) ∧ (optimize T c).sz = c.sz ∧
    elements (optimize T c) = elements c := by
  by_cases hd : c.usingHeap = true ∧ c.sz ≤ T
  · have : optimize T c = demoteToStack T c := by simp [optimize, hd.1, hd.2]
    rw [this]
    obtain ⟨g1, g2, g3, -, -⟩ := demoteToStack_heap h hd.1 hd.2
    exact ⟨g1, g2, g3⟩
  · have : optimize T c = c := by
      simp only [optimize]
      rw [if_neg]
      simpa using hd
    rw [this]
    exact ⟨h, rfl, rfl⟩

/-- With enough memory `grow` doubles the capacity of a heap-mode state and
keeps everything else. -/
theorem grow_always [Inhabited α] {T : Nat} {c : State α} (h : Inv T c)
    (hm : c.usingHeap = true) :
    (grow always c).1 = .ok () ∧ Inv T (grow always c).2 ∧
    (grow always c).2.usingHeap = true ∧ (grow always c).2.sz = c.sz ∧
    elements (grow always c).2 = elements c ∧ (grow always c).2.cap = c.cap * 2 ∧
    (grow always c).2.stackArray = c.stackArray := by
  obtain ⟨h1, h2, h3, buf, h4, h5⟩ := h.heap hm
  have hs : heapSlots c = buf := by simp [heapSlots, h4]
  have hg : grow always c = (.ok (),
      { c with
        heapArray := some (moveLoop c.sz buf (List.replicate (c.cap * 2) default))
        cap := c.cap * 2 }) := by
    simp [grow, newArray_always, hs]
  rw [hg]
  refine ⟨rfl, ?_, hm, rfl, ?_, rfl, rfl⟩
  · simp [Inv, hm, moveLoop_length, h3]
    omega
  · simp only [elements, begin_, end_, hm, if_true, heapSlots, Option.getD_some, h4]
    rw [take_moveLoop _ _ _ (by omega) (by simp; omega)]

/-- With enough memory `promoteToHeap` moves a stack-mode state to a heap
buffer of twice the capacity and keeps the elements. -/
theorem promoteToHeap_always [Inhabited α] {T : Nat} {c : State α} (h : Inv T c)
    (hm : c.usingHeap = false) :
    (promoteToHeap always c).1 = .ok () ∧ Inv T (promoteToHeap always c).2 ∧
    (promoteToHeap always c).2.usingHeap = true ∧ (promoteToHeap always c).2.sz = c.sz ∧
    elements (promoteToHeap always c).2 = elements c ∧
    (promoteToHeap always c).2.cap = c.cap * 2 ∧
    (promoteToHeap always c).2.stackArray = c.stackArray := by
  obtain ⟨h1, h2, h3, h4⟩ := h.stack hm
  have hg : promoteToHeap always c = (.ok (),
      { c with
        heapArray := some (moveLoop c.sz c.stackArray (List.replicate (c.cap * 2) default))
        cap := c.cap * 2
        usingHeap := true }) := by
    simp [promoteToHeap, newArray_always]
  rw [hg]
  refine ⟨rfl, ?_, rfl, rfl, ?_, rfl, rfl⟩
  · simp [Inv, moveLoop_length, h3]
    omega
  · simp only [elements, begin_, end_, hm, if_true, heapSlots, Option.getD_some,
      Bool.false_eq_true, if_false]
    rw [take_moveLoop _ _ _ (by omega) (by simp; omega)]

/-- More fuel does not change what the loop of `reserve` produces. -/
theorem reserveLoop_fuel_succ [Inhabited α] (mem : Nat → Bool) (newCap fuel : Nat) (c : State α)
    (r : Except Exception Unit × State α) (h : reserveLoop mem newCap fuel c = some r) :
    reserveLoop mem newCap (fuel + 1) c = some r := by
  induction fuel generalizing c with
  | zero => simp [reserveLoop] at h
  | succ k ih =>
    rw [reserveLoop] at h
    rw [reserveLoop]
    by_cases hc : c.cap < newCap
    · rw [if_pos hc] at h ⊢
      rcases hg : grow mem c with ⟨_ | _, c1⟩
      · rw [hg] at h; exact h
      · rw [hg] at h
        exact ih c1 h
    · rw [if_neg hc] at h ⊢
      exact h

theorem reserveLoop_fuel_mono [Inhabited α] (mem : Nat → Bool) (newCap fuel k : Nat) (c : State α)
    (r : Except Exception Unit × State α) (h : reserveLoop mem newCap fuel c = some r) :
    reserveLoop mem newCap (fuel + k) c = some r := by
  induction k with
  | zero => exact h
  | succ k ih => exact reserveLoop_fuel_succ mem newCap (fuel + k) c r ih

/-- With enough memory and enough fuel the loop of `reserve` ends, in heap mode,
with a capacity of at least `newCap` and the same elements. -/
theorem reserveLoop_always [Inhabited α] {T : Nat} (newCap fuel : Nat) {c : State α}
    (h : Inv T c) (hm : c.usingHeap = true) (hc : 1 ≤ c.cap) (hf : newCap - c.cap < fuel) :
    ∃ c1, reserveLoop always newCap fuel c = some (.ok (), c1) ∧ Inv T c1 ∧
      c1.usingHeap = true ∧ c1.sz = c.sz ∧ elements c1 = elements c ∧ c.cap ≤ c1.cap ∧
      newCap ≤ c1.cap ∧ c1.stackArray = c.stackArray ∧ (newCap ≤ c.cap → c1 = c) := by
  induction fuel generalizing c with
  | zero => omega
  | succ k ih =>
    rw [reserveLoop]
    by_cases hlt : c.cap < newCap
    · rw [if_pos hlt]
      obtain ⟨g1, g2, g3, g4, g5, g6, g7⟩ := grow_always h hm
      rcases hg : grow always c with ⟨_ | _, c1⟩
      · rw [hg] at g1; simp at g1
      · rw [hg] at g2 g3 g4 g5 g6 g7
        simp only at g2 g3 g4 g5 g6 g7
        obtain ⟨c2, e1, e2, e3, e4, e5, e6, e7, e8, -⟩ :=
          ih g2 g3 (by omega) (by omega)
        exact ⟨c2, e1, e2, e3, by omega, by rw [e5, g5], by omega, e7, by rw [e8, g7],
          fun hh => by omega⟩
    · rw [if_neg hlt]
      exact ⟨c, rfl, h, hm, rfl, rfl, le_refl _, by omega, rfl, fun _ => rfl⟩

/-- With enough memory and fuel `reserve` returns normally; it keeps the
count and the elements, never lowers the capacity, and reaches `newCap`. -/
theorem reserve_always [Inhabited α] {T : Nat} (hT : 1 ≤ T) (newCap fuel : Nat) {c : State α}
    (h : Inv T c) (hf : newCap ≤ fuel) :
    ∃ c1, reserve always fuel c newCap = some (.ok (), c1) ∧ Inv T c1 ∧
      c1.sz = c.sz ∧ elements c1 = elements c ∧ c.cap ≤ c1.cap ∧ newCap ≤ c1.cap ∧
      (newCap ≤ c.cap → c1 = c) ∧ (c.cap < newCap → c1.usingHeap = true) ∧
      (c.usingHeap = true → c1.usingHeap = true) := by
  by_cases hle : newCap ≤ c.cap
  · refine ⟨c, by simp [reserve, hle], h, rfl, rfl, le_refl _, hle, fun _ => rfl,
      fun hh => by omega, fun hh => hh⟩
  · cases hm : c.usingHeap with
    | true =>
      obtain ⟨h1, h2, -⟩ := h.heap hm
      obtain ⟨c1, e1, e2, e3, e4, e5, e6, e7, -, -⟩ :=
        reserveLoop_always newCap fuel h hm (by omega) (by omega)
      refine ⟨c1, ?_, e2, e4, e5, e6, e7, fun hh => absurd hh hle, fun _ => e3, fun _ => e3⟩
      simp [reserve, hle, hm, e1]
    | false =>
      obtain ⟨h1, h2, -⟩ := h.stack hm
      obtain ⟨g1, g2, g3, g4, g5, g6, g7⟩ := promoteToHeap_always h hm
      rcases hg : promoteToHeap always c with ⟨_ | _, c0⟩
      · rw [hg] at g1; simp at g1
      · rw [hg] at g2 g3 g4 g5 g6 g7
        simp only at g2 g3 g4 g5 g6 g7
        obtain ⟨c1, e1, e2, e3, e4, e5, e6, e7, -, -⟩ :=
          reserveLoop_always newCap fuel g2 g3 (by omega) (by omega)
        refine ⟨c1, ?_, e2, by omega, by rw [e5, g5], by omega, e7,
          fun hh => absurd hh hle, fun _ => e3, fun _ => e3⟩
        simp [reserve, hle, hm, hg, e1]

/-! ## Sequences of calls -/

theorem applyOp_Inv [Inhabited α] {T : Nat} (hT : 1 ≤ T) {c : State α} (h : Inv T c)
    (op : Op α) : ∃ c1, applyOp T c op = some c1 ∧ Inv T c1 := by
  cases op with
  | push_back v => exact ⟨_, rfl, (push_back_always hT h v).2.1⟩
  | pop_back => exact ⟨_, rfl, pop_back_Inv h⟩
  | clear => exact ⟨_, rfl, (clear_spec h).1⟩
  | reserve n =>
    obtain ⟨c1, e1, e2, -⟩ := reserve_always hT n n h (le_refl n)
    exact ⟨c1, by simp [applyOp, e1], e2⟩
  | optimize => exact ⟨_, rfl, (optimize_spec h).1⟩

theorem run_Inv [Inhabited α] {T : Nat} (hT : 1 ≤ T) (ops : List (Op α)) {c : State α}
    (h : Inv T c) : ∃ c1, run T ops c = some c1 ∧ Inv T c1 := by
  induction ops generalizing c with
  | nil => exact ⟨c, rfl, h⟩
  | cons op ops ih =>
    obtain ⟨c1, e1, e2⟩ := applyOp_Inv hT h op
    obtain ⟨c2, e3, e4⟩ := ih e2
    exact ⟨c2, by simp [run, e1, e3], e4⟩

theorem elements_init [Inhabited α] (T : Nat) : elements (init T : State α) = [] := by
  simp [elements, end_, init]

theorem runCalls_spec [Inhabited α] {T : Nat} (hT : 1 ≤ T) (calls : List (Call α))
    {c : State α} (h : Inv T c) :
    Inv T (runCalls T calls c) ∧
    elements (runCalls T calls c) = listCalls calls (elements c) := by
  induction calls generalizing c with
  | nil => exact ⟨h, rfl⟩
  | cons call calls ih =>
    cases call with
    | push_back v =>
      obtain ⟨-, g2, -, g4, -⟩ := push_back_always hT h v
      obtain ⟨i1, i2⟩ := ih g2
      exact ⟨i1, by rw [runCalls, i2, g4, listCalls]⟩
    | pop_back =>
      have hlen := elements_length h
      by_cases h0 : c.sz = 0
      · have he : elements c = [] := List.length_eq_zero.mp (by omega)
        obtain ⟨i1, i2⟩ := ih h
        rw [runCalls, pop_back_empty T h0, listCalls, he]
        rw [he] at i2
        exact ⟨i1, by simpa using i2⟩
      · obtain ⟨-, g2, -, g4, -⟩ := pop_back_nonempty h h0
        obtain ⟨i1, i2⟩ := ih g2
        have hne : (elements c).isEmpty = false := by
          cases he : elements c with
          | nil => rw [he] at hlen; simp at hlen; omega
          | cons a l => rfl
        rw [runCalls, listCalls, hne]
        exact ⟨i1, by rw [i2, g4]; rfl⟩

/-- In a state satisfying the invariants the live array exists and has `cap`
slots. -/
theorem liveArray_of_Inv {T : Nat} {c : State α} (h : Inv T c) :
    liveArray c = some (begin_ c) ∧ (begin_ c).length = c.cap := by
  cases hm : c.usingHeap with
  | false =>
    obtain ⟨-, h2, h3, -⟩ := h.stack hm
    simp [liveArray, begin_, hm, h3, h2]
  | true =>
    obtain ⟨-, -, -, buf, h4, h5⟩ := h.heap hm
    simp [liveArray, begin_, hm, heapSlots, h4, h5]

/-- Below the count, `operator[]` reads the element of the iteration sequence. -/
theorem operator_index_lt [Inhabited α] {T : Nat} (c : State α) (h : Inv T c) (i : Nat)
    (hi : i < c.sz) :
    operator_index c i = (.ok ((elements c).getD i default), c) := by
  obtain ⟨h1, h2⟩ := liveArray_of_Inv h
  have hn : ¬ (i ≥ c.sz) := by omega
  have hb : i < (begin_ c).length := by rw [h2]; have := h.1; omega
  have he : (elements c).getD i default = (begin_ c)[i] := by
    rw [elements, end_, List.getD_eq_getElem?_getD, List.getElem?_take_of_lt hi,
      List.getElem?_eq_getElem hb]
    rfl
  rw [he]
  simp [operator_index, hn, h1, List.getElem?_eq_getElem hb]

theorem operator_index_ge [Inhabited α] (c : State α) (i : Nat) (hi : c.sz ≤ i) :
    operator_index c i = (.error (.out_of_range "Index out of bounds"), c) := by
  simp [operator_index, hi]

theorem pushAll_append [Inhabited α] (mem : Nat → Bool) (T : Nat) (xs ys : List α) (c : State α) :
    pushAll mem T (xs ++ ys) c = pushAll mem T ys (pushAll mem T xs c) := by
  induction xs generalizing c with
  | nil => rfl
  | cons x xs ih => simp [pushAll, ih]

/-- Appending values that still fit the embedded array stays in stack mode. -/
theorem pushAll_stack [Inhabited α] {T : Nat} (hT : 1 ≤ T) (vs : List α) {c : State α}
    (h : Inv T c) (hm : c.usingHeap = false) (hfit : c.sz + vs.length ≤ T) :
    Inv T (pushAll always T vs c) ∧ (pushAll always T vs c).usingHeap = false ∧
    (pushAll always T vs c).sz = c.sz + vs.length ∧
    elements (pushAll always T vs c) = elements c ++ vs := by
  induction vs generalizing c with
  | nil => exact ⟨h, hm, rfl, by simp [pushAll]⟩
  | cons v vs ih =>
    simp only [List.length_cons] at hfit
    obtain ⟨-, g2, g3, g4, g5, -⟩ := push_back_always hT h v
    have hne : c.sz ≠ T := by omega
    have g5' : (push_back always T c (.outside v)).2.usingHeap = false := by rw [g5, hm]; simp [hne]
    obtain ⟨i1, i2, i3, i4⟩ := ih g2 g5' (by omega)
    exact ⟨i1, i2, by rw [pushAll, i3, g3, List.length_cons]; omega,
      by rw [pushAll, i4, g4]; simp⟩

/-- The state after appending exactly `T + 1` values to a fresh container. -/
theorem pushAll_promoted [Inhabited α] {T : Nat} (hT : 1 ≤ T) (vs : List α)
    (hlen : vs.length = T + 1) :
    Inv T (pushAll always T vs (init T)) ∧
    (pushAll always T vs (init T)).usingHeap = true ∧
    (pushAll always T vs (init T)).sz = T + 1 ∧
    (pushAll always T vs (init T)).cap = 2 * T ∧
    elements (pushAll always T vs (init T)) = vs := by
  have hne : vs ≠ [] := by intro h; rw [h] at hlen; simp at hlen
  have hsplit : vs = vs.dropLast ++ [vs.getLast hne] := (List.dropLast_append_getLast hne).symm
  have hdl : vs.dropLast.length = T := by rw [List.length_dropLast, hlen]; rfl
  obtain ⟨i1, i2, i3, i4⟩ := pushAll_stack hT vs.dropLast (init_Inv T) (c := (init T : State α))
    rfl (by rw [hdl]; simp [init])
  have hsz : (pushAll always T vs.dropLast (init T : State α)).sz = T := by
    rw [i3, hdl]; simp [init]
  obtain ⟨-, g2, g3, g4, g5, g6⟩ := push_back_always hT i1 (vs.getLast hne)
  obtain ⟨-, hcap, -⟩ := i1.stack i2
  have hstep : pushAll always T vs (init T : State α)
      = (push_back always T (pushAll always T vs.dropLast (init T)) (.outside (vs.getLast hne))).2 := by
    conv_lhs => rw [hsplit]
    rw [pushAll_append]
    rfl
  rw [hstep]
  refine ⟨g2, ?_, by rw [g3, hsz], ?_, ?_⟩
  · rw [g5, hsz]; simp
  · rw [g6, hsz, hcap]; simp
  · rw [g4, i4, elements_init, List.nil_append]
    exact hsplit.symm

/-! # The claims -/

/-- C1: for every threshold `T ≥ 1`, every finite sequence of `push_back`,
`pop_back` (rejected ones included), `clear`, `reserve n` and `optimize` calls
on a freshly constructed container, with allocation succeeding, and every
number `k`, the first `k` calls run to a state in which `size() ≤ capacity()`,
stack mode implies `capacity() = T`, heap mode implies `capacity() ≥ T`, and a
heap buffer is held exactly in heap mode, with `capacity()` slots: the
invariants hold after each operation. -/
theorem C1_invariant_preservation [Inhabited α] (T : Nat) (hT : 1 ≤ T) (ops : List (Op α))
    (k : Nat) :
    ∃ c : State α, run T (ops.take k) (init T) = some c ∧
      size c ≤ capacity c ∧
      (isStackMode c = true → capacity c = T) ∧
      (isStackMode c = false → T ≤ capacity c) ∧
      c.heapArray.isSome = !isStackMode c ∧
      ∀ buf, c.heapArray = some buf → buf.length = capacity c := by
  obtain ⟨c, e1, e2⟩ := run_Inv hT (ops.take k) (init_Inv T (α := α))
  refine ⟨c, e1, e2.1, ?_, ?_, ?_, ?_⟩
  · intro hs
    have hm : c.usingHeap = false := by simpa [isStackMode] using hs
    exact (e2.stack hm).2.1
  · intro hs
    have hm : c.usingHeap = true := by simpa [isStackMode] using hs
    exact (e2.heap hm).2.1
  · cases hm : c.usingHeap with
    | false => simp [isStackMode, hm, (e2.stack hm).2.2.2]
    | true =>
      obtain ⟨-, -, -, buf, hb, -⟩ := e2.heap hm
      simp [isStackMode, hm, hb]
  · intro buf hb
    cases hm : c.usingHeap with
    | false => rw [(e2.stack hm).2.2.2] at hb; cases hb
    | true =>
      obtain ⟨-, -, -, buf1, hb1, hl⟩ := e2.heap hm
      rw [hb1] at hb
      cases hb
      exact hl

/-- The instance of C1 at threshold 5 after the first seven calls of a
sequence that promotes, reserves, demotes and clears: the state then is in heap
mode with capacity 40. -/
theorem C1_invariant_preservation_witness :
    1 ≤ 5 ∧ ∃ c : State Nat,
      run 5 (List.take 7 [.push_back 1, .push_back 2, .push_back 3, .push_back 4, .push_back 5,
        .push_back 6, .reserve 30, .pop_back, .pop_back, .optimize, .clear, .pop_back])
        (init 5) = some c ∧
      size c ≤ capacity c ∧
      (isStackMode c = true → capacity c = 5) ∧
      (isStackMode c = false → 5 ≤ capacity c) ∧
      c.heapArray.isSome = !isStackMode c ∧
      ∀ buf, c.heapArray = some buf → buf.length = capacity c :=
  ⟨by decide, C1_invariant_preservation 5 (by decide) _ 7⟩

/-- For calls whose `push_back` arguments are objects outside the container:
for every threshold `T ≥ 1` and every finite sequence of such `push_back` and
`pop_back` calls on an empty container, iterating from `begin()` to `end()`
gives the list obtained by running the same calls on a plain list, `size()` is
its length, and `operator[]` at each position below `size()` returns the element
of that list at the position. -/
theorem runCalls_outside [Inhabited α] (T : Nat) (hT : 1 ≤ T) (calls : List (Call α)) :
    elements (runCalls T calls (init T)) = listCalls calls [] ∧
    size (runCalls T calls (init T)) = (listCalls calls []).length ∧
    ∀ i, i < (listCalls calls []).length →
      (operator_index (runCalls T calls (init T)) i).1
        = .ok ((listCalls calls []).getD i default) := by
  obtain ⟨h1, h2⟩ := runCalls_spec hT calls (init_Inv T (α := α))
  rw [elements_init] at h2
  have hlen := elements_length h1
  rw [h2] at hlen
  refine ⟨h2, hlen.symm, ?_⟩
  intro i hi
  rw [operator_index_lt _ h1 i (by omega), h2]

/-- C2 fails in the code for the call sequence `push_back(1)`, `push_back(2)`,
`push_back(3)`, `push_back(4)`, `push_back(c[0])` at threshold 2. After the
first four calls the container iterates as the plain list `[1, 2, 3, 4]`,
`c[0]` refers to the slot holding 1, and the same five calls on a plain list
give `[1, 2, 3, 4, 1]`; the fifth call finds `size() = capacity() = 4` in heap
mode, so `grow()` deletes the array `c[0]` refers to before
`heapArray[sz++] = val` reads it: the value stored fifth is read from a deleted
array. -/
theorem C2_alias_breaks_order :
    1 ≤ 2 ∧
    elements (runCalls 2 [.push_back 1, .push_back 2, .push_back 3, .push_back 4]
      (init 2 : State Nat)) = [1, 2, 3, 4] ∧
    listCalls [.push_back 1, .push_back 2, .push_back 3, .push_back 4] ([] : List Nat)
      = [1, 2, 3, 4] ∧
    isStackMode (runCalls 2 [.push_back 1, .push_back 2, .push_back 3, .push_back 4]
      (init 2 : State Nat)) = false ∧
    size (runCalls 2 [.push_back 1, .push_back 2, .push_back 3, .push_back 4]
      (init 2 : State Nat)) = 4 ∧
    capacity (runCalls 2 [.push_back 1, .push_back 2, .push_back 3, .push_back 4]
      (init 2 : State Nat)) = 4 ∧
    (operator_index (runCalls 2 [.push_back 1, .push_back 2, .push_back 3, .push_back 4]
      (init 2 : State Nat)) 0).1 = .ok 1 ∧
    listCalls [.push_back 1, .push_back 2, .push_back 3, .push_back 4, .push_back 1]
      ([] : List Nat) = [1, 2, 3, 4, 1] ∧
    (push_back always 2 (runCalls 2 [.push_back 1, .push_back 2, .push_back 3, .push_back 4]
      (init 2 : State Nat)) (.element 0)).1 = .error .undefined_behaviour :=
  ⟨by decide, by decide, by decide, by decide, by decide, by decide, rfl, by decide, rfl⟩

/-- C3: for every threshold `T ≥ 1` and values `v1..v(T+1)`, appending them in
order with `push_back` to an empty container leaves it in heap mode with
`size() = T + 1`, `capacity() = 2T`, the iteration sequence equal to the values
in insertion order, and `operator[]` at each position `0..T` returning the
value inserted there. -/
theorem C3_promotion [Inhabited α] (T : Nat) (hT : 1 ≤ T) (vs : List α)
    (hlen : vs.length = T + 1) :
    isStackMode (pushAll always T vs (init T)) = false ∧
    size (pushAll always T vs (init T)) = T + 1 ∧
    capacity (pushAll always T vs (init T)) = 2 * T ∧
    elements (pushAll always T vs (init T)) = vs ∧
    ∀ i, i ≤ T →
      (operator_index (pushAll always T vs (init T)) i).1 = .ok (vs.getD i default) := by
  obtain ⟨h1, h2, h3, h4, h5⟩ := pushAll_promoted hT vs hlen
  refine ⟨by simp [isStackMode, h2], h3, h4, h5, ?_⟩
  intro i hi
  rw [operator_index_lt _ h1 i (by omega), h5]

/-- The instance of C3 of the specification: threshold 5, inserting
1, 2, 3, 4, 5, 6 gives heap mode, count 6, capacity 10 and contents
`[1, 2, 3, 4, 5, 6]`. -/
theorem C3_promotion_witness :
    1 ≤ 5 ∧ [1, 2, 3, 4, 5, 6].length = 5 + 1 ∧
    isStackMode (pushAll always 5 [1, 2, 3, 4, 5, 6] (init 5 : State Nat)) = false ∧
    size (pushAll always 5 [1, 2, 3, 4, 5, 6] (init 5 : State Nat)) = 6 ∧
    capacity (pushAll always 5 [1, 2, 3, 4, 5, 6] (init 5 : State Nat)) = 10 ∧
    elements (pushAll always 5 [1, 2, 3, 4, 5, 6] (init 5 : State Nat)) = [1, 2, 3, 4, 5, 6] :=
  have h := C3_promotion 5 (by decide) [1, 2, 3, 4, 5, 6] (by decide)
  ⟨by decide, by decide, h.1, h.2.1, h.2.2.1, h.2.2.2.1⟩

theorem take_set_of_le (l : List α) (n m : Nat) (a : α) (h : m ≤ n) :
    (l.set n a).take m = l.take m :=
  List.ext_getElem? fun i => by
    rw [List.getElem?_take, List.getElem?_take]
    split
    · rw [List.getElem?_set_ne (by omega)]
    · rfl

/-- At the threshold boundary one `push_back` followed by one `pop_back`
gives back the state it started from. -/
theorem push_pop_boundary [Inhabited α] {T : Nat} (hT : 1 ≤ T) {c : State α} (h : Inv T c)
    (hm : c.usingHeap = false) (hsz : c.sz = T) (x : α) :
    pop_back T (push_back always T c (.outside x)).2 = (.ok (), c) := by
  obtain ⟨h1, h2, h3, h4⟩ := h.stack hm
  rw [push_back_promote hm hsz]
  rcases c with ⟨sz, cap, uh, st, hp⟩
  simp only at hm hsz h1 h2 h3 h4
  subst hm hsz h2 h4
  have hl : (moveLoop cap st (List.replicate (cap * 2) (default : α))).length = cap * 2 := by
    rw [moveLoop_length]; simp
  have hmv : moveLoop cap ((moveLoop cap st (List.replicate (cap * 2) (default : α))).set cap x) st
      = st := by
    rw [moveLoop_eq _ _ _ (by rw [List.length_set, hl]; omega) (by omega)]
    rw [List.drop_of_length_le (by omega), List.append_nil]
    have := take_moveLoop cap st (List.replicate (cap * 2) (default : α)) (by omega)
      (by simp; omega)
    rw [take_set_of_le _ _ _ _ (le_refl _), this, List.take_of_length_le (by omega)]
  simp [pop_back, storeHeap, demoteToStack, heapSlots, hmv]

theorem oscillate_boundary [Inhabited α] {T : Nat} (hT : 1 ≤ T) {c : State α} (h : Inv T c)
    (hm : c.usingHeap = false) (hsz : c.sz = T) (xs : List α) :
    oscillate T xs c = c := by
  induction xs with
  | nil => rfl
  | cons x xs ih => rw [oscillate, push_pop_boundary hT h hm hsz x]; exact ih

/-- C4: for every threshold `T ≥ 1`, (i) after appending `T + 1` values to an
empty container one `pop_back` succeeds and restores stack mode with
`size() = T`, `capacity() = T` and the first `T` values as contents; and
(ii) for every container in stack mode with `size() = T` and every value `x`,
`push_back(x)` promotes and the following `pop_back()` returns normally with
the container in the state it had before the two calls, so any number of such
cycles ends in that same state. -/
theorem C4_round_trip [Inhabited α] (T : Nat) (hT : 1 ≤ T) (vs : List α)
    (hlen : vs.length = T + 1) (c : State α) (h : Inv T c) (hm : isStackMode c = true)
    (hsz : size c = T) (x : α) (xs : List α) :
    ((pop_back T (pushAll always T vs (init T))).1 = .ok () ∧
      isStackMode (pop_back T (pushAll always T vs (init T))).2 = true ∧
      size (pop_back T (pushAll always T vs (init T))).2 = T ∧
      capacity (pop_back T (pushAll always T vs (init T))).2 = T ∧
      elements (pop_back T (pushAll always T vs (init T))).2 = vs.take T) ∧
    ((push_back always T c (.outside x)).1 = .ok () ∧
      isStackMode (push_back always T c (.outside x)).2 = false ∧
      pop_back T (push_back always T c (.outside x)).2 = (.ok (), c) ∧
      oscillate T xs c = c) := by
  have hm1 : c.usingHeap = false := by simpa [isStackMode] using hm
  constructor
  · obtain ⟨h1, h2, h3, h4, h5⟩ := pushAll_promoted hT vs hlen
    obtain ⟨g1, g2, g3, g4, g5, g6⟩ := pop_back_nonempty h1 (by rw [h3]; omega)
    rw [h3] at g3 g5 g6
    rw [h2] at g5 g6
    refine ⟨g1, ?_, g3, ?_, ?_⟩
    · rw [isStackMode, g5]; simp
    · rw [capacity, g6]; simp
    · rw [g4, h5, List.dropLast_eq_take, hlen]; rfl
  · obtain ⟨g1, -, -, -, g5, -⟩ := push_back_always hT h x
    refine ⟨g1, ?_, push_pop_boundary hT h hm1 hsz x, oscillate_boundary hT h hm1 hsz xs⟩
    rw [isStackMode, g5, hm1]
    simp [show c.sz = T from hsz]

/-- The instance of C4 of the specification: threshold 5, `[1, 2, 3, 4, 5, 6]`
then one `pop_back` gives stack mode, count 5, capacity 5 and `[1, 2, 3, 4, 5]`;
and three push/pop cycles on that state give it back. -/
theorem C4_round_trip_witness :
    1 ≤ 5 ∧ [1, 2, 3, 4, 5, 6].length = 5 + 1 ∧
    Inv 5 (pushAll always 5 [1, 2, 3, 4, 5] (init 5 : State Nat)) ∧
    isStackMode (pushAll always 5 [1, 2, 3, 4, 5] (init 5 : State Nat)) = true ∧
    size (pushAll always 5 [1, 2, 3, 4, 5] (init 5 : State Nat)) = 5 ∧
    (isStackMode (pop_back 5 (pushAll always 5 [1, 2, 3, 4, 5, 6] (init 5 : State Nat))).2 = true ∧
      size (pop_back 5 (pushAll always 5 [1, 2, 3, 4, 5, 6] (init 5 : State Nat))).2 = 5 ∧
      capacity (pop_back 5 (pushAll always 5 [1, 2, 3, 4, 5, 6] (init 5 : State Nat))).2 = 5 ∧
      elements (pop_back 5 (pushAll always 5 [1, 2, 3, 4, 5, 6] (init 5 : State Nat))).2
        = [1, 2, 3, 4, 5]) ∧
    oscillate 5 [6, 7, 8] (pushAll always 5 [1, 2, 3, 4, 5] (init 5 : State Nat))
      = pushAll always 5 [1, 2, 3, 4, 5] (init 5 : State Nat) :=
  have h := C4_round_trip 5 (by decide) [1, 2, 3, 4, 5, 6] (by decide)
    (pushAll always 5 [1, 2, 3, 4, 5] (init 5 : State Nat)) (by decide) (by decide) (by decide)
    6 [6, 7, 8]
  ⟨by decide, by decide, by decide, by decide, by decide,
    ⟨h.1.2.1, h.1.2.2.1, h.1.2.2.2.1, h.1.2.2.2.2⟩, h.2.2.2.2⟩

/-- For an argument that is an object outside the container: on every state
satisfying the invariants, with allocation succeeding, `push_back(v)` returns
normally, raises `size()` by one and makes the contents the old contents
followed by `v`; stack mode below the threshold stays stack mode with capacity
`T`, stack mode at the threshold becomes heap mode with capacity `2T`, heap mode
at capacity stays heap mode with twice the capacity, heap mode below capacity
keeps mode and capacity; and the moving overload does what the copying overload
does. -/
theorem push_back_outside [Inhabited α] (T : Nat) (hT : 1 ≤ T) (c : State α) (h : Inv T c)
    (v : α) :
    (push_back always T c (.outside v)).1 = .ok () ∧
    size (push_back always T c (.outside v)).2 = size c + 1 ∧
    elements (push_back always T c (.outside v)).2 = elements c ++ [v] ∧
    (isStackMode c = true → size c < T →
      isStackMode (push_back always T c (.outside v)).2 = true ∧
      capacity (push_back always T c (.outside v)).2 = capacity c ∧ capacity c = T) ∧
    (isStackMode c = true → size c = T →
      isStackMode (push_back always T c (.outside v)).2 = false ∧
      capacity (push_back always T c (.outside v)).2 = 2 * T) ∧
    (isStackMode c = false → size c = capacity c →
      isStackMode (push_back always T c (.outside v)).2 = false ∧
      capacity (push_back always T c (.outside v)).2 = 2 * capacity c) ∧
    (isStackMode c = false → size c < capacity c →
      isStackMode (push_back always T c (.outside v)).2 = false ∧
      capacity (push_back always T c (.outside v)).2 = capacity c) ∧
    push_back_move always T c (.outside v) = push_back always T c (.outside v) := by
  obtain ⟨g1, g2, g3, g4, g5, g6⟩ := push_back_always hT h v
  simp only [isStackMode, size, capacity]
  refine ⟨g1, g3, g4, ?_, ?_, ?_, ?_, rfl⟩
  · intro hs hlt
    have hm : c.usingHeap = false := by simpa using hs
    obtain ⟨-, h2, -⟩ := h.stack hm
    rw [g5, g6, hm]
    have h1 : c.sz ≠ T := by omega
    have h3 : c.sz ≠ c.cap := by omega
    simp [h1, h3, h2]
  · intro hs heq
    have hm : c.usingHeap = false := by simpa using hs
    obtain ⟨-, h2, -⟩ := h.stack hm
    rw [g5, g6, hm]
    have h3 : c.sz = c.cap := by omega
    simp [heq, h3, h2]
  · intro hs heq
    have hm : c.usingHeap = true := by simpa using hs
    rw [g5, g6, hm]
    simp [heq]
  · intro hs hlt
    have hm : c.usingHeap = true := by simpa using hs
    rw [g5, g6, hm]
    have h3 : c.sz ≠ c.cap := by omega
    simp [h3]

/-- In heap mode with `size() = capacity()` and the growth allocation granted,
`push_back` of a reference to any slot of the container reads that slot after
`grow()` has deleted its array. -/
theorem push_back_element_grow [Inhabited α] (mem : Nat → Bool) (T : Nat) (c : State α)
    (hm : c.usingHeap = true) (hsz : c.sz = c.cap) (hmem : mem (c.cap * 2) = true) (i : Nat) :
    push_back mem T c (.element i) = (.error .undefined_behaviour, (grow mem c).2) ∧
    push_back_move mem T c (.element i) = (.error .undefined_behaviour, (grow mem c).2) := by
  have hmove : push_back_move mem T c (.element i) = push_back mem T c (.element i) := rfl
  rw [hmove]
  refine ⟨?_, ?_⟩ <;> simp [push_back, hm, hsz, grow, newArray, hmem, Arg.read]

/-- C5 fails in the code at `c.push_back(c[0])` on the container of threshold 2
that holds `[1, 2, 3, 4]`. That state satisfies the invariants, is in heap mode
with `size() = capacity() = 4`, and `c[0]` refers to the slot holding 1. Either
overload of `push_back` first runs `grow()`, which deletes the array the
argument refers to, and then reads the argument: the value stored is read from
a deleted array, where the claim has the contents become `[1, 2, 3, 4, 1]`.
The same value passed from outside the container is appended, and the branches
that do not grow read the argument while its array is live: on `[1, 2, 3]`
(below capacity) and on `[1, 2]` (promotion) `c.push_back(c[0])` appends 1.
In the free store of the pointer-level model the cell the argument refers to
holds `[1, 2, 3, 4]` before the call and is deleted when the argument is
read. -/
theorem C5_push_back_reads_deleted_array :
    Inv 2 (pushAll always 2 [1, 2, 3, 4] (init 2 : State Nat)) ∧
    isStackMode (pushAll always 2 [1, 2, 3, 4] (init 2 : State Nat)) = false ∧
    size (pushAll always 2 [1, 2, 3, 4] (init 2 : State Nat)) = 4 ∧
    capacity (pushAll always 2 [1, 2, 3, 4] (init 2 : State Nat)) = 4 ∧
    elements (pushAll always 2 [1, 2, 3, 4] (init 2 : State Nat)) = [1, 2, 3, 4] ∧
    (operator_index (pushAll always 2 [1, 2, 3, 4] (init 2 : State Nat)) 0).1 = .ok 1 ∧
    (push_back always 2 (pushAll always 2 [1, 2, 3, 4] (init 2 : State Nat)) (.element 0)).1
      = .error .undefined_behaviour ∧
    (push_back_move always 2 (pushAll always 2 [1, 2, 3, 4] (init 2 : State Nat))
      (.element 0)).1 = .error .undefined_behaviour ∧
    elements (push_back always 2 (pushAll always 2 [1, 2, 3, 4] (init 2 : State Nat))
      (.outside 1)).2 = [1, 2, 3, 4, 1] ∧
    elements (push_back always 2 (pushAll always 2 [1, 2, 3] (init 2 : State Nat))
      (.element 0)).2 = [1, 2, 3, 1] ∧
    elements (push_back always 2 (pushAll always 2 [1, 2] (init 2 : State Nat))
      (.element 0)).2 = [1, 2, 1] ∧
    Mem.view (Mem.World.call 2 Mem.demoWorld .first (.push_back 4)).heap
        (Mem.World.call 2 Mem.demoWorld .first (.push_back 4)).first
      = pushAll always 2 [1, 2, 3, 4] (init 2 : State Nat) ∧
    Mem.read (Mem.World.call 2 Mem.demoWorld .first (.push_back 4)).heap
        (Mem.World.call 2 Mem.demoWorld .first (.push_back 4)).first.heapArray
      = some [1, 2, 3, 4] ∧
    (Mem.push_back always 2 (Mem.World.call 2 Mem.demoWorld .first (.push_back 4)).heap
        (Mem.World.call 2 Mem.demoWorld .first (.push_back 4)).first (.element 0)).1
      = .error .undefined_behaviour ∧
    Mem.read
        (Mem.push_back always 2 (Mem.World.call 2 Mem.demoWorld .first (.push_back 4)).heap
          (Mem.World.call 2 Mem.demoWorld .first (.push_back 4)).first (.element 0)).2.1
        (Mem.World.call 2 Mem.demoWorld .first (.push_back 4)).first.heapArray
      = none :=
  ⟨by decide, by decide, by decide, by decide, by decide, rfl, rfl, rfl, by decide, by decide,
    by decide, by decide, by decide, rfl, by decide⟩

/-- C6: on every state satisfying the invariants with `size() > 0`,
`pop_back()` returns normally, lowers `size()` by one and removes only the last
element; from heap mode with the new count at most `T` the container becomes
stack mode with `capacity() = T`, and in every other case mode and capacity
are unchanged. -/
theorem C6_pop_back [Inhabited α] (T : Nat) (c : State α) (h : Inv T c) (hpos : 0 < size c) :
    (pop_back T c).1 = .ok () ∧
    size (pop_back T c).2 = size c - 1 ∧
    elements (pop_back T c).2 = (elements c).dropLast ∧
    (isStackMode c = false → size c - 1 ≤ T →
      isStackMode (pop_back T c).2 = true ∧ capacity (pop_back T c).2 = T) ∧
    (¬ (isStackMode c = false ∧ size c - 1 ≤ T) →
      isStackMode (pop_back T c).2 = isStackMode c ∧
      capacity (pop_back T c).2 = capacity c) := by
  have hne : c.sz ≠ 0 := by simp only [size] at hpos; omega
  obtain ⟨g1, g2, g3, g4, g5, g6⟩ := pop_back_nonempty h hne
  simp only [isStackMode, size, capacity]
  refine ⟨g1, g3, g4, ?_, ?_⟩
  · intro hs hle
    have hm : c.usingHeap = true := by simpa using hs
    rw [g5, g6, hm]
    simp [hle]
  · intro hn
    rw [g5, g6]
    cases hm : c.usingHeap with
    | false => simp
    | true =>
      have hgt : ¬ (c.sz - 1 ≤ T) := fun hle => hn ⟨by simp [hm], hle⟩
      simp [hgt]

/-- The instance of C6 on the heap-mode state `[1, 2, 3]` at threshold 2:
the call demotes and leaves `[1, 2]`. -/
theorem C6_pop_back_witness :
    Inv 2 (pushAll always 2 [1, 2, 3] (init 2 : State Nat)) ∧
    0 < size (pushAll always 2 [1, 2, 3] (init 2 : State Nat)) ∧
    (pop_back 2 (pushAll always 2 [1, 2, 3] (init 2 : State Nat))).1 = .ok () ∧
    size (pop_back 2 (pushAll always 2 [1, 2, 3] (init 2 : State Nat))).2
      = size (pushAll always 2 [1, 2, 3] (init 2 : State Nat)) - 1 ∧
    elements (pop_back 2 (pushAll always 2 [1, 2, 3] (init 2 : State Nat))).2
      = (elements (pushAll always 2 [1, 2, 3] (init 2 : State Nat))).dropLast :=
  have h := C6_pop_back 2 (pushAll always 2 [1, 2, 3] (init 2 : State Nat))
    (by decide) (by decide)
  ⟨by decide, by decide, h.1, h.2.1, h.2.2.1⟩

/-- In a state satisfying the invariants the live array has `cap` slots. -/
theorem begin_length {T : Nat} {c : State α} (h : Inv T c) : (begin_ c).length = c.cap := by
  cases hm : c.usingHeap with
  | false =>
    obtain ⟨-, h2, h3, -⟩ := h.stack hm
    simp [begin_, hm, h3, h2]
  | true =>
    obtain ⟨-, -, -, buf, h4, h5⟩ := h.heap hm
    simp [begin_, hm, heapSlots, h4, h5]

/-- Outside the invariants `front()`, `back()` and `operator[]` can read a slot
that does not exist: in heap mode with a null `heapArray`, count 3 and capacity
4 (the state a failed copy assignment leaves behind), each of them dereferences
the null pointer. -/
theorem front_null_buffer :
    ¬ Inv 2 (State.mk 3 4 true [7, 8] none : State Nat) ∧
    (front (State.mk 3 4 true [7, 8] none : State Nat)).1 = .error .undefined_behaviour ∧
    (back (State.mk 3 4 true [7, 8] none : State Nat)).1 = .error .undefined_behaviour ∧
    (operator_index (State.mk 3 4 true [7, 8] none : State Nat) 1).1
      = .error .undefined_behaviour :=
  ⟨by decide, rfl, rfl, rfl⟩

/-- C7: in every state satisfying the invariants, `pop_back()`, `front()` and
`back()` throw exactly when `size() = 0`; the exception is then the
`std::out_of_range` of an empty container and the state is left as it was; when
`size() > 0`, `front()` and `back()` return the elements at index 0 and
`size() - 1` and leave the state as it was. -/
theorem C7_empty_container [Inhabited α] (T : Nat) (c : State α) (h : Inv T c) :
    ((∃ e, (pop_back T c).1 = .error e) ↔ size c = 0) ∧
    ((∃ e, (front c).1 = .error e) ↔ size c = 0) ∧
    ((∃ e, (back c).1 = .error e) ↔ size c = 0) ∧
    (size c = 0 →
      pop_back T c = (.error (.out_of_range "pop_back on empty container"), c) ∧
      front c = (.error (.out_of_range "front() on empty container"), c) ∧
      back c = (.error (.out_of_range "back() on empty container"), c)) ∧
    (0 < size c →
      front c = (.ok ((elements c).getD 0 default), c) ∧
      back c = (.ok ((elements c).getD (size c - 1) default), c) ∧
      front c = operator_index c 0 ∧ back c = operator_index c (size c - 1)) := by
  simp only [size]
  by_cases h0 : c.sz = 0
  · have hp := pop_back_empty T (c := c) h0
    have hf : front c = (.error (.out_of_range "front() on empty container"), c) := by
      simp [front, empty, h0]
    have hb : back c = (.error (.out_of_range "back() on empty container"), c) := by
      simp [back, empty, h0]
    refine ⟨⟨fun _ => h0, fun _ => ⟨_, by rw [hp]⟩⟩, ⟨fun _ => h0, fun _ => ⟨_, by rw [hf]⟩⟩,
      ⟨fun _ => h0, fun _ => ⟨_, by rw [hb]⟩⟩, fun _ => ⟨hp, hf, hb⟩, fun hpos => by omega⟩
  · have hf : front c = operator_index c 0 := by simp [front, empty, h0]
    have hb : back c = operator_index c (c.sz - 1) := by simp [back, empty, h0]
    have hf1 := operator_index_lt c h 0 (by omega)
    have hb1 := operator_index_lt c h (c.sz - 1) (by omega)
    have hp : ∃ c1, pop_back T c = (.ok (), c1) := by
      simp only [pop_back, h0, if_false]
      split
      · exact ⟨_, rfl⟩
      · exact ⟨_, rfl⟩
    obtain ⟨c1, hp⟩ := hp
    refine ⟨⟨?_, fun h1 => absurd h1 h0⟩, ⟨?_, fun h1 => absurd h1 h0⟩,
      ⟨?_, fun h1 => absurd h1 h0⟩, fun h1 => absurd h1 h0,
      fun _ => ⟨by rw [hf, hf1], by rw [hb, hb1], hf, hb⟩⟩
    · rintro ⟨e, he⟩; rw [hp] at he; cases he
    · rintro ⟨e, he⟩; rw [hf, hf1] at he; cases he
    · rintro ⟨e, he⟩; rw [hb, hb1] at he; cases he

/-- The instance of C7 of the specification: `pop_back()`, `front()` and
`back()` on a freshly constructed container with threshold 5 throw and leave
it as it was. -/
theorem C7_empty_container_witness :
    Inv 5 (init 5 : State Nat) ∧ size (init 5 : State Nat) = 0 ∧
    pop_back 5 (init 5 : State Nat)
      = (.error (.out_of_range "pop_back on empty container"), init 5) ∧
    front (init 5 : State Nat) = (.error (.out_of_range "front() on empty container"), init 5) ∧
    back (init 5 : State Nat) = (.error (.out_of_range "back() on empty container"), init 5) :=
  ⟨by decide, rfl, (C7_empty_container 5 (init 5 : State Nat) (by decide)).2.2.2.1 rfl⟩

/-- C8: in every state reachable from a freshly constructed container and for
every index `i`, both overloads of `operator[]` throw exactly when
`i ≥ size()`, the exception being `std::out_of_range`; when `i < size()` they
return the slot `i` of the live array, which exists and is the `i`-th element
of the iteration sequence; in both cases the state is left as it was. -/
theorem C8_index_access [Inhabited α] (T : Nat) (hT : 1 ≤ T) (ops : List (Op α))
    (c : State α) (hreach : run T ops (init T) = some c) (i : Nat) :
    ((∃ e, (operator_index c i).1 = .error e) ↔ size c ≤ i) ∧
    ((∃ e, (operator_index_const c i).1 = .error e) ↔ size c ≤ i) ∧
    (size c ≤ i →
      operator_index c i = (.error (.out_of_range "Index out of bounds"), c) ∧
      operator_index_const c i = (.error (.out_of_range "Index out of bounds"), c)) ∧
    (i < size c → ∃ x, (begin_ c)[i]? = some x ∧ (elements c)[i]? = some x ∧
      operator_index c i = (.ok x, c) ∧ operator_index_const c i = (.ok x, c)) := by
  obtain ⟨c1, e1, hinv⟩ := run_Inv hT ops (init_Inv T (α := α))
  rw [hreach] at e1
  cases e1
  have hconst : operator_index_const c i = operator_index c i := rfl
  simp only [size, hconst]
  have hlen := begin_length hinv
  by_cases hi : c.sz ≤ i
  · have he := operator_index_ge c i hi
    refine ⟨⟨fun _ => hi, fun _ => ⟨_, by rw [he]⟩⟩, ⟨fun _ => hi, fun _ => ⟨_, by rw [he]⟩⟩,
      fun _ => ⟨he, he⟩, fun h => by omega⟩
  · have hlt : i < c.sz := by omega
    have he := operator_index_lt c hinv i hlt
    have hb : i < (begin_ c).length := by rw [hlen]; have := hinv.1; omega
    have hx : (elements c).getD i default = (begin_ c)[i] := by
      rw [List.getD_eq_getElem?_getD, elements, end_, List.getElem?_take_of_lt hlt,
        List.getElem?_eq_getElem hb]
      rfl
    refine ⟨⟨?_, fun h => absurd h hi⟩, ⟨?_, fun h => absurd h hi⟩, fun h => absurd h hi,
      fun _ => ⟨(begin_ c)[i], List.getElem?_eq_getElem hb, ?_, by rw [he, hx], by rw [he, hx]⟩⟩
    · rintro ⟨e, h⟩; rw [he] at h; cases h
    · rintro ⟨e, h⟩; rw [he] at h; cases h
    · rw [elements, end_, List.getElem?_take_of_lt hlt, List.getElem?_eq_getElem hb]

/-- The instance of C8 of the specification: `operator[](0)` on a freshly
constructed container with threshold 5 throws `std::out_of_range` and leaves
the container as it was. -/
theorem C8_index_access_witness :
    1 ≤ 5 ∧ run 5 [] (init 5) = some (init 5 : State Nat) ∧
    operator_index (init 5 : State Nat) 0
      = (.error (.out_of_range "Index out of bounds"), init 5) :=
  ⟨by decide, rfl,
    ((C8_index_access 5 (by decide) [] (init 5 : State Nat) rfl 0).2.2.1 (le_refl 0)).1⟩

/-- C9: on every state satisfying the invariants, with allocation succeeding
and fuel at least `n`, `reserve(n)` returns normally; if `n ≤ capacity()` the
state is unchanged, otherwise the container ends in heap mode with
`capacity() ≥ n`; in both cases the capacity does not decrease, heap mode is
not left, and `size()` and the contents are unchanged. -/
theorem C9_reserve [Inhabited α] (T : Nat) (hT : 1 ≤ T) (c : State α) (h : Inv T c)
    (n fuel : Nat) (hf : n ≤ fuel) :
    ∃ c1, reserve always fuel c n = some (.ok (), c1) ∧
      (n ≤ capacity c → c1 = c) ∧
      (capacity c < n → isStackMode c1 = false ∧ n ≤ capacity c1) ∧
      capacity c ≤ capacity c1 ∧
      (isStackMode c = false → isStackMode c1 = false) ∧
      size c1 = size c ∧ elements c1 = elements c := by
  obtain ⟨c1, e1, -, e3, e4, e5, e6, e7, e8, e9⟩ := reserve_always hT n fuel h hf
  refine ⟨c1, e1, e7, fun hlt => ⟨by simp [isStackMode, e8 hlt], e6⟩, e5, ?_, e3, e4⟩
  intro hs
  have hm : c.usingHeap = true := by simpa [isStackMode] using hs
  simp [isStackMode, e9 hm]

/-- The instance of C9 of the specification: at threshold 5, `reserve(100)` on
an empty container returns normally in heap mode with capacity at least 100
and count 0, and a following `reserve(50)` changes nothing. -/
theorem C9_reserve_witness :
    1 ≤ 5 ∧ Inv 5 (init 5 : State Nat) ∧ 100 ≤ 100 ∧
    ∃ c1 : State Nat, reserve always 100 (init 5) 100 = some (.ok (), c1) ∧
      isStackMode c1 = false ∧ 100 ≤ capacity c1 ∧ size c1 = 0 ∧
      reserve always 50 c1 50 = some (.ok (), c1) :=
  have h := C9_reserve 5 (by decide) (init 5 : State Nat) (by decide) 100 100 (le_refl 100)
  ⟨by decide, by decide, le_refl 100,
    h.elim fun c1 hc =>
      ⟨c1, hc.1, (hc.2.2.1 (by decide)).1, (hc.2.2.1 (by decide)).2, hc.2.2.2.2.2.1,
        by
          have h50 : (50 : Nat) ≤ c1.cap := le_trans (by decide) (hc.2.2.1 (by decide)).2
          simp [reserve, h50]⟩⟩

/-- C10: on every state satisfying the invariants and for every argument
`val` (an object outside the container or one of its own slots), if the
allocation that `push_back(val)` requests fails (the `2T` slots of a promotion
in stack mode with `size() = T`, or the `2 * capacity()` slots of a growth in
heap mode with `size() = capacity()`), then either overload throws
`std::bad_alloc` and the whole state, the live array and its contents included,
is the state before the call. -/
theorem C10_push_back_alloc_failure [Inhabited α] (mem : Nat → Bool) (T : Nat) (c : State α)
    (h : Inv T c) (val : Arg α)
    (hfail : (isStackMode c = true ∧ size c = T ∧ mem (2 * T) = false) ∨
      (isStackMode c = false ∧ size c = capacity c ∧ mem (2 * capacity c) = false)) :
    push_back mem T c val = (.error .bad_alloc, c) ∧
    push_back_move mem T c val = (.error .bad_alloc, c) := by
  have hmove : push_back_move mem T c val = push_back mem T c val := rfl
  rw [hmove]
  refine ⟨?_, ?_⟩ <;>
  · rcases hfail with ⟨hs, hsz, hmem⟩ | ⟨hs, hsz, hmem⟩
    · have hm : c.usingHeap = false := by simpa [isStackMode] using hs
      obtain ⟨-, h2, -⟩ := h.stack hm
      have hmem1 : mem (c.cap * 2) = false := by rw [h2, Nat.mul_comm]; exact hmem
      simp only [size] at hsz
      simp [push_back, hm, hsz, promoteToHeap, newArray, hmem1]
    · have hm : c.usingHeap = true := by simpa [isStackMode] using hs
      have hmem1 : mem (c.cap * 2) = false := by rw [Nat.mul_comm]; exact hmem
      simp only [size, capacity] at hsz
      simp [push_back, hm, hsz, grow, newArray, hmem1]

/-- The instance of C10 at threshold 2 on the full stack-mode state `[1, 2]`
with an allocator that refuses every request of 4 slots or more. -/
theorem C10_push_back_alloc_failure_witness :
    Inv 2 (pushAll always 2 [1, 2] (init 2 : State Nat)) ∧
    (isStackMode (pushAll always 2 [1, 2] (init 2 : State Nat)) = true ∧
      size (pushAll always 2 [1, 2] (init 2 : State Nat)) = 2 ∧
      (fun n => decide (n < 4)) (2 * 2) = false) ∧
    push_back (fun n => decide (n < 4)) 2 (pushAll always 2 [1, 2] (init 2 : State Nat))
        (.outside 3)
      = (.error .bad_alloc, pushAll always 2 [1, 2] (init 2 : State Nat)) :=
  ⟨by decide, by decide,
    (C10_push_back_alloc_failure (fun n => decide (n < 4)) 2
      (pushAll always 2 [1, 2] (init 2 : State Nat)) (by decide) (.outside 3)
      (Or.inl (by decide))).1⟩

/-! ## `reserve` with an allocator that may refuse -/

theorem grow_of_mem [Inhabited α] (mem : Nat → Bool) (c : State α)
    (hmem : mem (c.cap * 2) = true) : grow mem c = grow always c := by
  simp [grow, newArray, always, hmem]

theorem grow_refused [Inhabited α] (mem : Nat → Bool) (c : State α)
    (hmem : mem (c.cap * 2) = false) : grow mem c = (.error .bad_alloc, c) := by
  simp [grow, newArray, hmem]

theorem promoteToHeap_of_mem [Inhabited α] (mem : Nat → Bool) (c : State α)
    (hmem : mem (c.cap * 2) = true) : promoteToHeap mem c = promoteToHeap always c := by
  simp [promoteToHeap, newArray, always, hmem]

theorem promoteToHeap_refused [Inhabited α] (mem : Nat → Bool) (c : State α)
    (hmem : mem (c.cap * 2) = false) : promoteToHeap mem c = (.error .bad_alloc, c) := by
  simp [promoteToHeap, newArray, hmem]

/-- A chain of `j` doublings from capacity `b * 2`, each needed and granted,
preceded by one needed and granted doubling from `b`, is a chain of `j + 1`
doublings from `b`. -/
theorem doubling_chain_succ (mem : Nat → Bool) (b newCap j : Nat) (h0 : b < newCap)
    (hm0 : mem (b * 2) = true)
    (h : ∀ i, i < j → b * 2 * 2 ^ i < newCap ∧ mem (b * 2 * 2 ^ (i + 1)) = true) :
    ∀ i, i < j + 1 → b * 2 ^ i < newCap ∧ mem (b * 2 ^ (i + 1)) = true := by
  intro i hi
  cases i with
  | zero => simpa using ⟨h0, hm0⟩
  | succ i =>
    obtain ⟨h1, h2⟩ := h i (by omega)
    have e1 : b * 2 ^ (i + 1) = b * 2 * 2 ^ i := by rw [pow_succ]; ring
    have e2 : b * 2 ^ (i + 1 + 1) = b * 2 * 2 ^ (i + 1) := by rw [pow_succ]; ring
    rw [e1, e2]
    exact ⟨h1, h2⟩

/-- What the loop of `reserve` does with any allocator and enough fuel: it
ends after `j` granted doublings, either normally on reaching `newCap` or with
`bad_alloc` on the first refused request, and keeps count and elements. -/
theorem reserveLoop_mem [Inhabited α] (mem : Nat → Bool) {T : Nat} (newCap fuel : Nat)
    {c : State α} (h : Inv T c) (hm : c.usingHeap = true) (hc : 1 ≤ c.cap)
    (hf : newCap - c.cap < fuel) :
    ∃ r c1 j, reserveLoop mem newCap fuel c = some (r, c1) ∧ Inv T c1 ∧
      c1.usingHeap = true ∧ c1.sz = c.sz ∧ elements c1 = elements c ∧
      c1.stackArray = c.stackArray ∧ c1.cap = c.cap * 2 ^ j ∧
      (∀ i, i < j → c.cap * 2 ^ i < newCap ∧ mem (c.cap * 2 ^ (i + 1)) = true) ∧
      ((r = .ok () ∧ newCap ≤ c1.cap) ∨
        (r = .error .bad_alloc ∧ c1.cap < newCap ∧ mem (c1.cap * 2) = false)) ∧
      (j = 0 → c1 = c) := by
  induction fuel generalizing c with
  | zero => omega
  | succ k ih =>
    rw [reserveLoop]
    by_cases hlt : c.cap < newCap
    · rw [if_pos hlt]
      cases hmem : mem (c.cap * 2) with
      | false =>
        rw [grow_refused mem c hmem]
        exact ⟨_, c, 0, rfl, h, hm, rfl, rfl, rfl, by simp, fun i hi => by omega,
          Or.inr ⟨rfl, hlt, hmem⟩, fun _ => rfl⟩
      | true =>
        rw [grow_of_mem mem c hmem]
        obtain ⟨g1, g2, g3, g4, g5, g6, g7⟩ := grow_always h hm
        rcases hg : grow always c with ⟨_ | _, c0⟩
        · rw [hg] at g1; simp at g1
        · rw [hg] at g2 g3 g4 g5 g6 g7
          simp only at g2 g3 g4 g5 g6 g7
          obtain ⟨r, c1, j, e1, e2, e3, e4, e5, e6, e7, e8, e9, -⟩ :=
            ih g2 g3 (by omega) (by omega)
          rw [g6] at e7 e8
          refine ⟨r, c1, j + 1, e1, e2, e3, by omega, by rw [e5, g5], by rw [e6, g7], ?_,
            doubling_chain_succ mem c.cap newCap j hlt hmem e8, e9, fun hj => by omega⟩
          rw [e7, pow_succ]; ring
    · rw [if_neg hlt]
      exact ⟨_, c, 0, rfl, h, hm, rfl, rfl, rfl, by simp, fun i hi => by omega,
        Or.inl ⟨rfl, by omega⟩, fun _ => rfl⟩

/-- What `reserve` does beyond the current capacity with any allocator and
enough fuel: `k` granted doublings, then a normal return in heap mode on
reaching `newCap`, or `bad_alloc` on the first refused request. -/
theorem reserve_mem [Inhabited α] (mem : Nat → Bool) {T : Nat} (hT : 1 ≤ T) (newCap fuel : Nat)
    {c : State α} (h : Inv T c) (hgt : c.cap < newCap) (hf : newCap ≤ fuel) :
    ∃ r c1 k, reserve mem fuel c newCap = some (r, c1) ∧ Inv T c1 ∧
      c1.sz = c.sz ∧ elements c1 = elements c ∧ c1.stackArray = c.stackArray ∧
      c1.cap = c.cap * 2 ^ k ∧
      (∀ i, i < k → c.cap * 2 ^ i < newCap ∧ mem (c.cap * 2 ^ (i + 1)) = true) ∧
      ((r = .ok () ∧ newCap ≤ c1.cap) ∨
        (r = .error .bad_alloc ∧ c1.cap < newCap ∧ mem (c1.cap * 2) = false)) ∧
      (k = 0 → c1 = c) ∧ (1 ≤ k → c1.usingHeap = true) := by
  have hle : ¬ newCap ≤ c.cap := by omega
  cases hm : c.usingHeap with
  | true =>
    obtain ⟨h1, h2, -⟩ := h.heap hm
    obtain ⟨r, c1, j, e1, e2, e3, e4, e5, e6, e7, e8, e9, e10⟩ :=
      reserveLoop_mem mem newCap fuel h hm (by omega) (by omega)
    refine ⟨r, c1, j, ?_, e2, e4, e5, e6, e7, e8, e9, e10, fun _ => e3⟩
    simp [reserve, hle, hm, e1]
  | false =>
    obtain ⟨h1, h2, -⟩ := h.stack hm
    cases hmem : mem (c.cap * 2) with
    | false =>
      refine ⟨_, c, 0, ?_, h, rfl, rfl, rfl, by simp, fun i hi => by omega,
        Or.inr ⟨rfl, hgt, hmem⟩, fun _ => rfl, fun hk => by omega⟩
      simp [reserve, hle, hm, promoteToHeap_refused mem c hmem]
    | true =>
      obtain ⟨g1, g2, g3, g4, g5, g6, g7⟩ := promoteToHeap_always h hm
      rcases hg : promoteToHeap always c with ⟨_ | _, c0⟩
      · rw [hg] at g1; simp at g1
      · rw [hg] at g2 g3 g4 g5 g6 g7
        simp only at g2 g3 g4 g5 g6 g7
        obtain ⟨r, c1, j, e1, e2, e3, e4, e5, e6, e7, e8, e9, -⟩ :=
          reserveLoop_mem mem newCap fuel g2 g3 (by omega) (by omega)
        rw [g6] at e7 e8
        refine ⟨r, c1, j + 1, ?_, e2, by omega, by rw [e5, g5], by rw [e6, g7], ?_,
          doubling_chain_succ mem c.cap newCap j hgt hmem e8, e9, fun hj => by omega,
          fun _ => e3⟩
        · simp [reserve, hle, hm, promoteToHeap_of_mem mem c hmem, hg, e1]
        · rw [e7, pow_succ]; ring

/-- C11 as stated fails: at threshold 5 with an allocator that grants fewer
than 20 slots, `reserve(100)` on a fresh container promotes to capacity 10,
then throws `bad_alloc` from the next doubling, and the container stays in
heap mode with capacity 10 instead of stack mode with capacity 5. -/
theorem C11_reserve_not_atomic :
    Inv 5 (init 5 : State Nat) ∧ capacity (init 5 : State Nat) < 100 ∧
    isStackMode (init 5 : State Nat) = true ∧ capacity (init 5 : State Nat) = 5 ∧
    ∃ c1 : State Nat,
      reserve (fun n => decide (n < 20)) 100 (init 5) 100 = some (.error .bad_alloc, c1) ∧
      isStackMode c1 = false ∧ capacity c1 = 10 ∧ size c1 = 0 :=
  ⟨by decide, by decide, rfl, rfl, _, rfl, rfl, rfl, rfl⟩

/-- C11, amended: on a state satisfying the invariants, if an allocation
performed during `reserve(n)` fails, that is, the first `k` requests
(`capacity() * 2 ^ (i + 1)` slots for `i < k`) are granted, the capacity
`capacity() * 2 ^ k` reached by then is still below `n`, and the next request
is refused, then `reserve(n)` with enough fuel throws `bad_alloc`; the
invariants hold afterwards, `size()` and the contents are those before the
call, and the capacity is `capacity() * 2 ^ k`, at least the old one and below
`n`; the state is the one before the call when the first request is the refused
one (`k = 0`), and otherwise the container is in heap mode with at least twice
the old capacity. -/
theorem C11_reserve_alloc_failure [Inhabited α] (mem : Nat → Bool) (T : Nat) (hT : 1 ≤ T)
    (c : State α) (h : Inv T c) (n fuel : Nat) (hf : n ≤ fuel) (k : Nat)
    (hgranted : ∀ i, i < k → mem (capacity c * 2 ^ (i + 1)) = true)
    (hneed : capacity c * 2 ^ k < n)
    (hrefused : mem (capacity c * 2 ^ (k + 1)) = false) :
    ∃ c1, reserve mem fuel c n = some (.error .bad_alloc, c1) ∧
      Inv T c1 ∧ size c1 = size c ∧ elements c1 = elements c ∧
      capacity c1 = capacity c * 2 ^ k ∧
      capacity c ≤ capacity c1 ∧ capacity c1 < n ∧
      (k = 0 → c1 = c) ∧
      (1 ≤ k → isStackMode c1 = false ∧ 2 * capacity c ≤ capacity c1) := by
  simp only [capacity, size, isStackMode] at hgranted hneed hrefused ⊢
  have hpow : ∀ j, 1 ≤ 2 ^ j := fun j => Nat.one_le_two_pow
  have hgt : c.cap < n := lt_of_le_of_lt (Nat.le_mul_of_pos_right _ (hpow k)) hneed
  obtain ⟨r, c1, j, e1, e2, e3, e4, -, e6, e7, e8, e9, e10⟩ := reserve_mem mem hT n fuel h hgt hf
  have hjk : j = k := by
    rcases Nat.lt_trichotomy j k with hlt | heq | hlt
    · exfalso
      rcases e8 with ⟨-, h2⟩ | ⟨-, -, h3⟩
      · have hle : c.cap * 2 ^ j ≤ c.cap * 2 ^ k :=
          Nat.mul_le_mul_left _ (Nat.pow_le_pow_right (by norm_num) (le_of_lt hlt))
        rw [e6] at h2
        omega
      · have hg := hgranted j hlt
        rw [e6] at h3
        rw [pow_succ, ← Nat.mul_assoc, h3] at hg
        cases hg
    · exact heq
    · exfalso
      have hg := (e7 k hlt).2
      rw [hrefused] at hg
      cases hg
  subst hjk
  have hr : r = .error .bad_alloc := by
    rcases e8 with ⟨-, h2⟩ | ⟨h1, -⟩
    · rw [e6] at h2; omega
    · exact h1
  subst hr
  refine ⟨c1, e1, e2, e3, e4, e6, ?_, by rw [e6]; exact hneed, e9, ?_⟩
  · rw [e6]; exact Nat.le_mul_of_pos_right _ (hpow j)
  · intro hk
    refine ⟨by simp [e10 hk], ?_⟩
    have h2k : 2 ≤ 2 ^ j := by
      calc 2 = 2 ^ 1 := by norm_num
        _ ≤ 2 ^ j := Nat.pow_le_pow_right (by norm_num) hk
    rw [e6, Nat.mul_comm 2]
    exact Nat.mul_le_mul_left _ h2k

/-- The instance of the amended C11 at threshold 5 on a fresh container with
an allocator that grants fewer than 20 slots: `reserve(100)` is granted the
promotion to 10 slots, is refused the doubling to 20 and throws `bad_alloc`
with the container in heap mode at capacity 10. -/
theorem C11_reserve_alloc_failure_witness :
    1 ≤ 5 ∧ Inv 5 (init 5 : State Nat) ∧ 100 ≤ 100 ∧
    (∀ i, i < 1 → (fun n => decide (n < 20)) (capacity (init 5 : State Nat) * 2 ^ (i + 1)) = true) ∧
    capacity (init 5 : State Nat) * 2 ^ 1 < 100 ∧
    (fun n => decide (n < 20)) (capacity (init 5 : State Nat) * 2 ^ (1 + 1)) = false ∧
    ∃ c1 : State Nat,
      reserve (fun n => decide (n < 20)) 100 (init 5) 100 = some (.error .bad_alloc, c1) ∧
      Inv 5 c1 ∧ size c1 = size (init 5 : State Nat) ∧
      elements c1 = elements (init 5 : State Nat) ∧
      capacity c1 = capacity (init 5 : State Nat) * 2 ^ 1 ∧
      capacity (init 5 : State Nat) ≤ capacity c1 ∧ capacity c1 < 100 ∧
      (1 = 0 → c1 = init 5) ∧
      (1 ≤ 1 → isStackMode c1 = false ∧ 2 * capacity (init 5 : State Nat) ≤ capacity c1) :=
  ⟨by decide, by decide, le_refl 100, by decide, by decide, by decide,
    C11_reserve_alloc_failure (fun n => decide (n < 20)) 5 (by decide) (init 5 : State Nat)
      (by decide) 100 100 (le_refl 100) 1 (by decide) (by decide) (by decide)⟩

/-- C18: for every threshold `T ≥ 1`, every state satisfying the invariants
with capacity `c` and every `n > c`, with allocation succeeding and enough
fuel, `reserve(n)` returns normally in heap mode with capacity exactly
`c * 2 ^ k` for the least `k` with `c * 2 ^ k ≥ n`, and that `k` is at least 1;
so the capacity is at least `n` and below `2 * n`. -/
theorem C18_reserve_capacity [Inhabited α] (T : Nat) (hT : 1 ≤ T) (c : State α) (h : Inv T c)
    (n fuel : Nat) (hgt : capacity c < n) (hf : n ≤ fuel) :
    ∃ c1 k, reserve always fuel c n = some (.ok (), c1) ∧ 1 ≤ k ∧
      capacity c1 = capacity c * 2 ^ k ∧ n ≤ capacity c * 2 ^ k ∧
      (∀ j, n ≤ capacity c * 2 ^ j → k ≤ j) ∧
      n ≤ capacity c1 ∧ capacity c1 < 2 * n ∧ isStackMode c1 = false := by
  simp only [capacity, isStackMode] at hgt ⊢
  obtain ⟨r, c1, k, e1, e2, e3, e4, -, e6, e7, e8, e9, e10⟩ :=
    reserve_mem always hT n fuel h hgt hf
  rcases e8 with ⟨h1, h2⟩ | ⟨-, -, h3⟩
  · have hk : 1 ≤ k := by
      by_contra hk
      have hc : c1 = c := e9 (by omega)
      rw [hc] at h2
      omega
    subst h1
    refine ⟨c1, k, e1, hk, e6, by rw [← e6]; exact h2, ?_, h2, ?_, by simp [e10 hk]⟩
    · intro j hj
      by_contra hlt
      have := (e7 j (by omega)).1
      omega
    · have hprev := (e7 (k - 1) (by omega)).1
      have hpow : 2 ^ k = 2 ^ (k - 1) * 2 := by
        rw [← pow_succ]
        congr 1
        omega
      rw [e6, hpow, ← Nat.mul_assoc]
      omega
  · simp [always] at h3

/-- The instance of C18 at threshold 5: `reserve(100)` on a fresh container
takes five doublings, to capacity 160. -/
theorem C18_reserve_capacity_witness :
    1 ≤ 5 ∧ Inv 5 (init 5 : State Nat) ∧ capacity (init 5 : State Nat) < 100 ∧ 100 ≤ 100 ∧
    ∃ c1 k, reserve always 100 (init 5 : State Nat) 100 = some (.ok (), c1) ∧ 1 ≤ k ∧
      capacity c1 = capacity (init 5 : State Nat) * 2 ^ k ∧
      100 ≤ capacity (init 5 : State Nat) * 2 ^ k ∧
      (∀ j, 100 ≤ capacity (init 5 : State Nat) * 2 ^ j → k ≤ j) ∧
      100 ≤ capacity c1 ∧ capacity c1 < 2 * 100 ∧ isStackMode c1 = false :=
  ⟨by decide, by decide, by decide, le_refl 100,
    C18_reserve_capacity 5 (by decide) (init 5 : State Nat) (by decide) 100 100 (by decide)
      (le_refl 100)⟩

/-! ## Observations -/

/-- What `optimize` does to mode and capacity. -/
theorem optimize_mode [Inhabited α] {T : Nat} {c : State α} (h : Inv T c) :
    (optimize T c).usingHeap = (c.usingHeap && !decide (c.sz ≤ T)) ∧
    (optimize T c).cap = (if c.usingHeap = true ∧ c.sz ≤ T then T else c.cap) := by
  by_cases hd : c.usingHeap = true ∧ c.sz ≤ T
  · have ho : optimize T c = demoteToStack T c := by simp [optimize, hd.1, hd.2]
    obtain ⟨-, -, -, g4, g5⟩ := demoteToStack_heap h hd.1 hd.2
    rw [ho, g4, g5, if_pos hd]
    simp [hd.2]
  · have ho : optimize T c = c := by
      simp only [optimize]
      rw [if_neg]
      simpa using hd
    rw [ho, if_neg hd]
    refine ⟨?_, rfl⟩
    cases hm : c.usingHeap with
    | false => simp
    | true =>
      have : ¬ (c.sz ≤ T) := fun hh => hd ⟨hm, hh⟩
      simp [this]

theorem elements_of_sz_zero {c : State α} (h : c.sz = 0) : elements c = [] := by
  simp [elements, end_, h]

theorem ObsEq.refl (c : State α) : ObsEq c c := ⟨rfl, rfl, rfl, rfl⟩

theorem ObsEq.usingHeap {c1 c2 : State α} (h : ObsEq c1 c2) : c1.usingHeap = c2.usingHeap := by
  have := h.2.2.1
  simp only [isStackMode] at this
  cases h1 : c1.usingHeap <;> cases h2 : c2.usingHeap <;> simp [h1, h2] at this <;> rfl

/-- After `clear` the container is observably a fresh one. -/
theorem clear_ObsEq_init [Inhabited α] {T : Nat} {c : State α} (h : Inv T c) :
    ObsEq (clear T c) (init T) := by
  obtain ⟨-, g2, g3, g4, -⟩ := clear_spec h
  exact ⟨g2, g4, by simp [isStackMode, g3, init],
    by rw [elements_of_sz_zero g2, elements_init]⟩

/-- One client call maps observably equal states to observably equal states. -/
theorem applyOp_ObsEq [Inhabited α] {T : Nat} (hT : 1 ≤ T) {c1 c2 : State α}
    (h1 : Inv T c1) (h2 : Inv T c2) (ho : ObsEq c1 c2) (op : Op α) :
    ∃ d1 d2, applyOp T c1 op = some d1 ∧ applyOp T c2 op = some d2 ∧
      Inv T d1 ∧ Inv T d2 ∧ ObsEq d1 d2 := by
  have hu := ho.usingHeap
  obtain ⟨hs, hc, -, he⟩ := ho
  simp only [size, capacity] at hs hc
  cases op with
  | push_back v =>
    obtain ⟨-, a2, a3, a4, a5, a6⟩ := push_back_always hT h1 v
    obtain ⟨-, b2, b3, b4, b5, b6⟩ := push_back_always hT h2 v
    refine ⟨_, _, rfl, rfl, a2, b2, ?_, ?_, ?_, ?_⟩
    · simp only [size]; rw [a3, b3, hs]
    · simp only [capacity]; rw [a6, b6, hs, hc]
    · simp only [isStackMode]; rw [a5, b5, hs, hu]
    · rw [a4, b4, he]
  | pop_back =>
    by_cases h0 : c1.sz = 0
    · have h0' : c2.sz = 0 := by omega
      refine ⟨c1, c2, ?_, ?_, h1, h2, hs, hc, by simp [isStackMode, hu], he⟩
      · simp [applyOp, pop_back_empty T h0]
      · simp [applyOp, pop_back_empty T h0']
    · have h0' : c2.sz ≠ 0 := by omega
      obtain ⟨-, a2, a3, a4, a5, a6⟩ := pop_back_nonempty h1 h0
      obtain ⟨-, b2, b3, b4, b5, b6⟩ := pop_back_nonempty h2 h0'
      refine ⟨_, _, rfl, rfl, a2, b2, ?_, ?_, ?_, ?_⟩
      · simp only [size]; rw [a3, b3, hs]
      · simp only [capacity]; rw [a6, b6, hs, hc, hu]
      · simp only [isStackMode]; rw [a5, b5, hs, hu]
      · rw [a4, b4, he]
  | clear =>
    obtain ⟨a1, a2, a3, a4, -⟩ := clear_spec h1
    obtain ⟨b1, b2, b3, b4, -⟩ := clear_spec h2
    refine ⟨_, _, rfl, rfl, a1, b1, ?_, ?_, ?_, ?_⟩
    · simp only [size]; rw [a2, b2]
    · simp only [capacity]; rw [a4, b4]
    · simp only [isStackMode]; rw [a3, b3]
    · rw [elements_of_sz_zero a2, elements_of_sz_zero b2]
  | reserve n =>
    by_cases hle : n ≤ c1.cap
    · have hle' : n ≤ c2.cap := by omega
      refine ⟨c1, c2, ?_, ?_, h1, h2, hs, hc, by simp [isStackMode, hu], he⟩
      · simp [applyOp, reserve, hle]
      · simp [applyOp, reserve, hle']
    · obtain ⟨r1, d1, k1, a1, a2, a3, a4, -, a6, a7, a8, -, a10⟩ :=
        reserve_mem always hT n n h1 (by omega) (le_refl n)
      obtain ⟨r2, d2, k2, b1, b2, b3, b4, -, b6, b7, b8, -, b10⟩ :=
        reserve_mem always hT n n h2 (by omega) (le_refl n)
      have ha : n ≤ d1.cap := by
        rcases a8 with ⟨-, hh⟩ | ⟨-, -, hh⟩
        · exact hh
        · simp [always] at hh
      have hb : n ≤ d2.cap := by
        rcases b8 with ⟨-, hh⟩ | ⟨-, -, hh⟩
        · exact hh
        · simp [always] at hh
      have hk : k1 = k2 := by
        rw [a6] at ha
        rw [b6] at hb
        rcases Nat.lt_trichotomy k1 k2 with hlt | heq | hgt
        · have := (b7 k1 hlt).1
          rw [← hc] at this
          omega
        · exact heq
        · have := (a7 k2 hgt).1
          rw [hc] at this
          omega
      have hk1 : 1 ≤ k1 := by
        by_contra hk0
        have : k1 = 0 := by omega
        rw [a6, this] at ha
        simp at ha
        exact hle ha
      refine ⟨d1, d2, by simp [applyOp, a1], by simp [applyOp, b1], a2, b2, ?_, ?_, ?_, ?_⟩
      · simp only [size]; rw [a3, b3, hs]
      · simp only [capacity]; rw [a6, b6, hc, hk]
      · simp only [isStackMode]; rw [a10 hk1, b10 (hk ▸ hk1)]
      · rw [a4, b4, he]
  | optimize =>
    obtain ⟨a1, a2, a3⟩ := optimize_spec h1
    obtain ⟨b1, b2, b3⟩ := optimize_spec h2
    obtain ⟨a4, a5⟩ := optimize_mode h1
    obtain ⟨b4, b5⟩ := optimize_mode h2
    refine ⟨_, _, rfl, rfl, a1, b1, ?_, ?_, ?_, ?_⟩
    · simp only [size]; rw [a2, b2, hs]
    · simp only [capacity]; rw [a5, b5, hs, hc, hu]
    · simp only [isStackMode]; rw [a4, b4, hs, hu]
    · rw [a3, b3, he]

/-- A sequence of client calls maps observably equal states to observably
equal states. -/
theorem run_ObsEq [Inhabited α] {T : Nat} (hT : 1 ≤ T) (ops : List (Op α)) {c1 c2 : State α}
    (h1 : Inv T c1) (h2 : Inv T c2) (ho : ObsEq c1 c2) :
    ∃ d1 d2, run T ops c1 = some d1 ∧ run T ops c2 = some d2 ∧
      Inv T d1 ∧ Inv T d2 ∧ ObsEq d1 d2 := by
  induction ops generalizing c1 c2 with
  | nil => exact ⟨c1, c2, rfl, rfl, h1, h2, ho⟩
  | cons op ops ih =>
    obtain ⟨d1, d2, e1, e2, i1, i2, o⟩ := applyOp_ObsEq hT h1 h2 ho op
    obtain ⟨f1, f2, g1, g2, j1, j2, o2⟩ := ih i1 i2 o
    exact ⟨f1, f2, by simp [run, e1, g1], by simp [run, e2, g2], j1, j2, o2⟩

/-- C14: on every state satisfying the invariants `clear()` leaves `size() = 0`,
stack mode, `capacity() = T`, no heap buffer and an empty iteration sequence,
which are the observations of a freshly constructed container, and every
sequence of calls then runs as it does on a freshly constructed container;
`clear()` after `clear()` changes nothing. -/
theorem C14_clear [Inhabited α] (T : Nat) (hT : 1 ≤ T) (c : State α) (h : Inv T c)
    (ops : List (Op α)) :
    size (clear T c) = 0 ∧ isStackMode (clear T c) = true ∧ capacity (clear T c) = T ∧
    (clear T c).heapArray = none ∧ elements (clear T c) = [] ∧
    ObsEq (clear T c) (init T) ∧
    (∃ d1 d2, run T ops (clear T c) = some d1 ∧ run T ops (init T) = some d2 ∧ ObsEq d1 d2) ∧
    clear T (clear T c) = clear T c := by
  obtain ⟨g1, g2, g3, g4, g5⟩ := clear_spec h
  obtain ⟨d1, d2, e1, e2, -, -, o⟩ := run_ObsEq hT ops g1 (init_Inv T) (clear_ObsEq_init h)
  refine ⟨g2, by simp [isStackMode, g3], g4, g5, elements_of_sz_zero g2, clear_ObsEq_init h,
    ⟨d1, d2, e1, e2, o⟩, ?_⟩
  cases hm : c.usingHeap <;> simp [clear, hm]

/-- The instance of C14 at threshold 2 on the heap-mode state holding
`[1, 2, 3]`, followed by two calls of `push_back`. -/
theorem C14_clear_witness :
    1 ≤ 2 ∧ Inv 2 (pushAll always 2 [1, 2, 3] (init 2 : State Nat)) ∧
    size (clear 2 (pushAll always 2 [1, 2, 3] (init 2 : State Nat))) = 0 ∧
    isStackMode (clear 2 (pushAll always 2 [1, 2, 3] (init 2 : State Nat))) = true ∧
    capacity (clear 2 (pushAll always 2 [1, 2, 3] (init 2 : State Nat))) = 2 ∧
    (clear 2 (pushAll always 2 [1, 2, 3] (init 2 : State Nat))).heapArray = none :=
  have h := C14_clear 2 (by decide) (pushAll always 2 [1, 2, 3] (init 2 : State Nat))
    (by decide) [.push_back 4, .push_back 5]
  ⟨by decide, by decide, h.1, h.2.1, h.2.2.1, h.2.2.2.1⟩

/-- C15: on every state satisfying the invariants `optimize()` changes the
state exactly when the container is in heap mode with `size() ≤ T`, and then
leaves it in stack mode with `capacity() = T`; in stack mode or with
`size() > T` it changes nothing; `size()` and the iteration sequence are kept,
and `optimize()` after `optimize()` changes nothing. -/
theorem C15_optimize [Inhabited α] (T : Nat) (c : State α) (h : Inv T c) :
    (optimize T c ≠ c ↔ isStackMode c = false ∧ size c ≤ T) ∧
    (isStackMode c = false → size c ≤ T →
      isStackMode (optimize T c) = true ∧ capacity (optimize T c) = T) ∧
    (isStackMode c = true ∨ T < size c → optimize T c = c) ∧
    size (optimize T c) = size c ∧ elements (optimize T c) = elements c ∧
    optimize T (optimize T c) = optimize T c := by
  obtain ⟨-, a2, a3⟩ := optimize_spec h
  obtain ⟨a4, a5⟩ := optimize_mode h
  simp only [isStackMode, size, capacity]
  have hnoop : ¬ (c.usingHeap = true ∧ c.sz ≤ T) → optimize T c = c := by
    intro hd
    simp only [optimize]
    rw [if_neg]
    simpa using hd
  have hchg : c.usingHeap = true → c.sz ≤ T → (optimize T c).usingHeap = false := by
    intro hm hle
    rw [a4, hm]
    simp [hle]
  refine ⟨⟨?_, ?_⟩, ?_, ?_, a2, a3, ?_⟩
  · intro hne
    by_contra hd
    apply hne
    apply hnoop
    intro hh
    exact hd ⟨by simp [hh.1], hh.2⟩
  · rintro ⟨hm, hle⟩ heq
    have hm1 : c.usingHeap = true := by simpa using hm
    have := hchg hm1 hle
    rw [heq, hm1] at this
    cases this
  · intro hm hle
    have hm1 : c.usingHeap = true := by simpa using hm
    refine ⟨by simp [hchg hm1 hle], ?_⟩
    rw [a5, if_pos ⟨hm1, hle⟩]
  · rintro (hm | hgt)
    · apply hnoop
      rintro ⟨hh, -⟩
      rw [hh] at hm
      simp at hm
    · apply hnoop
      rintro ⟨-, hh⟩
      omega
  · by_cases hd : c.usingHeap = true ∧ c.sz ≤ T
    · have hs := hchg hd.1 hd.2
      generalize optimize T c = d at hs
      simp [optimize, hs]
    · rw [hnoop hd, hnoop hd]

/-- The instance of C15 at threshold 5 on the state reached by four calls of
`push_back` and `reserve(8)`: heap mode with four elements and capacity 10,
which `optimize()` demotes. -/
theorem C15_optimize_witness :
    reserve always 8 (pushAll always 5 [10, 20, 30, 40] (init 5 : State Nat)) 8
      = some (.ok (),
          State.mk 4 10 true [10, 20, 30, 40, 0] (some [10, 20, 30, 40, 0, 0, 0, 0, 0, 0])) ∧
    Inv 5 (State.mk 4 10 true [10, 20, 30, 40, 0] (some [10, 20, 30, 40, 0, 0, 0, 0, 0, 0])) ∧
    isStackMode (optimize 5
      (State.mk 4 10 true [10, 20, 30, 40, 0] (some [10, 20, 30, 40, 0, 0, 0, 0, 0, 0])))
        = true ∧
    capacity (optimize 5
      (State.mk 4 10 true [10, 20, 30, 40, 0] (some [10, 20, 30, 40, 0, 0, 0, 0, 0, 0])))
        = 5 :=
  have h := C15_optimize 5
    (State.mk 4 10 true [10, 20, 30, 40, 0] (some [10, 20, 30, 40, 0, 0, 0, 0, 0, 0]))
    (by decide)
  ⟨rfl, by decide, h.2.1 (by decide) (by decide)⟩

/-- Without `reserve`, one client call keeps the invariant together with
"heap mode exactly when the count exceeds the threshold". -/
theorem applyOp_mode_by_count [Inhabited α] {T : Nat} (hT : 1 ≤ T) {c : State α}
    (h : Inv T c) (hmode : c.usingHeap = true ↔ T < c.sz) (op : Op α)
    (hno : Op.isReserve op = false) :
    ∃ c1, applyOp T c op = some c1 ∧ Inv T c1 ∧ (c1.usingHeap = true ↔ T < c1.sz) := by
  cases op with
  | push_back v =>
    obtain ⟨-, a2, a3, -, a5, -⟩ := push_back_always hT h v
    refine ⟨_, rfl, a2, ?_⟩
    rw [a3, a5]
    cases hm : c.usingHeap with
    | true =>
      have := hmode.mp hm
      simp
      omega
    | false =>
      have hle : ¬ T < c.sz := fun hh => by rw [hmode.mpr hh] at hm; cases hm
      simp
      omega
  | pop_back =>
    by_cases h0 : c.sz = 0
    · exact ⟨c, by simp [applyOp, pop_back_empty T h0], h, hmode⟩
    · obtain ⟨-, a2, a3, -, a5, -⟩ := pop_back_nonempty h h0
      refine ⟨_, rfl, a2, ?_⟩
      rw [a3, a5]
      cases hm : c.usingHeap with
      | true =>
        simp
        omega
      | false =>
        have hle : ¬ T < c.sz := fun hh => by rw [hmode.mpr hh] at hm; cases hm
        simp
        omega
  | clear =>
    obtain ⟨a1, a2, a3, -, -⟩ := clear_spec h
    refine ⟨_, rfl, a1, ?_⟩
    rw [a2, a3]
    simp
  | reserve n => simp [Op.isReserve] at hno
  | optimize =>
    obtain ⟨a1, a2, -⟩ := optimize_spec h
    obtain ⟨a4, -⟩ := optimize_mode h
    refine ⟨_, rfl, a1, ?_⟩
    rw [a2, a4]
    cases hm : c.usingHeap with
    | true => simp
    | false =>
      have hle : ¬ T < c.sz := fun hh => by rw [hmode.mpr hh] at hm; cases hm
      simp
      omega

theorem run_mode_by_count [Inhabited α] {T : Nat} (hT : 1 ≤ T) (ops : List (Op α))
    (hno : ∀ op ∈ ops, Op.isReserve op = false) {c : State α}
    (h : Inv T c) (hmode : c.usingHeap = true ↔ T < c.sz) :
    ∃ c1, run T ops c = some c1 ∧ Inv T c1 ∧ (c1.usingHeap = true ↔ T < c1.sz) := by
  induction ops generalizing c with
  | nil => exact ⟨c, rfl, h, hmode⟩
  | cons op ops ih =>
    obtain ⟨c1, e1, e2, e3⟩ :=
      applyOp_mode_by_count hT h hmode op (hno op (List.mem_cons_self _ _))
    obtain ⟨c2, f1, f2, f3⟩ := ih (fun o ho => hno o (List.mem_cons_of_mem _ ho)) e2 e3
    exact ⟨c2, by simp [run, e1, f1], f2, f3⟩

/-- C20: for every threshold `T ≥ 1` and every finite sequence of `push_back`,
`pop_back`, `clear` and `optimize` calls on a freshly constructed container,
after each number `k` of calls the container is in heap mode exactly when
`size() > T` and in stack mode exactly when `size() ≤ T`. With `reserve` this
fails: `reserve(T + 1)` on a fresh container gives heap mode with
`size() ≤ T`; and from any heap-mode state with `0 < size() ≤ T` the next
`pop_back()` returns normally and leaves stack mode with capacity `T`. -/
theorem C20_mode_by_count [Inhabited α] (T : Nat) (hT : 1 ≤ T) (ops : List (Op α))
    (hno : ∀ op ∈ ops, Op.isReserve op = false) (k : Nat)
    (c : State α) (hc : Inv T c) (hheap : isStackMode c = false) (hpos : 0 < size c)
    (hle : size c ≤ T) :
    (∃ d : State α, run T (ops.take k) (init T) = some d ∧
      (isStackMode d = false ↔ T < size d) ∧ (isStackMode d = true ↔ size d ≤ T)) ∧
    (∃ d : State α, run T [.reserve (T + 1)] (init T) = some d ∧
      isStackMode d = false ∧ size d ≤ T ∧ T < capacity d) ∧
    ((pop_back T c).1 = .ok () ∧ isStackMode (pop_back T c).2 = true ∧
      capacity (pop_back T c).2 = T) := by
  refine ⟨?_, ?_, ?_⟩
  · obtain ⟨d, e1, -, e3⟩ := run_mode_by_count hT (ops.take k)
      (fun o ho => hno o (List.mem_of_mem_take ho)) (init_Inv T (α := α))
      (by simp [init])
    refine ⟨d, e1, ?_, ?_⟩
    · simp only [isStackMode, size]
      rw [← e3]
      simp
    · simp only [isStackMode, size]
      cases hm : d.usingHeap with
      | true =>
        have := e3.mp hm
        simp
        omega
      | false =>
        have : ¬ T < d.sz := fun hh => by rw [e3.mpr hh] at hm; cases hm
        simp
        omega
  · obtain ⟨d, e1, -, e3, -, -, e6, -, e8, -⟩ :=
      reserve_always hT (T + 1) (T + 1) (init_Inv T (α := α)) (le_refl _)
    have hcap : (init T : State α).cap = T := rfl
    have hsz : (init T : State α).sz = 0 := rfl
    refine ⟨d, by simp [run, applyOp, e1], ?_, ?_, ?_⟩
    · simp [isStackMode, e8 (by rw [hcap]; omega)]
    · simp only [size]; rw [e3, hsz]; omega
    · simp only [capacity]; omega
  · simp only [isStackMode, size, capacity] at hheap hpos hle ⊢
    have hm : c.usingHeap = true := by simpa using hheap
    obtain ⟨a1, -, -, -, a5, a6⟩ := pop_back_nonempty hc (by omega)
    have hle1 : c.sz - 1 ≤ T := by omega
    refine ⟨a1, ?_, ?_⟩
    · rw [a5, hm]; simp [hle1]
    · rw [a6, if_pos ⟨hm, hle1⟩]

/-- The instance of C20 at threshold 5: a sequence without `reserve` that
promotes and demotes, and the heap-mode state with four elements and capacity
10 left by `reserve(8)`, which one `pop_back()` demotes. -/
theorem C20_mode_by_count_witness :
    1 ≤ 5 ∧
    (∀ op ∈ ([.push_back 1, .push_back 2, .push_back 3, .push_back 4, .push_back 5,
      .push_back 6, .optimize, .pop_back, .pop_back, .clear] : List (Op Nat)),
      Op.isReserve op = false) ∧
    Inv 5 (State.mk 4 10 true [10, 20, 30, 40, 0] (some [10, 20, 30, 40, 0, 0, 0, 0, 0, 0])) ∧
    (∃ d : State Nat, run 5 (List.take 6 [.push_back 1, .push_back 2, .push_back 3,
      .push_back 4, .push_back 5, .push_back 6, .optimize, .pop_back, .pop_back, .clear])
        (init 5) = some d ∧
      (isStackMode d = false ↔ 5 < size d) ∧ (isStackMode d = true ↔ size d ≤ 5)) ∧
    isStackMode (pop_back 5
      (State.mk 4 10 true [10, 20, 30, 40, 0] (some [10, 20, 30, 40, 0, 0, 0, 0, 0, 0]))).2
        = true ∧
    capacity (pop_back 5
      (State.mk 4 10 true [10, 20, 30, 40, 0] (some [10, 20, 30, 40, 0, 0, 0, 0, 0, 0]))).2
        = 5 :=
  have h := C20_mode_by_count 5 (by decide)
    [.push_back 1, .push_back 2, .push_back 3, .push_back 4, .push_back 5,
      .push_back 6, .optimize, .pop_back, .pop_back, .clear] (by decide) 6
    (State.mk 4 10 true [10, 20, 30, 40, 0] (some [10, 20, 30, 40, 0, 0, 0, 0, 0, 0]))
    (by decide) (by decide) (by decide) (by decide)
  ⟨by decide, by decide, by decide, h.1, h.2.2.2.1, h.2.2.2.2⟩

/-! ## The free store -/

namespace Mem

theorem read_append_lt (H : Heap α) (x : Option (List α)) (a : Nat) (ha : a < H.length) :
    read (H ++ [x]) (some a) = read H (some a) := by
  simp [read, List.getD_eq_getElem?_getD, List.getElem?_append_left ha]

theorem read_append_new (H : Heap α) (x : Option (List α)) :
    read (H ++ [x]) (some H.length) = x := by
  simp [read, List.getD_eq_getElem?_getD]

theorem read_write (H : Heap α) (p q : Option Nat) (buf : List α) :
    read (write H p buf) q = if q = p ∧ (read H p).isSome = true then some buf else read H q := by
  cases p with
  | none => simp [write, read]
  | some a =>
    cases q with
    | none => simp [read]
    | some b =>
      simp only [write, read, Option.some.injEq]
      by_cases hl : (H.getD a none).isSome = true
      · have ha : a < H.length := by
          by_contra hn
          rw [List.getD_eq_default _ _ (by omega)] at hl
          simp at hl
        rw [if_pos hl]
        by_cases hba : b = a
        · subst hba
          have hl2 : (H[b]).isSome = true := by
            simpa [List.getD_eq_getElem?_getD, List.getElem?_eq_getElem ha] using hl
          simp [List.getD_eq_getElem?_getD, ha, hl2]
        · have : ¬ (b = a ∧ (H.getD a none).isSome = true) := fun h => hba h.1
          rw [if_neg this]
          simp [List.getD_eq_getElem?_getD, List.getElem?_set_ne (Ne.symm hba)]
      · rw [if_neg hl]
        have : ¬ (b = a ∧ (H.getD a none).isSome = true) := fun h => hl h.2
        rw [if_neg this]

theorem read_delete (H : Heap α) (p q : Option Nat) :
    read (delete H p) q = if q = p then none else read H q := by
  cases p with
  | none => cases q <;> simp [delete, read]
  | some a =>
    cases q with
    | none => simp [read]
    | some b =>
      simp only [delete, read, Option.some.injEq]
      by_cases hba : b = a
      · subst hba
        simp only [List.getD_eq_getElem?_getD, List.getElem?_set, if_true]
        split <;> simp
      · rw [if_neg hba]
        simp [List.getD_eq_getElem?_getD, List.getElem?_set_ne (Ne.symm hba)]

theorem length_write (H : Heap α) (p : Option Nat) (buf : List α) :
    (write H p buf).length = H.length := by
  cases p with
  | none => rfl
  | some a =>
    simp only [write]
    split <;> simp

theorem length_delete (H : Heap α) (p : Option Nat) : (delete H p).length = H.length := by
  cases p <;> simp [delete]

theorem getD_eq_read (H : Heap α) (a : Nat) : H.getD a none = read H (some a) := rfl

theorem new_always [Inhabited α] (H : Heap α) (n : Nat) :
    new_ always H n = some (H.length, H ++ [some (List.replicate n default)]) := by
  simp [new_, always]

theorem read_append_of_valid (H : Heap α) (o : Object α) (hv : Valid H o)
    (x : Option (List α)) : read (H ++ [x]) o.heapArray = read H o.heapArray := by
  cases hp : o.heapArray with
  | none => rfl
  | some a => exact read_append_lt H x a (hv a hp)

theorem ne_new_of_valid (H : Heap α) (o : Object α) (hv : Valid H o) :
    o.heapArray ≠ some H.length := by
  intro h
  have := hv _ h
  omega

theorem heapSlots_view (H : Heap α) (o : Object α) :
    heapSlots (view H o) = deref H o.heapArray := rfl

theorem Steps.same (H : Heap α) (o : Object α) (hv : Valid H o) : Steps H o H o :=
  ⟨hv, le_refl _, fun _ _ _ => rfl, fun _ h => Or.inl h⟩

/-- `Mem.grow` does to the view what `grow` does to a `State`. -/
theorem sim_grow [Inhabited α] (mem : Nat → Bool) (H : Heap α) (o : Object α)
    (hv : Valid H o) :
    ((grow mem H o).1, view (grow mem H o).2.1 (grow mem H o).2.2)
      = AdaptiveContainer.grow mem (view H o) ∧
    Steps H o (grow mem H o).2.1 (grow mem H o).2.2 := by
  cases hmem : mem (o.cap * 2) with
  | false =>
    have e1 : grow mem H o = (.error .bad_alloc, H, o) := by simp [grow, new_, hmem]
    have e2 : AdaptiveContainer.grow mem (view H o) = (.error .bad_alloc, view H o) := by
      simp [AdaptiveContainer.grow, newArray, view, hmem]
    rw [e1, e2]
    exact ⟨rfl, Steps.same H o hv⟩
  | true =>
    have hne := ne_new_of_valid H o hv
    have e1 : grow mem H o = (.ok (),
        delete (write (H ++ [some (List.replicate (o.cap * 2) default)]) (some H.length)
          (moveLoop o.sz (deref H o.heapArray) (List.replicate (o.cap * 2) default)))
          o.heapArray,
        { o with heapArray := some H.length, cap := o.cap * 2 }) := by
      simp [grow, new_, hmem, deref, read_append_of_valid H o hv, read_append_new]
    have e2 : AdaptiveContainer.grow mem (view H o) = (.ok (),
        { view H o with
          heapArray := some (moveLoop o.sz (deref H o.heapArray)
            (List.replicate (o.cap * 2) default))
          cap := o.cap * 2 }) := by
      simp [AdaptiveContainer.grow, newArray, hmem, heapSlots, deref, view]
    rw [e1, e2]
    refine ⟨?_, ?_, ?_, ?_, ?_⟩
    · simp [view, read_delete, read_write, read_append_new, hne.symm]
    · intro a ha
      simp only at ha
      cases ha
      simp [length_delete, length_write]
    · simp [length_delete, length_write]
    · intro a ha hp
      simp only [getD_eq_read, read_delete, read_write, read_append_new]
      rw [if_neg (fun h => hp h.symm), if_neg (fun h => by cases h.1; omega),
        read_append_lt _ _ _ ha]
    · intro a ha
      simp only at ha
      cases ha
      exact Or.inr (le_refl _)

theorem Steps.trans {H H1 H2 : Heap α} {o o1 o2 : Object α} (h1 : Steps H o H1 o1)
    (h2 : Steps H1 o1 H2 o2) : Steps H o H2 o2 := by
  obtain ⟨-, a2, a3, a4⟩ := h1
  obtain ⟨b1, b2, b3, b4⟩ := h2
  refine ⟨b1, le_trans a2 b2, ?_, ?_⟩
  · intro a ha hp
    have hp1 : o1.heapArray ≠ some a := by
      intro h
      rcases a4 a h with h' | h'
      · exact hp h'
      · omega
    rw [b3 a (by omega) hp1, a3 a ha hp]
  · intro a ha
    rcases b4 a ha with h | h
    · exact a4 a h
    · exact Or.inr (by omega)

/-- `Mem.promoteToHeap` does to the view what `promoteToHeap` does to a `State`. -/
theorem sim_promoteToHeap [Inhabited α] (mem : Nat → Bool) (H : Heap α) (o : Object α)
    (hv : Valid H o) :
    ((promoteToHeap mem H o).1, view (promoteToHeap mem H o).2.1 (promoteToHeap mem H o).2.2)
      = AdaptiveContainer.promoteToHeap mem (view H o) ∧
    Steps H o (promoteToHeap mem H o).2.1 (promoteToHeap mem H o).2.2 := by
  cases hmem : mem (o.cap * 2) with
  | false =>
    have e1 : promoteToHeap mem H o = (.error .bad_alloc, H, o) := by
      simp [promoteToHeap, new_, hmem]
    have e2 : AdaptiveContainer.promoteToHeap mem (view H o)
        = (.error .bad_alloc, view H o) := by
      simp [AdaptiveContainer.promoteToHeap, newArray, view, hmem]
    rw [e1, e2]
    exact ⟨rfl, Steps.same H o hv⟩
  | true =>
    have e1 : promoteToHeap mem H o = (.ok (),
        write (H ++ [some (List.replicate (o.cap * 2) default)]) (some H.length)
          (moveLoop o.sz o.stackArray (List.replicate (o.cap * 2) default)),
        { o with heapArray := some H.length, cap := o.cap * 2, usingHeap := true }) := by
      simp [promoteToHeap, new_, hmem, deref, read_append_new]
    have e2 : AdaptiveContainer.promoteToHeap mem (view H o) = (.ok (),
        { view H o with
          heapArray := some (moveLoop o.sz o.stackArray (List.replicate (o.cap * 2) default))
          cap := o.cap * 2
          usingHeap := true }) := by
      simp [AdaptiveContainer.promoteToHeap, newArray, hmem, view]
    rw [e1, e2]
    refine ⟨?_, ?_, ?_, ?_, ?_⟩
    · simp [view, read_write, read_append_new]
    · intro a ha
      simp only at ha
      cases ha
      simp [length_write]
    · simp [length_write]
    · intro a ha hp
      simp only [getD_eq_read, read_write, read_append_new]
      rw [if_neg (fun h => by cases h.1; omega), read_append_lt _ _ _ ha]
    · intro a ha
      simp only at ha
      cases ha
      exact Or.inr (le_refl _)

/-- `Mem.demoteToStack` does to the view what `demoteToStack` does to a `State`. -/
theorem sim_demoteToStack [Inhabited α] (T : Nat) (H : Heap α) (o : Object α)
    (hv : Valid H o) :
    view (demoteToStack T H o).1 (demoteToStack T H o).2
      = AdaptiveContainer.demoteToStack T (view H o) ∧
    Steps H o (demoteToStack T H o).1 (demoteToStack T H o).2 := by
  cases hm : o.usingHeap with
  | false =>
    have e1 : demoteToStack T H o = (H, o) := by simp [demoteToStack, hm]
    have e2 : AdaptiveContainer.demoteToStack T (view H o) = view H o := by
      simp [AdaptiveContainer.demoteToStack, view, hm]
    rw [e1, e2]
    exact ⟨rfl, Steps.same H o hv⟩
  | true =>
    have e1 : demoteToStack T H o = (delete H o.heapArray,
        { o with
          stackArray := moveLoop o.sz (deref H o.heapArray) o.stackArray
          heapArray := none
          cap := T
          usingHeap := false }) := by
      simp [demoteToStack, hm]
    have e2 : AdaptiveContainer.demoteToStack T (view H o) =
        { view H o with
          stackArray := moveLoop o.sz (deref H o.heapArray) o.stackArray
          heapArray := none
          cap := T
          usingHeap := false } := by
      simp [AdaptiveContainer.demoteToStack, hm, heapSlots, deref, view]
    rw [e1, e2]
    refine ⟨?_, ?_, ?_, ?_, ?_⟩
    · simp [view, read]
    · intro a ha
      simp at ha
    · simp [length_delete]
    · intro a ha hp
      simp only [getD_eq_read, read_delete]
      rw [if_neg (fun h => hp h.symm)]
    · intro a ha
      simp at ha

/-- `Mem.storeHeap` does to the view what `storeHeap` does to a `State`. -/
theorem sim_storeHeap (H : Heap α) (o : Object α) (v : α) (hv : Valid H o) :
    view (storeHeap H o v).1 (storeHeap H o v).2 = AdaptiveContainer.storeHeap (view H o) v ∧
    Steps H o (storeHeap H o v).1 (storeHeap H o v).2 := by
  refine ⟨?_, ?_, ?_, ?_, ?_⟩
  · simp only [storeHeap, AdaptiveContainer.storeHeap, view, read_write, deref]
    cases hr : read H o.heapArray <;> simp
  · intro a ha
    simp only [storeHeap] at ha ⊢
    rw [length_write]
    exact hv a ha
  · simp [storeHeap, length_write]
  · intro a ha hp
    simp only [storeHeap, getD_eq_read, read_write]
    rw [if_neg (fun h => hp h.1.symm)]
  · intro a ha
    exact Or.inl ha

/-- After a `grow()` that returned, the array the object pointed to before is
deleted. -/
theorem read_after_grow [Inhabited α] (mem : Nat → Bool) (H : Heap α) (o : Object α)
    (H1 : Heap α) (o1 : Object α) (hg : grow mem H o = (.ok (), H1, o1)) :
    read H1 o.heapArray = none := by
  simp only [grow] at hg
  cases hn : new_ mem H (o.cap * 2) with
  | none => rw [hn] at hg; cases hg
  | some r =>
    rw [hn] at hg
    simp only [Prod.mk.injEq, true_and] at hg
    rw [← hg.1, read_delete]
    simp

/-- `Mem.push_back` does to the view what `push_back` does to a `State`, for
every argument: a reference into the array that `grow()` deletes reads a cell
of the store that is gone. -/
theorem sim_push_back [Inhabited α] (mem : Nat → Bool) (T : Nat) (H : Heap α) (o : Object α)
    (val : Arg α) (hv : Valid H o) :
    ((push_back mem T H o val).1,
        view (push_back mem T H o val).2.1 (push_back mem T H o val).2.2)
      = AdaptiveContainer.push_back mem T (view H o) val ∧
    Steps H o (push_back mem T H o val).2.1 (push_back mem T H o val).2.2 := by
  cases hm : o.usingHeap with
  | true =>
    by_cases heq : o.sz = o.cap
    · obtain ⟨g1, g2⟩ := sim_grow mem H o hv
      rcases hg : grow mem H o with ⟨_ | _, H1, o1⟩
      · rw [hg] at g1 g2
        have e1 : push_back mem T H o val = (.error ‹_›, H1, o1) := by
          simp [push_back, hm, heq, hg]
        have e2 : AdaptiveContainer.push_back mem T (view H o) val
            = (.error ‹_›, view H1 o1) := by
          simp only [AdaptiveContainer.push_back]
          rw [← g1]
          simp [view, hm, heq]
        rw [e1, e2]
        exact ⟨rfl, g2⟩
      · have hgone := read_after_grow mem H o H1 o1 hg
        rw [hg] at g1 g2
        simp only at g1 g2
        cases hr : val.read none with
        | none =>
          have e1 : push_back mem T H o val = (.error .undefined_behaviour, H1, o1) := by
            simp [push_back, hm, heq, hg, hgone, hr]
          have e2 : AdaptiveContainer.push_back mem T (view H o) val
              = (.error .undefined_behaviour, view H1 o1) := by
            simp only [AdaptiveContainer.push_back]
            rw [← g1]
            simp [view, hm, heq, hr]
          rw [e1, e2]
          exact ⟨rfl, g2⟩
        | some v =>
          obtain ⟨s1, s2⟩ := sim_storeHeap H1 o1 v g2.1
          have e1 : push_back mem T H o val = (.ok (), storeHeap H1 o1 v) := by
            simp [push_back, hm, heq, hg, hgone, hr]
          have e2 : AdaptiveContainer.push_back mem T (view H o) val
              = (.ok (), AdaptiveContainer.storeHeap (view H1 o1) v) := by
            simp only [AdaptiveContainer.push_back]
            rw [← g1]
            simp [view, hm, heq, hr]
          rw [e1, e2]
          exact ⟨by rw [← s1], g2.trans s2⟩
    · cases hr : val.read (read H o.heapArray) with
      | none =>
        have e1 : push_back mem T H o val = (.error .undefined_behaviour, H, o) := by
          simp [push_back, hm, heq, hr]
        have e2 : AdaptiveContainer.push_back mem T (view H o) val
            = (.error .undefined_behaviour, view H o) := by
          simp [AdaptiveContainer.push_back, view, hm, heq, hr]
        rw [e1, e2]
        exact ⟨rfl, Steps.same H o hv⟩
      | some v =>
        obtain ⟨s1, s2⟩ := sim_storeHeap H o v hv
        have e1 : push_back mem T H o val = (.ok (), storeHeap H o v) := by
          simp [push_back, hm, heq, hr]
        have e2 : AdaptiveContainer.push_back mem T (view H o) val
            = (.ok (), AdaptiveContainer.storeHeap (view H o) v) := by
          simp [AdaptiveContainer.push_back, view, hm, heq, hr]
        rw [e1, e2]
        exact ⟨by rw [← s1], s2⟩
  | false =>
    by_cases heq : o.sz = T
    · obtain ⟨g1, g2⟩ := sim_promoteToHeap mem H o hv
      rcases hg : promoteToHeap mem H o with ⟨_ | _, H1, o1⟩
      · rw [hg] at g1 g2
        have e1 : push_back mem T H o val = (.error ‹_›, H1, o1) := by
          simp [push_back, hm, heq, hg]
        have e2 : AdaptiveContainer.push_back mem T (view H o) val
            = (.error ‹_›, view H1 o1) := by
          simp only [AdaptiveContainer.push_back]
          rw [← g1]
          simp [view, hm, heq]
        rw [e1, e2]
        exact ⟨rfl, g2⟩
      · rw [hg] at g1 g2
        simp only at g1 g2
        cases hr : val.read (some o1.stackArray) with
        | none =>
          have e1 : push_back mem T H o val = (.error .undefined_behaviour, H1, o1) := by
            simp [push_back, hm, heq, hg, hr]
          have e2 : AdaptiveContainer.push_back mem T (view H o) val
              = (.error .undefined_behaviour, view H1 o1) := by
            simp only [AdaptiveContainer.push_back]
            rw [← g1]
            simp [view, hm, heq, hr]
          rw [e1, e2]
          exact ⟨rfl, g2⟩
        | some v =>
          obtain ⟨s1, s2⟩ := sim_storeHeap H1 o1 v g2.1
          have e1 : push_back mem T H o val = (.ok (), storeHeap H1 o1 v) := by
            simp [push_back, hm, heq, hg, hr]
          have e2 : AdaptiveContainer.push_back mem T (view H o) val
              = (.ok (), AdaptiveContainer.storeHeap (view H1 o1) v) := by
            simp only [AdaptiveContainer.push_back]
            rw [← g1]
            simp [view, hm, heq, hr]
          rw [e1, e2]
          exact ⟨by rw [← s1], g2.trans s2⟩
    · cases hr : val.read (some o.stackArray) with
      | none =>
        have e1 : push_back mem T H o val = (.error .undefined_behaviour, H, o) := by
          simp [push_back, hm, heq, hr]
        have e2 : AdaptiveContainer.push_back mem T (view H o) val
            = (.error .undefined_behaviour, view H o) := by
          simp [AdaptiveContainer.push_back, view, hm, heq, hr]
        rw [e1, e2]
        exact ⟨rfl, Steps.same H o hv⟩
      | some v =>
        have e1 : push_back mem T H o val = (.ok (), storeStack H o v) := by
          simp [push_back, hm, heq, hr]
        have e2 : AdaptiveContainer.push_back mem T (view H o) val
            = (.ok (), AdaptiveContainer.storeStack (view H o) v) := by
          simp [AdaptiveContainer.push_back, view, hm, heq, hr]
        rw [e1, e2]
        refine ⟨rfl, ?_, le_refl _, fun _ _ _ => rfl, fun _ h => Or.inl h⟩
        intro a ha
        exact hv a ha

/-- `Mem.pop_back` does to the view what `pop_back` does to a `State`. -/
theorem sim_pop_back [Inhabited α] (T : Nat) (H : Heap α) (o : Object α) (hv : Valid H o) :
    ((pop_back T H o).1, view (pop_back T H o).2.1 (pop_back T H o).2.2)
      = AdaptiveContainer.pop_back T (view H o) ∧
    Steps H o (pop_back T H o).2.1 (pop_back T H o).2.2 := by
  by_cases h0 : o.sz = 0
  · have e1 : pop_back T H o = (.error (.out_of_range "pop_back on empty container"), H, o) := by
      simp [pop_back, h0]
    have e2 : AdaptiveContainer.pop_back T (view H o)
        = (.error (.out_of_range "pop_back on empty container"), view H o) := by
      simp [AdaptiveContainer.pop_back, view, h0]
    rw [e1, e2]
    exact ⟨rfl, Steps.same H o hv⟩
  · have hv1 : Valid H { o with sz := o.sz - 1 } := fun a ha => hv a ha
    by_cases hd : o.usingHeap = true ∧ o.sz - 1 ≤ T
    · obtain ⟨s1, s2⟩ := sim_demoteToStack T H { o with sz := o.sz - 1 } hv1
      have e1 : pop_back T H o = (.ok (), demoteToStack T H { o with sz := o.sz - 1 }) := by
        simp [pop_back, h0, hd.1, hd.2]
      have e2 : AdaptiveContainer.pop_back T (view H o)
          = (.ok (), AdaptiveContainer.demoteToStack T (view H { o with sz := o.sz - 1 })) := by
        simp [AdaptiveContainer.pop_back, view, h0, hd.1, hd.2]
      rw [e1, e2]
      refine ⟨by rw [← s1], ?_⟩
      exact s2
    · have e1 : pop_back T H o = (.ok (), H, { o with sz := o.sz - 1 }) := by
        simp only [pop_back, h0, if_false]
        rw [if_neg]
        simpa using hd
      have e2 : AdaptiveContainer.pop_back T (view H o)
          = (.ok (), view H { o with sz := o.sz - 1 }) := by
        simp only [AdaptiveContainer.pop_back, view, h0, if_false]
        rw [if_neg]
        simpa using hd
      rw [e1, e2]
      exact ⟨rfl, hv1, le_refl _, fun _ _ _ => rfl, fun _ h => Or.inl h⟩

theorem Sep.symm {o1 o2 : Object α} (h : Sep o1 o2) : Sep o2 o1 :=
  fun a h2 h1 => h a h1 h2

/-- A step of one object leaves every other valid object that shares no array
with it as it was, and still sharing no array with it. -/
theorem Steps.frame {H H1 : Heap α} {o o1 x : Object α} (h : Steps H o H1 o1)
    (hx : Valid H x) (hs : Sep x o) :
    view H1 x = view H x ∧ Valid H1 x ∧ Sep x o1 := by
  obtain ⟨-, a2, a3, a4⟩ := h
  refine ⟨?_, fun a ha => by have := hx a ha; omega, ?_⟩
  · simp only [view]
    congr 1
    cases hp : x.heapArray with
    | none => rfl
    | some a => exact a3 a (hx a hp) (hs a hp)
  · intro a ha h1
    rcases a4 a h1 with h' | h'
    · exact hs a ha h'
    · have := hx a ha
      omega

/-- After `push_back` the pointer of an object in stack mode is null, if it
was so before. -/
theorem push_back_null [Inhabited α] (mem : Nat → Bool) (T : Nat) (H : Heap α) (o : Object α)
    (v : α) (hn : o.usingHeap = false → o.heapArray = none) :
    (push_back mem T H o (.outside v)).2.2.usingHeap = false →
      (push_back mem T H o (.outside v)).2.2.heapArray = none := by
  cases hm : o.usingHeap with
  | true =>
    by_cases heq : o.sz = o.cap
    · cases hmem : mem (o.cap * 2) <;>
        simp [push_back, hm, heq, grow, new_, hmem, storeHeap]
    · simp [push_back, hm, heq, storeHeap]
  | false =>
    by_cases heq : o.sz = T
    · cases hmem : mem (o.cap * 2) <;>
        simp [push_back, hm, heq, promoteToHeap, new_, hmem, storeHeap, hn hm]
    · simp [push_back, hm, heq, storeStack, hn hm]

theorem pop_back_null [Inhabited α] (T : Nat) (H : Heap α) (o : Object α)
    (hn : o.usingHeap = false → o.heapArray = none) :
    (pop_back T H o).2.2.usingHeap = false → (pop_back T H o).2.2.heapArray = none := by
  by_cases h0 : o.sz = 0
  · simpa [pop_back, h0] using hn
  · cases hm : o.usingHeap with
    | false => simp [pop_back, h0, hm, hn hm]
    | true =>
      by_cases hd : o.sz - 1 ≤ T
      · simp [pop_back, h0, hm, hd, demoteToStack]
      · simp [pop_back, h0, hm, hd]

/-- One call on a well-formed object: the view changes as in the `State`
model, the object stays well formed, and the step is a `Steps`. -/
theorem call_spec [Inhabited α] {T : Nat} (hT : 1 ≤ T) (w : World α) (s : Side) (c : Call α)
    (hw : WF T w.heap (w.get s)) :
    view (w.call T s c).heap ((w.call T s c).get s)
      = runCalls T [c] (view w.heap (w.get s)) ∧
    WF T (w.call T s c).heap ((w.call T s c).get s) ∧
    Steps w.heap (w.get s) (w.call T s c).heap ((w.call T s c).get s) ∧
    (w.call T s c).get s.other = w.get s.other := by
  obtain ⟨h1, h2, h3⟩ := hw
  cases c with
  | push_back v =>
    obtain ⟨e1, e2⟩ := sim_push_back always T w.heap (w.get s) (.outside v) h2
    have e3 := push_back_null always T w.heap (w.get s) v h3
    have hv : view (push_back always T w.heap (w.get s) (.outside v)).2.1
        (push_back always T w.heap (w.get s) (.outside v)).2.2
        = (AdaptiveContainer.push_back always T (view w.heap (w.get s)) (.outside v)).2 := by
      rw [← e1]
    have hi := (push_back_always hT h1 v).2.1
    rw [← hv] at hi
    cases s <;> exact ⟨hv, ⟨hi, e2.1, e3⟩, e2, rfl⟩
  | pop_back =>
    obtain ⟨e1, e2⟩ := sim_pop_back T w.heap (w.get s) h2
    have e3 := pop_back_null T w.heap (w.get s) h3
    have hv : view (pop_back T w.heap (w.get s)).2.1 (pop_back T w.heap (w.get s)).2.2
        = (AdaptiveContainer.pop_back T (view w.heap (w.get s))).2 := by
      rw [← e1]
    have hi := pop_back_Inv (T := T) h1
    rw [← hv] at hi
    cases s <;> exact ⟨hv, ⟨hi, e2.1, e3⟩, e2, rfl⟩

theorem Good.get {T : Nat} {w : World α} (h : World.Good T w) (s : Side) :
    WF T w.heap (w.get s) ∧ WF T w.heap (w.get s.other) ∧ Sep (w.get s.other) (w.get s) := by
  cases s
  · exact ⟨h.1, h.2.1, h.2.2.symm⟩
  · exact ⟨h.2.1, h.1, h.2.2⟩

theorem Good.of_get {T : Nat} {w : World α} (s : Side) (h1 : WF T w.heap (w.get s))
    (h2 : WF T w.heap (w.get s.other)) (h3 : Sep (w.get s.other) (w.get s)) :
    World.Good T w := by
  cases s
  · exact ⟨h1, h2, h3.symm⟩
  · exact ⟨h2, h1, h3⟩

/-- One call on one object of a well-formed world changes the view of that
object as in the `State` model and leaves the view of the other object as it
was; the world stays well formed. -/
theorem call_independent [Inhabited α] {T : Nat} (hT : 1 ≤ T) (w : World α) (s : Side)
    (c : Call α) (hw : World.Good T w) :
    World.Good T (w.call T s c) ∧
    view (w.call T s c).heap ((w.call T s c).get s)
      = runCalls T [c] (view w.heap (w.get s)) ∧
    view (w.call T s c).heap ((w.call T s c).get s.other)
      = view w.heap (w.get s.other) := by
  obtain ⟨g1, g2, g3⟩ := Good.get hw s
  obtain ⟨c1, c2, c3, c4⟩ := call_spec hT w s c g1
  obtain ⟨f1, f2, f3⟩ := c3.frame g2.2.1 g3
  rw [c4]
  refine ⟨Good.of_get s c2 ?_ ?_, c1, f1⟩
  · rw [c4]
    exact ⟨by rw [f1]; exact g2.1, f2, g2.2.2⟩
  · rw [c4]
    exact f3

theorem callsOn_cons_self (s : Side) (c : Call α) (cs : List (Side × Call α)) :
    callsOn s ((s, c) :: cs) = c :: callsOn s cs := by
  simp [callsOn]

theorem callsOn_cons_other (s : Side) (c : Call α) (cs : List (Side × Call α)) :
    callsOn s.other ((s, c) :: cs) = callsOn s.other cs := by
  cases s <;> simp [callsOn, Side.other]

theorem runCalls_cons [Inhabited α] (T : Nat) (c : Call α) (cs : List (Call α)) (st : State α) :
    runCalls T (c :: cs) st = runCalls T cs (runCalls T [c] st) := by
  cases c <;> rfl

/-- Any interleaving of calls on the two objects of a well-formed world leaves
each object with the view it would have had if only its own calls had run. -/
theorem run_independent [Inhabited α] {T : Nat} (hT : 1 ≤ T) (cs : List (Side × Call α))
    (w : World α) (hw : World.Good T w) :
    World.Good T (World.run T cs w) ∧
    ∀ s, view (World.run T cs w).heap ((World.run T cs w).get s)
      = runCalls T (callsOn s cs) (view w.heap (w.get s)) := by
  induction cs generalizing w with
  | nil => exact ⟨hw, fun s => rfl⟩
  | cons sc cs ih =>
    obtain ⟨s, c⟩ := sc
    obtain ⟨g1, g2, g3⟩ := call_independent hT w s c hw
    obtain ⟨i1, i2⟩ := ih (w.call T s c) g1
    refine ⟨i1, ?_⟩
    intro s1
    have hcase : s1 = s ∨ s1 = s.other := by cases s <;> cases s1 <;> simp [Side.other]
    rcases hcase with h | h
    · subst h
      rw [World.run, i2, g2, callsOn_cons_self, ← runCalls_cons]
    · subst h
      rw [World.run, i2, g3, callsOn_cons_other]

/-! ## Copying and moving -/

theorem WF.in_heap {T : Nat} {H : Heap α} {o : Object α} (h : WF T H o)
    (hm : o.usingHeap = true) :
    ∃ a buf, o.heapArray = some a ∧ a < H.length ∧ read H (some a) = some buf ∧
      buf.length = o.cap ∧ T ≤ o.cap ∧ o.sz ≤ o.cap ∧ o.stackArray.length = T := by
  obtain ⟨h1, h2, -⟩ := h
  obtain ⟨a1, a2, a3, buf, a4, a5⟩ := h1.heap (c := view H o) hm
  simp only [view] at a1 a2 a3 a4 a5
  cases hp : o.heapArray with
  | none => rw [hp] at a4; simp [read] at a4
  | some a =>
    rw [hp] at a4
    exact ⟨a, buf, rfl, h2 a hp, a4, a5, a2, a1, a3⟩

theorem WF.in_stack {T : Nat} {H : Heap α} {o : Object α} (h : WF T H o)
    (hm : o.usingHeap = false) :
    o.heapArray = none ∧ o.cap = T ∧ o.sz ≤ T ∧ o.stackArray.length = T := by
  obtain ⟨h1, -, h3⟩ := h
  obtain ⟨a1, a2, a3, -⟩ := h1.stack (c := view H o) hm
  exact ⟨h3 hm, a2, a1, a3⟩

theorem WF.of_heap {T : Nat} {H : Heap α} {o : Object α} (a : Nat) (buf : List α)
    (hm : o.usingHeap = true) (hp : o.heapArray = some a) (ha : a < H.length)
    (hr : read H (some a) = some buf) (hl : buf.length = o.cap) (hc : T ≤ o.cap)
    (hs : o.sz ≤ o.cap) (hst : o.stackArray.length = T) : WF T H o := by
  refine ⟨?_, ?_, ?_⟩
  · simp [Inv, view, hm, hp, hr, hl, hc, hs, hst]
  · intro b hb
    rw [hp] at hb
    cases hb
    exact ha
  · intro h
    rw [hm] at h
    cases h

theorem WF.of_stack {T : Nat} {H : Heap α} {o : Object α}
    (hm : o.usingHeap = false) (hp : o.heapArray = none) (hc : o.cap = T)
    (hs : o.sz ≤ T) (hst : o.stackArray.length = T) : WF T H o := by
  refine ⟨?_, ?_, fun _ => hp⟩
  · simp [Inv, view, hm, hp, read, hc, hs, hst]
  · intro b hb
    rw [hp] at hb
    cases hb

/-- The iteration sequence of the view of a heap-mode object. -/
theorem elements_view_heap (H : Heap α) (o : Object α) (a : Nat) (buf : List α)
    (hm : o.usingHeap = true) (hp : o.heapArray = some a) (hr : read H (some a) = some buf) :
    elements (view H o) = buf.take o.sz := by
  simp [elements, begin_, end_, view, hm, hp, hr, heapSlots]

theorem elements_view_stack (H : Heap α) (o : Object α) (hm : o.usingHeap = false) :
    elements (view H o) = o.stackArray.take o.sz := by
  simp [elements, begin_, end_, view, hm]

/-- The copy constructor with enough memory: the new object is well formed,
shares no array with the source, has the observations of the source, and the
source is as it was. -/
theorem copy_construct_spec [Inhabited α] {T : Nat} (H : Heap α) (A : Object α)
    (hA : WF T H A) :
    ∃ B H1, copy_construct always T H A = (.ok B, H1) ∧
      World.Good T { heap := H1, first := A, second := B } ∧
      view H1 A = view H A ∧ ObsEq (view H1 B) (view H A) := by
  cases hm : A.usingHeap with
  | true =>
    obtain ⟨a, buf, h1, h2, h3, h4, h5, h6, h7⟩ := hA.in_heap hm
    have hne : a ≠ H.length := by omega
    have hd : read (H ++ [some (List.replicate A.cap (default : α))]) (some a) = some buf := by
      rw [read_append_lt _ _ _ h2, h3]
    have e : copy_construct always T H A = (.ok
        { sz := A.sz, cap := A.cap, usingHeap := true,
          stackArray := List.replicate T default, heapArray := some H.length },
        write (H ++ [some (List.replicate A.cap default)]) (some H.length)
          (moveLoop A.sz buf (List.replicate A.cap default))) := by
      simp [copy_construct, hm, new_always, h1, hd, deref, read_append_new]
    have hrA : read (write (H ++ [some (List.replicate A.cap default)]) (some H.length)
        (moveLoop A.sz buf (List.replicate A.cap default))) (some a) = some buf := by
      rw [read_write, if_neg (fun h => by cases h.1; omega), read_append_lt _ _ _ h2, h3]
    have hrB : read (write (H ++ [some (List.replicate A.cap default)]) (some H.length)
        (moveLoop A.sz buf (List.replicate A.cap default))) (some H.length)
        = some (moveLoop A.sz buf (List.replicate A.cap default)) := by
      rw [read_write, if_pos ⟨rfl, by rw [read_append_new]; rfl⟩]
    have hlen : (write (H ++ [some (List.replicate A.cap (default : α))]) (some H.length)
        (moveLoop A.sz buf (List.replicate A.cap default))).length = H.length + 1 := by
      simp [length_write]
    refine ⟨_, _, e, ⟨?_, ?_, ?_⟩, ?_, ?_⟩
    · exact WF.of_heap a buf hm h1 (by rw [hlen]; omega) hrA h4 h5 h6 h7
    · exact WF.of_heap H.length _ rfl rfl (by rw [hlen]; omega) hrB
        (by simp [moveLoop_length]) h5 h6 (by simp)
    · intro b hb
      rw [h1] at hb
      cases hb
      simp only [ne_eq, Option.some.injEq]
      omega
    · simp only [view, h1, hrA, h3]
    · refine ⟨rfl, rfl, by simp [isStackMode, view, hm], ?_⟩
      rw [elements_view_heap _ _ H.length _ rfl rfl hrB, elements_view_heap _ _ a buf hm h1 h3]
      exact take_moveLoop A.sz buf (List.replicate A.cap default) (by omega) (by simp; omega)
  | false =>
    obtain ⟨h1, h2, h3, h4⟩ := hA.in_stack hm
    have e : copy_construct always T H A = (.ok
        { sz := A.sz, cap := A.cap, usingHeap := false,
          stackArray := moveLoop A.sz A.stackArray (List.replicate T default),
          heapArray := none }, H) := by
      simp [copy_construct, hm]
    refine ⟨_, _, e, ⟨hA, ?_, ?_⟩, rfl, ?_⟩
    · exact WF.of_stack rfl rfl h2 h3 (by simp [moveLoop_length])
    · intro b hb
      rw [h1] at hb
      cases hb
    · refine ⟨rfl, rfl, by simp [isStackMode, view, hm], ?_⟩
      rw [elements_view_stack _ _ rfl, elements_view_stack _ _ hm]
      exact take_moveLoop A.sz A.stackArray (List.replicate T default) (by omega)
        (by simp; omega)

/-- The first step of both assignment operators: the array of a heap-mode
destination is deleted; an array of another object is not touched. -/
theorem assign_cleanup {T : Nat} (H : Heap α) (D A : Object α) (hD : WF T H D)
    (hs : Sep D A) :
    ((if (D.usingHeap && D.heapArray.isSome) = true then delete H D.heapArray else H).length
      = H.length) ∧
    read (if (D.usingHeap && D.heapArray.isSome) = true then delete H D.heapArray else H)
      A.heapArray = read H A.heapArray ∧
    (if (D.usingHeap && D.heapArray.isSome) = true then ({ D with heapArray := none } : Object α)
      else D).heapArray = none ∧
    D.stackArray.length = T := by
  cases hm : D.usingHeap with
  | false =>
    obtain ⟨h1, -, -, h4⟩ := hD.in_stack hm
    simp [h1, h4]
  | true =>
    obtain ⟨d, buf, h1, -, -, -, -, -, h7⟩ := hD.in_heap hm
    have hne : A.heapArray ≠ some d := hs d h1
    simp [h1, length_delete, read_delete, hne, h7]

/-- The copy assignment between two distinct well-formed objects with enough
memory: the destination ends well formed with the observations of the source,
shares no array with it, and the source is as it was. -/
theorem copy_assign_spec [Inhabited α] {T : Nat} (H : Heap α) (D A : Object α)
    (hD : WF T H D) (hA : WF T H A) (hs : Sep D A) :
    ∃ H1 D1, copy_assign always H D A = (.ok (), H1, D1) ∧
      WF T H1 D1 ∧ WF T H1 A ∧ Sep D1 A ∧
      view H1 A = view H A ∧ ObsEq (view H1 D1) (view H A) := by
  obtain ⟨c1, c2, c3, c4⟩ := assign_cleanup H D A hD hs
  generalize hH0 : (if (D.usingHeap && D.heapArray.isSome) = true then delete H D.heapArray
    else H) = H0 at c1 c2
  generalize hD0 : (if (D.usingHeap && D.heapArray.isSome) = true
    then ({ D with heapArray := none } : Object α) else D) = D0 at c3
  have hst : D0.stackArray = D.stackArray := by
    rw [← hD0]; split <;> rfl
  cases hm : A.usingHeap with
  | true =>
    obtain ⟨a, buf, h1, h2, h3, h4, h5, h6, h7⟩ := hA.in_heap hm
    rw [h1] at c2
    rw [h3] at c2
    have hd : read (H0 ++ [some (List.replicate A.cap (default : α))]) (some a) = some buf := by
      rw [read_append_lt _ _ _ (by omega), c2]
    have e : copy_assign always H D A = (.ok (),
        write (H0 ++ [some (List.replicate A.cap default)]) (some H0.length)
          (moveLoop A.sz buf (List.replicate A.cap default)),
        { D0 with sz := A.sz, cap := A.cap, usingHeap := true, heapArray := some H0.length }) := by
      simp only [copy_assign, hH0, hD0]
      simp [hm, new_always, h1, hd, deref, read_append_new]
    have hrA : read (write (H0 ++ [some (List.replicate A.cap default)]) (some H0.length)
        (moveLoop A.sz buf (List.replicate A.cap default))) (some a) = some buf := by
      rw [read_write, if_neg (fun h => by cases h.1; omega), read_append_lt _ _ _ (by omega), c2]
    have hrB : read (write (H0 ++ [some (List.replicate A.cap default)]) (some H0.length)
        (moveLoop A.sz buf (List.replicate A.cap default))) (some H0.length)
        = some (moveLoop A.sz buf (List.replicate A.cap default)) := by
      rw [read_write, if_pos ⟨rfl, by rw [read_append_new]; rfl⟩]
    have hlen : (write (H0 ++ [some (List.replicate A.cap (default : α))]) (some H0.length)
        (moveLoop A.sz buf (List.replicate A.cap default))).length = H0.length + 1 := by
      simp [length_write]
    refine ⟨_, _, e, ?_, ?_, ?_, ?_, ?_⟩
    · exact WF.of_heap H0.length _ rfl rfl (by rw [hlen]; omega) hrB
        (by simp [moveLoop_length]) h5 h6 (by rw [hst]; exact c4)
    · exact WF.of_heap a buf hm h1 (by rw [hlen]; omega) hrA h4 h5 h6 h7
    · intro b hb
      simp only [Option.some.injEq] at hb
      rw [h1]
      simp only [ne_eq, Option.some.injEq]
      omega
    · simp only [view, h1, hrA, h3]
    · refine ⟨rfl, rfl, by simp [isStackMode, view, hm], ?_⟩
      rw [elements_view_heap _ _ H0.length _ rfl rfl hrB, elements_view_heap _ _ a buf hm h1 h3]
      exact take_moveLoop A.sz buf (List.replicate A.cap default) (by omega) (by simp; omega)
  | false =>
    obtain ⟨h1, h2, h3, h4⟩ := hA.in_stack hm
    have e : copy_assign always H D A = (.ok (), H0,
        { D0 with sz := A.sz, cap := A.cap, usingHeap := false,
                  stackArray := moveLoop A.sz A.stackArray D0.stackArray,
                  heapArray := none }) := by
      simp only [copy_assign, hH0, hD0]
      simp [hm]
    refine ⟨_, _, e, ?_, ?_, ?_, ?_, ?_⟩
    · exact WF.of_stack rfl rfl h2 h3 (by rw [moveLoop_length, hst]; exact c4)
    · exact WF.of_stack hm h1 h2 h3 h4
    · intro b hb
      cases hb
    · simp only [view, h1, read]
    · refine ⟨rfl, rfl, by simp [isStackMode, view, hm], ?_⟩
      rw [elements_view_stack _ _ rfl, elements_view_stack _ _ hm]
      exact take_moveLoop A.sz A.stackArray D0.stackArray (by omega) (by rw [hst]; omega)

/-- An object with count 0, capacity `T`, stack mode and a null pointer is
well formed and observably a fresh container. -/
theorem reset_spec [Inhabited α] {T : Nat} (H : Heap α) (o : Object α) (hsz : o.sz = 0)
    (hc : o.cap = T) (hm : o.usingHeap = false) (hp : o.heapArray = none)
    (hst : o.stackArray.length = T) :
    WF T H o ∧ ObsEq (view H o) (AdaptiveContainer.init T) := by
  refine ⟨WF.of_stack hm hp hc (by omega) hst, hsz, hc, by simp [isStackMode, view, hm, AdaptiveContainer.init], ?_⟩
  rw [elements_of_sz_zero (c := view H o) hsz, elements_init]

/-- The move constructor: the new object is well formed with the observations
the source had and, in heap mode, the pointer the source had; the source ends
as an empty stack-mode object with a null pointer. -/
theorem move_construct_spec [Inhabited α] {T : Nat} (H : Heap α) (A : Object α)
    (hA : WF T H A) :
    WF T H (move_construct T A).1 ∧ ObsEq (view H (move_construct T A).1) (view H A) ∧
    (A.usingHeap = true → (move_construct T A).1.heapArray = A.heapArray) ∧
    (move_construct T A).2.sz = 0 ∧ (move_construct T A).2.cap = T ∧
    (move_construct T A).2.usingHeap = false ∧ (move_construct T A).2.heapArray = none ∧
    (move_construct T A).2.stackArray.length = T ∧
    Sep (move_construct T A).1 (move_construct T A).2 := by
  cases hm : A.usingHeap with
  | true =>
    obtain ⟨a, buf, h1, h2, h3, h4, h5, h6, h7⟩ := hA.in_heap hm
    have e : move_construct T A =
        ({ sz := A.sz, cap := A.cap, usingHeap := true,
           stackArray := List.replicate T default, heapArray := some a },
         { A with heapArray := none, sz := 0, cap := T, usingHeap := false }) := by
      simp [move_construct, hm, h1]
    rw [e]
    refine ⟨?_, ?_, fun _ => h1.symm, rfl, rfl, rfl, rfl, h7, by intro b _ hb; cases hb⟩
    · exact WF.of_heap a buf rfl rfl h2 h3 h4 h5 h6 (by simp)
    · refine ⟨rfl, rfl, by simp [isStackMode, view, hm], ?_⟩
      rw [elements_view_heap _ _ a buf rfl rfl h3, elements_view_heap _ _ a buf hm h1 h3]
  | false =>
    obtain ⟨h1, h2, h3, h4⟩ := hA.in_stack hm
    have e : move_construct T A =
        ({ sz := A.sz, cap := A.cap, usingHeap := false,
           stackArray := moveLoop A.sz A.stackArray (List.replicate T default),
           heapArray := none },
         { A with sz := 0, cap := T, usingHeap := false }) := by
      simp [move_construct, hm]
    rw [e]
    refine ⟨?_, ?_, by simp, rfl, rfl, rfl, h1, h4, by intro b hb; cases hb⟩
    · exact WF.of_stack rfl rfl h2 h3 (by simp [moveLoop_length])
    · refine ⟨rfl, rfl, by simp [isStackMode, view, hm], ?_⟩
      rw [elements_view_stack _ _ rfl, elements_view_stack _ _ hm]
      exact take_moveLoop A.sz A.stackArray (List.replicate T default) (by omega)
        (by simp; omega)

/-- The move assignment between two distinct well-formed objects: the
destination ends well formed with the observations the source had, and the
source ends as an empty stack-mode object with a null pointer. -/
theorem move_assign_spec [Inhabited α] {T : Nat} (H : Heap α) (D A : Object α)
    (hD : WF T H D) (hA : WF T H A) (hs : Sep D A) :
    WF T (move_assign T H D A).1 (move_assign T H D A).2.1 ∧
    ObsEq (view (move_assign T H D A).1 (move_assign T H D A).2.1) (view H A) ∧
    (A.usingHeap = true → (move_assign T H D A).2.1.heapArray = A.heapArray) ∧
    (move_assign T H D A).2.2.sz = 0 ∧ (move_assign T H D A).2.2.cap = T ∧
    (move_assign T H D A).2.2.usingHeap = false ∧ (move_assign T H D A).2.2.heapArray = none ∧
    (move_assign T H D A).2.2.stackArray.length = T ∧
    Sep (move_assign T H D A).2.1 (move_assign T H D A).2.2 := by
  obtain ⟨c1, c2, -, c4⟩ := assign_cleanup H D A hD hs
  generalize hH0 : (if (D.usingHeap && D.heapArray.isSome) = true then delete H D.heapArray
    else H) = H0 at c1 c2
  cases hm : A.usingHeap with
  | true =>
    obtain ⟨a, buf, h1, h2, h3, h4, h5, h6, h7⟩ := hA.in_heap hm
    rw [h1, h3] at c2
    have e : move_assign T H D A = (H0,
        { D with sz := A.sz, cap := A.cap, usingHeap := true, heapArray := some a },
        { A with heapArray := none, sz := 0, cap := T, usingHeap := false }) := by
      simp only [move_assign, hH0]
      simp [hm, h1]
    rw [e]
    refine ⟨?_, ?_, fun _ => h1.symm, rfl, rfl, rfl, rfl, h7, by intro b _ hb; cases hb⟩
    · exact WF.of_heap a buf rfl rfl (show a < H0.length by omega) c2 h4 h5 h6 c4
    · refine ⟨rfl, rfl, by simp [isStackMode, view, hm], ?_⟩
      rw [elements_view_heap _ _ a buf rfl rfl c2, elements_view_heap _ _ a buf hm h1 h3]
  | false =>
    obtain ⟨h1, h2, h3, h4⟩ := hA.in_stack hm
    have e : move_assign T H D A = (H0,
        { D with sz := A.sz, cap := A.cap, usingHeap := false,
                 stackArray := moveLoop A.sz A.stackArray D.stackArray, heapArray := none },
        { A with sz := 0, cap := T, usingHeap := false }) := by
      simp only [move_assign, hH0]
      simp [hm]
    rw [e]
    refine ⟨?_, ?_, by simp, rfl, rfl, rfl, h1, h4, by intro b hb; cases hb⟩
    · exact WF.of_stack rfl rfl h2 h3 (by rw [moveLoop_length]; exact c4)
    · refine ⟨rfl, rfl, by simp [isStackMode, view, hm], ?_⟩
      rw [elements_view_stack _ _ rfl, elements_view_stack _ _ hm]
      exact take_moveLoop A.sz A.stackArray D.stackArray (by omega) (by omega)

/-- Sequences of `push_back` and `pop_back` map observably equal states to
observably equal states. -/
theorem runCalls_ObsEq [Inhabited α] {T : Nat} (hT : 1 ≤ T) (cs : List (Call α))
    {c1 c2 : State α} (h1 : Inv T c1) (h2 : Inv T c2) (ho : ObsEq c1 c2) :
    Inv T (runCalls T cs c1) ∧ Inv T (runCalls T cs c2) ∧
    ObsEq (runCalls T cs c1) (runCalls T cs c2) := by
  induction cs generalizing c1 c2 with
  | nil => exact ⟨h1, h2, ho⟩
  | cons c cs ih =>
    cases c with
    | push_back v =>
      obtain ⟨d1, d2, e1, e2, i1, i2, o⟩ := applyOp_ObsEq hT h1 h2 ho (.push_back v)
      simp only [applyOp, Option.some.injEq] at e1 e2
      subst e1 e2
      exact ih i1 i2 o
    | pop_back =>
      obtain ⟨d1, d2, e1, e2, i1, i2, o⟩ := applyOp_ObsEq hT h1 h2 ho .pop_back
      simp only [applyOp, Option.some.injEq] at e1 e2
      subst e1 e2
      exact ih i1 i2 o

/-- After a copy, calls on the two objects run independently: the first
object behaves as if only its calls had run, and the second as the source
would under the calls on the second. -/
theorem run_after_copy [Inhabited α] {T : Nat} (hT : 1 ≤ T) (cs : List (Side × Call α))
    (w1 : World α) (c : State α) (hw : World.Good T w1)
    (h1 : view w1.heap w1.first = c) (h2 : ObsEq (view w1.heap w1.second) c) :
    view (World.run T cs w1).heap (World.run T cs w1).first
      = runCalls T (callsOn .first cs) c ∧
    ObsEq (view (World.run T cs w1).heap (World.run T cs w1).second)
      (runCalls T (callsOn .second cs) c) := by
  obtain ⟨-, r⟩ := run_independent hT cs w1 hw
  have r1 := r .first
  have r2 := r .second
  simp only [World.get] at r1 r2
  rw [r1, r2, h1]
  refine ⟨rfl, ?_⟩
  have hc : Inv T c := by rw [← h1]; exact hw.1.1
  exact (runCalls_ObsEq hT (callsOn .second cs) hw.2.1.1 hc h2).2.2

/-- What the copy assignment leaves when the allocation for a heap-mode
source is refused: heap mode without a heap array. -/
theorem copy_assign_refused [Inhabited α] {T : Nat} (mem : Nat → Bool) (H : Heap α)
    (D A : Object α) (hD : WF T H D) (hm : A.usingHeap = true) (hmem : mem A.cap = false) :
    (copy_assign mem H D A).1 = .error .bad_alloc ∧
    (copy_assign mem H D A).2.2.usingHeap = true ∧
    (copy_assign mem H D A).2.2.heapArray = none ∧
    ¬ Inv T (view (copy_assign mem H D A).2.1 (copy_assign mem H D A).2.2) := by
  have hnone : (if (D.usingHeap && D.heapArray.isSome) = true
      then ({ D with heapArray := none } : Object α) else D).heapArray = none := by
    cases hu : D.usingHeap with
    | false => simp [(hD.in_stack hu).1]
    | true =>
      obtain ⟨d, -, h1, -⟩ := hD.in_heap hu
      simp [h1]
  have e : copy_assign mem H D A = (.error .bad_alloc,
      (if (D.usingHeap && D.heapArray.isSome) = true then delete H D.heapArray else H),
      { (if (D.usingHeap && D.heapArray.isSome) = true
          then ({ D with heapArray := none } : Object α) else D) with
        sz := A.sz, cap := A.cap, usingHeap := A.usingHeap }) := by
    simp only [copy_assign]
    simp [hm, new_, hmem]
  rw [e]
  refine ⟨rfl, hm, hnone, ?_⟩
  intro hinv
  obtain ⟨-, -, -, buf, hb, -⟩ := hinv.heap (by simpa [view] using hm)
  simp only [view] at hb
  rw [hnone] at hb
  simp [read] at hb

/-- C12: for every well-formed source object, with allocation succeeding, copy
construction gives a new object with the mode, `size()`, `capacity()` and
element sequence of the source, and copy assignment does so for every
well-formed destination; the source is as it was; afterwards every
interleaving of `push_back` and `pop_back` calls on the two objects leaves the
source as if only its own calls had run and the copy as the source would be
under the calls on the copy; and self-assignment changes nothing. -/
theorem C12_copy [Inhabited α] (T : Nat) (hT : 1 ≤ T) (w : World α)
    (hw : World.Good T w) (cs : List (Side × Call α)) :
    (∃ B H1, copy_construct always T w.heap w.first = (.ok B, H1) ∧
      ObsEq (view H1 B) (view w.heap w.first) ∧
      view H1 w.first = view w.heap w.first ∧
      view (World.run T cs (World.mk H1 w.first B)).heap
          (World.run T cs (World.mk H1 w.first B)).first
        = runCalls T (callsOn .first cs) (view w.heap w.first) ∧
      ObsEq (view (World.run T cs (World.mk H1 w.first B)).heap
          (World.run T cs (World.mk H1 w.first B)).second)
        (runCalls T (callsOn .second cs) (view w.heap w.first))) ∧
    (∃ w1, World.copy_assign always w .second .first = (.ok (), w1) ∧
      w1.first = w.first ∧ view w1.heap w1.first = view w.heap w.first ∧
      ObsEq (view w1.heap w1.second) (view w.heap w.first) ∧
      view (World.run T cs w1).heap (World.run T cs w1).first
        = runCalls T (callsOn .first cs) (view w.heap w.first) ∧
      ObsEq (view (World.run T cs w1).heap (World.run T cs w1).second)
        (runCalls T (callsOn .second cs) (view w.heap w.first))) ∧
    World.copy_assign always w .first .first = (.ok (), w) ∧
    World.copy_assign always w .second .second = (.ok (), w) := by
  obtain ⟨hA, hD, hs⟩ := hw
  refine ⟨?_, ?_, by simp [World.copy_assign], by simp [World.copy_assign]⟩
  · obtain ⟨B, H1, e1, e2, e3, e4⟩ := copy_construct_spec w.heap w.first hA
    obtain ⟨r1, r2⟩ := run_after_copy hT cs (World.mk H1 w.first B) (view w.heap w.first)
      e2 e3 e4
    exact ⟨B, H1, e1, e4, e3, r1, r2⟩
  · obtain ⟨H1, D1, e1, e2, e3, e4, e5, e6⟩ :=
      copy_assign_spec w.heap w.second w.first hD hA hs.symm
    have hw1 : World.Good T { w with heap := H1, second := D1 } := ⟨e3, e2, e4.symm⟩
    obtain ⟨r1, r2⟩ := run_after_copy hT cs { w with heap := H1, second := D1 }
      (view w.heap w.first) hw1 e5 e6
    refine ⟨{ w with heap := H1, second := D1 }, ?_, rfl, e5, e6, r1, r2⟩
    simp [World.copy_assign, World.get, World.put, e1]

/-- The instance of C12 on the example world: assigning the first object
(1, 2, 3) to the second (7, 8, 9), then two calls on each. -/
theorem C12_copy_witness :
    1 ≤ 2 ∧ World.Good 2 demoWorld ∧
    (∃ w1, World.copy_assign always demoWorld .second .first = (.ok (), w1) ∧
      w1.first = demoWorld.first ∧
      view w1.heap w1.first = view demoWorld.heap demoWorld.first ∧
      ObsEq (view w1.heap w1.second) (view demoWorld.heap demoWorld.first) ∧
      view (World.run 2 [(.second, .push_back 4), (.first, .pop_back), (.second, .pop_back),
          (.first, .push_back 5)] w1).heap
          (World.run 2 [(.second, .push_back 4), (.first, .pop_back), (.second, .pop_back),
          (.first, .push_back 5)] w1).first
        = runCalls 2 (callsOn .first [(.second, .push_back 4), (.first, .pop_back),
            (.second, .pop_back), (.first, .push_back 5)])
            (view demoWorld.heap demoWorld.first) ∧
      ObsEq (view (World.run 2 [(.second, .push_back 4), (.first, .pop_back),
          (.second, .pop_back), (.first, .push_back 5)] w1).heap
          (World.run 2 [(.second, .push_back 4), (.first, .pop_back), (.second, .pop_back),
          (.first, .push_back 5)] w1).second)
        (runCalls 2 (callsOn .second [(.second, .push_back 4), (.first, .pop_back),
            (.second, .pop_back), (.first, .push_back 5)])
            (view demoWorld.heap demoWorld.first))) ∧
    World.copy_assign always demoWorld .first .first = (.ok (), demoWorld) :=
  have h := C12_copy 2 (by decide) demoWorld (by decide)
    [(.second, .push_back 4), (.first, .pop_back), (.second, .pop_back), (.first, .push_back 5)]
  ⟨by decide, by decide, h.2.1, h.2.2.1⟩

/-- C13: for every well-formed source object, move construction gives a
well-formed new object with the mode, `size()`, `capacity()` and element
sequence the source had, and move assignment does so for every distinct
well-formed destination; the source is left with `size() = 0`,
`capacity() = T`, stack mode and a null pointer, satisfies the invariants, and
every sequence of calls then runs on it as on a freshly constructed container. -/
theorem C13_move [Inhabited α] (T : Nat) (hT : 1 ≤ T) (w : World α)
    (hw : World.Good T w) (ops : List (Op α)) :
    (WF T w.heap (move_construct T w.first).1 ∧
      ObsEq (view w.heap (move_construct T w.first).1) (view w.heap w.first) ∧
      size (view w.heap (move_construct T w.first).2) = 0 ∧
      capacity (view w.heap (move_construct T w.first).2) = T ∧
      isStackMode (view w.heap (move_construct T w.first).2) = true ∧
      (move_construct T w.first).2.heapArray = none ∧
      WF T w.heap (move_construct T w.first).2 ∧
      Sep (move_construct T w.first).1 (move_construct T w.first).2 ∧
      ∃ d1 d2, run T ops (view w.heap (move_construct T w.first).2) = some d1 ∧
        run T ops (AdaptiveContainer.init T) = some d2 ∧ ObsEq d1 d2) ∧
    (World.Good T (World.move_assign T w .second .first) ∧
      ObsEq (view (World.move_assign T w .second .first).heap
          (World.move_assign T w .second .first).second) (view w.heap w.first) ∧
      size (view (World.move_assign T w .second .first).heap
          (World.move_assign T w .second .first).first) = 0 ∧
      capacity (view (World.move_assign T w .second .first).heap
          (World.move_assign T w .second .first).first) = T ∧
      isStackMode (view (World.move_assign T w .second .first).heap
          (World.move_assign T w .second .first).first) = true ∧
      (World.move_assign T w .second .first).first.heapArray = none ∧
      ∃ d1 d2, run T ops (view (World.move_assign T w .second .first).heap
          (World.move_assign T w .second .first).first) = some d1 ∧
        run T ops (AdaptiveContainer.init T) = some d2 ∧ ObsEq d1 d2) := by
  obtain ⟨hA, hD, hs⟩ := hw
  constructor
  · obtain ⟨a1, a2, -, a4, a5, a6, a7, a8, a9⟩ := move_construct_spec w.heap w.first hA
    obtain ⟨b1, b2⟩ := reset_spec w.heap (move_construct T w.first).2 a4 a5 a6 a7 a8
    obtain ⟨d1, d2, e1, e2, -, -, o⟩ := run_ObsEq hT ops b1.1 (init_Inv T) b2
    exact ⟨a1, a2, a4, a5, by simp [isStackMode, view, a6], a7, b1, a9, d1, d2, e1, e2, o⟩
  · obtain ⟨a1, a2, -, a4, a5, a6, a7, a8, a9⟩ :=
      move_assign_spec w.heap w.second w.first hD hA hs.symm
    have e : World.move_assign T w .second .first =
        { heap := (move_assign T w.heap w.second w.first).1,
          first := (move_assign T w.heap w.second w.first).2.2,
          second := (move_assign T w.heap w.second w.first).2.1 } := by
      simp [World.move_assign, World.get, World.put]
    rw [e]
    obtain ⟨b1, b2⟩ := reset_spec (move_assign T w.heap w.second w.first).1
      (move_assign T w.heap w.second w.first).2.2 a4 a5 a6 a7 a8
    obtain ⟨d1, d2, e1, e2, -, -, o⟩ := run_ObsEq hT ops b1.1 (init_Inv T) b2
    exact ⟨⟨b1, a1, a9.symm⟩, a2, a4, a5, by simp [isStackMode, view, a6], a7,
      d1, d2, e1, e2, o⟩

/-- The instance of C13 on the example world: moving the first object
(1, 2, 3) into the second (7, 8, 9). -/
theorem C13_move_witness :
    1 ≤ 2 ∧ World.Good 2 demoWorld ∧
    World.Good 2 (World.move_assign 2 demoWorld .second .first) ∧
    ObsEq (view (World.move_assign 2 demoWorld .second .first).heap
        (World.move_assign 2 demoWorld .second .first).second)
      (view demoWorld.heap demoWorld.first) ∧
    size (view (World.move_assign 2 demoWorld .second .first).heap
        (World.move_assign 2 demoWorld .second .first).first) = 0 ∧
    capacity (view (World.move_assign 2 demoWorld .second .first).heap
        (World.move_assign 2 demoWorld .second .first).first) = 2 :=
  have h := C13_move 2 (by decide) demoWorld (by decide) [.push_back 4, .reserve 9, .pop_back]
  ⟨by decide, by decide, h.2.1, h.2.2.1, h.2.2.2.1, h.2.2.2.2.1⟩

/-- C19 fails on the code: in the example world, assigning the first object
(1, 2, 3, heap mode, capacity 4) to the second (7, 8, 9) with an allocator
that refuses the request throws `bad_alloc` and leaves the destination in heap
mode with count 3, capacity 4 and a null pointer, its old array deleted, so
the invariants of the data model do not hold for it. -/
theorem C19_copy_assign_breaks_invariant :
    World.Good 2 demoWorld ∧
    (World.copy_assign (fun _ => false) demoWorld .second .first).1 = .error .bad_alloc ∧
    (World.copy_assign (fun _ => false) demoWorld .second .first).2.second
      = { sz := 3, cap := 4, usingHeap := true, stackArray := [7, 8], heapArray := none } ∧
    (World.copy_assign (fun _ => false) demoWorld .second .first).2.heap
      = [some [1, 2, 3, 0], none] ∧
    isStackMode (view (World.copy_assign (fun _ => false) demoWorld .second .first).2.heap
      (World.copy_assign (fun _ => false) demoWorld .second .first).2.second) = false ∧
    (view (World.copy_assign (fun _ => false) demoWorld .second .first).2.heap
      (World.copy_assign (fun _ => false) demoWorld .second .first).2.second).heapArray = none ∧
    ¬ Inv 2 (view (World.copy_assign (fun _ => false) demoWorld .second .first).2.heap
      (World.copy_assign (fun _ => false) demoWorld .second .first).2.second) :=
  ⟨by decide, rfl, rfl, rfl, rfl, rfl, by decide⟩

end Mem

end AdaptiveContainer

/-! # HashTree: lemmas and claims -/

namespace HashTree

variable {K V : Type}

/-! ## The children map -/

theorem mapFind_mapSet_same {N : Type} [DecidableEq K] (m : List (K × N)) (k : K) (n : N) :
    mapFind (mapSet m k n) k = some n := by
  induction m with
  | nil => simp [mapSet, mapFind]
  | cons e m ih =>
    obtain ⟨k1, n1⟩ := e
    by_cases h : k1 = k
    · simp [mapSet, mapFind, h]
    · simp [mapSet, mapFind, h, ih]

theorem mapFind_mapSet_ne {N : Type} [DecidableEq K] (m : List (K × N)) (k k1 : K) (n : N)
    (h : k1 ≠ k) : mapFind (mapSet m k n) k1 = mapFind m k1 := by
  induction m with
  | nil => simp [mapSet, mapFind, h.symm]
  | cons e m ih =>
    obtain ⟨k2, n2⟩ := e
    by_cases h2 : k2 = k
    · subst h2
      simp [mapSet, mapFind, h.symm]
    · by_cases h3 : k2 = k1
      · subst h3
        simp [mapSet, mapFind, h2]
      · simp [mapSet, mapFind, h2, h3, ih]

theorem mapFind_mapErase_same {N : Type} [DecidableEq K] (m : List (K × N)) (k : K) :
    mapFind (mapErase m k) k = none := by
  induction m with
  | nil => simp [mapErase, mapFind]
  | cons e m ih =>
    obtain ⟨k1, n1⟩ := e
    by_cases h : k1 = k
    · simp [mapErase, h, ih]
    · simp [mapErase, mapFind, h, ih]

theorem mapFind_mapErase_ne {N : Type} [DecidableEq K] (m : List (K × N)) (k k1 : K)
    (h : k1 ≠ k) : mapFind (mapErase m k) k1 = mapFind m k1 := by
  induction m with
  | nil => simp [mapErase, mapFind]
  | cons e m ih =>
    obtain ⟨k2, n2⟩ := e
    by_cases h2 : k2 = k
    · subst h2
      simp [mapErase, mapFind, h.symm, ih]
    · by_cases h3 : k2 = k1
      · subst h3
        simp [mapErase, mapFind, h2]
      · simp [mapErase, mapFind, h2, h3, ih]

@[simp] theorem children_withChildren (n : Node K V) (c : List (K × Node K V)) :
    (n.withChildren c).children = c := rfl

@[simp] theorem children_fresh : (Node.fresh : Node K V).children = [] := rfl

/-- The children map after the `if (!count(k)) children[k] = make_unique<Node>()`
of `insert`, looked up at `k`. -/
theorem mapFind_ensure {N : Type} [DecidableEq K] (m : List (K × N)) (k : K) (d : N) :
    mapFind (if (mapFind m k).isNone then mapSet m k d else m) k
      = some ((mapFind m k).getD d) := by
  cases h : mapFind m k with
  | none => simp [mapFind_mapSet_same]
  | some n => simp [h]

theorem mapFind_ensure_ne {N : Type} [DecidableEq K] (m : List (K × N)) (k k1 : K) (d : N)
    (hne : k1 ≠ k) :
    mapFind (if (mapFind m k).isNone then mapSet m k d else m) k1 = mapFind m k1 := by
  split
  · exact mapFind_mapSet_ne m k k1 d hne
  · rfl

/-! ## `search` after `insert` and `remove` -/

theorem searchLoop_no_children [DecidableEq K] (hasher : K → Nat) (cast : Nat → K) (key : K)
    (level steps : Nat) (node : Node K V) (h : node.children = []) :
    searchLoop hasher cast key level steps node = none := by
  cases steps <;> simp [searchLoop, h, mapFind]

theorem searchLoop_insertLoop_same [DecidableEq K] (hasher : K → Nat) (cast : Nat → K)
    (key : K) (val : V) (level steps : Nat) (node : Node K V) :
    searchLoop hasher cast key level steps (insertLoop hasher cast key val level steps node)
      = some val := by
  induction steps generalizing level node with
  | zero => simp [searchLoop, insertLoop, mapFind_mapSet_same, Node.isLeaf, Node.value]
  | succ n ih => simp [searchLoop, insertLoop, mapFind_mapSet_same, ih]

theorem searchLoop_insertLoop_ne [DecidableEq K] (hasher : K → Nat) (cast : Nat → K)
    (key k1 : K) (val : V) (hne : k1 ≠ key) (level steps : Nat) (node : Node K V) :
    searchLoop hasher cast k1 level steps (insertLoop hasher cast key val level steps node)
      = searchLoop hasher cast k1 level steps node := by
  induction steps generalizing level node with
  | zero =>
    simp only [searchLoop, insertLoop, children_withChildren]
    rw [mapFind_mapSet_ne _ _ _ _ hne, mapFind_ensure_ne _ _ _ _ hne]
  | succ n ih =>
    simp only [searchLoop, insertLoop, children_withChildren]
    by_cases hc : getChildKey hasher cast k1 level = getChildKey hasher cast key level
    · rw [hc, mapFind_mapSet_same, mapFind_ensure]
      simp only [Option.getD_some]
      rw [ih]
      cases hf : mapFind node.children (getChildKey hasher cast key level) with
      | none => simp [searchLoop_no_children]
      | some c => simp
    · rw [mapFind_mapSet_ne _ _ _ _ hc, mapFind_ensure_ne _ _ _ _ hc]

theorem searchLoop_removeLoop_same [DecidableEq K] (hasher : K → Nat) (cast : Nat → K)
    (key : K) (level steps : Nat) (node node1 : Node K V) (b : Bool)
    (h : removeLoop hasher cast key level steps node = some (node1, b)) :
    searchLoop hasher cast key level steps node1 = none := by
  induction steps generalizing level node node1 b with
  | zero =>
    simp only [removeLoop] at h
    cases hf : mapFind node.children key with
    | none => rw [hf] at h; cases h
    | some c =>
      rw [hf] at h
      simp only at h
      split at h
      · cases h
      · cases h
        simp [searchLoop, mapFind_mapErase_same]
  | succ n ih =>
    simp only [removeLoop] at h
    cases hf : mapFind node.children (getChildKey hasher cast key level) with
    | none => rw [hf] at h; cases h
    | some c =>
      rw [hf] at h
      simp only at h
      cases hr : removeLoop hasher cast key (level + 1) n c with
      | none => rw [hr] at h; cases h
      | some r =>
        obtain ⟨c1, cl⟩ := r
        rw [hr] at h
        simp only at h
        have hi := ih (level + 1) c c1 cl hr
        split at h
        · cases h
          simp [searchLoop, mapFind_mapErase_same]
        · cases h
          simp [searchLoop, mapFind_mapSet_same, hi]

theorem searchLoop_removeLoop_ne [DecidableEq K] (hasher : K → Nat) (cast : Nat → K)
    (key k1 : K) (hne : k1 ≠ key) (level steps : Nat) (node node1 : Node K V) (b : Bool)
    (h : removeLoop hasher cast key level steps node = some (node1, b)) :
    searchLoop hasher cast k1 level steps node1 = searchLoop hasher cast k1 level steps node := by
  induction steps generalizing level node node1 b with
  | zero =>
    simp only [removeLoop] at h
    cases hf : mapFind node.children key with
    | none => rw [hf] at h; cases h
    | some c =>
      rw [hf] at h
      simp only at h
      split at h
      · cases h
      · cases h
        simp [searchLoop, mapFind_mapErase_ne _ _ _ hne]
  | succ n ih =>
    simp only [removeLoop] at h
    cases hf : mapFind node.children (getChildKey hasher cast key level) with
    | none => rw [hf] at h; cases h
    | some c =>
      rw [hf] at h
      simp only at h
      cases hr : removeLoop hasher cast key (level + 1) n c with
      | none => rw [hr] at h; cases h
      | some r =>
        obtain ⟨c1, cl⟩ := r
        rw [hr] at h
        simp only at h
        have hi := ih (level + 1) c c1 cl hr
        by_cases hc : getChildKey hasher cast k1 level = getChildKey hasher cast key level
        · split at h
          · rename_i hcl
            cases h
            simp only [searchLoop, children_withChildren]
            rw [hc, mapFind_mapErase_same, hf]
            simp only
            rw [← hi]
            have he : c1.children = [] := by
              simp only [Bool.and_eq_true, List.isEmpty_iff] at hcl
              exact hcl.2
            exact (searchLoop_no_children hasher cast k1 (level + 1) n c1 he).symm
          · cases h
            simp only [searchLoop, children_withChildren]
            rw [hc, mapFind_mapSet_same, hf]
            simp only
            exact hi
        · split at h
          · cases h
            simp only [searchLoop, children_withChildren]
            rw [mapFind_mapErase_ne _ _ _ hc]
          · cases h
            simp only [searchLoop, children_withChildren]
            rw [mapFind_mapSet_ne _ _ _ _ hc]

theorem searchLoop_of_removeLoop_none [DecidableEq K] (hasher : K → Nat) (cast : Nat → K)
    (key : K) (level steps : Nat) (node : Node K V)
    (h : removeLoop hasher cast key level steps node = none) :
    searchLoop hasher cast key level steps node = none := by
  induction steps generalizing level node with
  | zero =>
    simp only [removeLoop] at h
    simp only [searchLoop]
    cases hf : mapFind node.children key with
    | none => rfl
    | some c =>
      rw [hf] at h
      simp only at h
      split at h
      · rename_i hl
        simp only [Bool.not_eq_true', ] at hl
        simp [hl]
      · cases h
  | succ n ih =>
    simp only [removeLoop] at h
    simp only [searchLoop]
    cases hf : mapFind node.children (getChildKey hasher cast key level) with
    | none => rfl
    | some c =>
      rw [hf] at h
      simp only at h
      cases hr : removeLoop hasher cast key (level + 1) n c with
      | none => exact ih (level + 1) c hr
      | some r =>
        obtain ⟨c1, cl⟩ := r
        rw [hr] at h
        simp only at h
        split at h <;> cases h


/-! ## Maps with distinct keys -/

theorem mem_of_mapFind {N : Type} [DecidableEq K] (m : List (K × N)) (k : K) (n : N)
    (h : mapFind m k = some n) : (k, n) ∈ m := by
  induction m with
  | nil => simp [mapFind] at h
  | cons e m ih =>
    obtain ⟨k1, n1⟩ := e
    by_cases hk : k1 = k
    · subst hk
      simp only [mapFind, if_true, Option.some.injEq] at h
      subst h
      exact List.mem_cons_self _ _
    · simp only [mapFind, if_neg hk] at h
      exact List.mem_cons_of_mem _ (ih h)

theorem mapFind_of_mem {N : Type} [DecidableEq K] (m : List (K × N)) (k : K) (n : N)
    (hnd : (m.map Prod.fst).Nodup) (h : (k, n) ∈ m) : mapFind m k = some n := by
  induction m with
  | nil => simp at h
  | cons e m ih =>
    obtain ⟨k1, n1⟩ := e
    simp only [List.map_cons, List.nodup_cons] at hnd
    rcases List.mem_cons.mp h with h1 | h1
    · cases h1
      simp [mapFind]
    · have hne : k1 ≠ k := by
        intro he
        subst he
        exact hnd.1 (List.mem_map_of_mem Prod.fst h1)
      simp only [mapFind, if_neg hne]
      exact ih hnd.2 h1

theorem key_mem_mapSet {N : Type} [DecidableEq K] (m : List (K × N)) (k x : K) (n : N)
    (h : x ∈ (mapSet m k n).map Prod.fst) : x = k ∨ x ∈ m.map Prod.fst := by
  induction m with
  | nil =>
    simp only [mapSet, List.map_cons, List.map_nil, List.mem_singleton] at h
    exact Or.inl h
  | cons e1 m ih =>
    obtain ⟨k1, n1⟩ := e1
    by_cases hk : k1 = k
    · subst hk
      simp only [mapSet, if_true] at h
      exact Or.inr h
    · simp only [mapSet, if_neg hk, List.map_cons, List.mem_cons] at h
      rcases h with h1 | h1
      · exact Or.inr (by simp [h1])
      · rcases ih h1 with h2 | h2
        · exact Or.inl h2
        · exact Or.inr (by simp [h2])

theorem nodup_mapSet {N : Type} [DecidableEq K] (m : List (K × N)) (k : K) (n : N)
    (hnd : (m.map Prod.fst).Nodup) : ((mapSet m k n).map Prod.fst).Nodup := by
  induction m with
  | nil => simp [mapSet]
  | cons e1 m ih =>
    obtain ⟨k1, n1⟩ := e1
    simp only [List.map_cons, List.nodup_cons] at hnd
    by_cases hk : k1 = k
    · subst hk
      simp only [mapSet, if_true, List.map_cons, List.nodup_cons]
      exact hnd
    · simp only [mapSet, if_neg hk, List.map_cons, List.nodup_cons]
      refine ⟨?_, ih hnd.2⟩
      intro hx
      rcases key_mem_mapSet m k k1 n hx with h1 | h1
      · exact hk h1
      · exact hnd.1 h1

theorem mem_mapSet {N : Type} [DecidableEq K] (m : List (K × N)) (k : K) (n : N)
    (hnd : (m.map Prod.fst).Nodup) (e : K × N) (h : e ∈ mapSet m k n) :
    e = (k, n) ∨ (e ∈ m ∧ e.1 ≠ k) := by
  induction m with
  | nil =>
    simp only [mapSet, List.mem_singleton] at h
    exact Or.inl h
  | cons e1 m ih =>
    obtain ⟨k1, n1⟩ := e1
    simp only [List.map_cons, List.nodup_cons] at hnd
    by_cases hk : k1 = k
    · subst hk
      simp only [mapSet, if_true] at h
      rcases List.mem_cons.mp h with h1 | h1
      · exact Or.inl h1
      · refine Or.inr ⟨List.mem_cons_of_mem _ h1, ?_⟩
        intro he
        exact hnd.1 (he ▸ List.mem_map_of_mem Prod.fst h1)
    · simp only [mapSet, if_neg hk] at h
      rcases List.mem_cons.mp h with h1 | h1
      · subst h1
        exact Or.inr ⟨List.mem_cons_self _ _, hk⟩
      · rcases ih hnd.2 h1 with h2 | h2
        · exact Or.inl h2
        · exact Or.inr ⟨List.mem_cons_of_mem _ h2.1, h2.2⟩

theorem mem_mapErase {N : Type} [DecidableEq K] (m : List (K × N)) (k : K)
    (e : K × N) (h : e ∈ mapErase m k) : e ∈ m ∧ e.1 ≠ k := by
  induction m with
  | nil => simp [mapErase] at h
  | cons e1 m ih =>
    obtain ⟨k1, n1⟩ := e1
    by_cases hk : k1 = k
    · simp only [mapErase, if_pos hk] at h
      exact ⟨List.mem_cons_of_mem _ (ih h).1, (ih h).2⟩
    · simp only [mapErase, if_neg hk] at h
      rcases List.mem_cons.mp h with h1 | h1
      · subst h1
        exact ⟨List.mem_cons_self _ _, hk⟩
      · exact ⟨List.mem_cons_of_mem _ (ih h1).1, (ih h1).2⟩

theorem nodup_mapErase {N : Type} [DecidableEq K] (m : List (K × N)) (k : K)
    (hnd : (m.map Prod.fst).Nodup) : ((mapErase m k).map Prod.fst).Nodup := by
  induction m with
  | nil => simp [mapErase]
  | cons e1 m ih =>
    obtain ⟨k1, n1⟩ := e1
    simp only [List.map_cons, List.nodup_cons] at hnd
    by_cases hk : k1 = k
    · simp only [mapErase, if_pos hk]
      exact ih hnd.2
    · simp only [mapErase, if_neg hk, List.map_cons, List.nodup_cons]
      refine ⟨?_, ih hnd.2⟩
      intro hx
      obtain ⟨e, he, hfst⟩ := List.mem_map.mp hx
      have := (mem_mapErase m k e he).1
      exact hnd.1 (hfst ▸ List.mem_map_of_mem Prod.fst this)

/-! ## The entries below a node -/

theorem mem_entriesBelow_zero (node : Node K V) (k : K) (v : V) :
    (k, v) ∈ entriesBelow 0 node ↔
      ∃ c, (k, c) ∈ node.children ∧ c.isLeaf = true ∧ c.value = some v := by
  simp only [entriesBelow, List.mem_filterMap]
  constructor
  · rintro ⟨e, he, hf⟩
    obtain ⟨k1, c⟩ := e
    by_cases hl : c.isLeaf = true
    · simp only [hl, if_true, Option.map_eq_some'] at hf
      obtain ⟨v1, hv, hkv⟩ := hf
      cases hkv
      exact ⟨c, he, hl, hv⟩
    · simp [hl] at hf
  · rintro ⟨c, hc, hl, hv⟩
    exact ⟨(k, c), hc, by simp [hl, hv]⟩

theorem mem_entriesBelow_succ (steps : Nat) (node : Node K V) (kv : K × V) :
    kv ∈ entriesBelow (steps + 1) node ↔
      ∃ e, e ∈ node.children ∧ kv ∈ entriesBelow steps e.2 := by
  simp [entriesBelow, List.mem_flatMap]

/-- Below a well-shaped node the entries are exactly what `search` finds. -/
theorem mem_entriesBelow_iff [DecidableEq K] (hasher : K → Nat) (cast : Nat → K)
    (level steps : Nat) (node : Node K V) (hw : WFNode hasher cast level steps node)
    (k : K) (v : V) :
    (k, v) ∈ entriesBelow steps node ↔ searchLoop hasher cast k level steps node = some v := by
  induction steps generalizing level node with
  | zero =>
    obtain ⟨hnd, hl⟩ := hw
    rw [mem_entriesBelow_zero]
    simp only [searchLoop]
    constructor
    · rintro ⟨c, hc, hlf, hv⟩
      rw [mapFind_of_mem _ _ _ hnd hc]
      simp [hlf, hv]
    · intro h
      cases hf : mapFind node.children k with
      | none => rw [hf] at h; cases h
      | some c =>
        rw [hf] at h
        simp only at h
        have hm := mem_of_mapFind _ _ _ hf
        have hlf := (hl _ hm).1
        simp only at hlf
        rw [hlf] at h
        exact ⟨c, hm, hlf, by simpa using h⟩
  | succ n ih =>
    obtain ⟨hnd, hc⟩ := hw
    rw [mem_entriesBelow_succ]
    simp only [searchLoop]
    constructor
    · rintro ⟨e, he, hkv⟩
      obtain ⟨hw1, hp⟩ := hc e he
      have hk := hp (k, v) hkv
      simp only at hk
      rw [hk, mapFind_of_mem _ _ _ hnd (show (e.1, e.2) ∈ node.children from he)]
      exact (ih (level + 1) e.2 hw1).mp hkv
    · intro h
      cases hf : mapFind node.children (getChildKey hasher cast k level) with
      | none => rw [hf] at h; cases h
      | some c =>
        rw [hf] at h
        simp only at h
        have hm := mem_of_mapFind _ _ _ hf
        exact ⟨_, hm, (ih (level + 1) c (hc _ hm).1).mpr h⟩


theorem WFNode_fresh [DecidableEq K] (hasher : K → Nat) (cast : Nat → K) (level steps : Nat) :
    WFNode hasher cast level steps (Node.fresh : Node K V) := by
  cases steps <;> simp [WFNode]

theorem entriesBelow_no_children (steps : Nat) (node : Node K V) (h : node.children = []) :
    entriesBelow steps node = [] := by
  cases steps <;> simp [entriesBelow, h]

/-- The keys of the entries below a well-shaped node are distinct. -/
theorem nodup_keys_entriesBelow [DecidableEq K] (hasher : K → Nat) (cast : Nat → K)
    (level steps : Nat) (node : Node K V) (hw : WFNode hasher cast level steps node) :
    ((entriesBelow steps node).map Prod.fst).Nodup := by
  induction steps generalizing level node with
  | zero =>
    obtain ⟨hnd, -⟩ := hw
    simp only [entriesBelow]
    generalize node.children = l at hnd
    induction l with
    | nil => simp
    | cons e l ih =>
      simp only [List.map_cons, List.nodup_cons] at hnd
      simp only [List.filterMap_cons]
      have hrest := ih hnd.2
      have hsub : ∀ x, x ∈ (List.filterMap (fun e : K × Node K V =>
          if e.2.isLeaf = true then Option.map (fun v => (e.1, v)) e.2.value else none) l).map
            Prod.fst → x ∈ l.map Prod.fst := by
        intro x hx
        obtain ⟨kv, hkv, hfst⟩ := List.mem_map.mp hx
        obtain ⟨e1, he1, hf⟩ := List.mem_filterMap.mp hkv
        by_cases hl : e1.2.isLeaf = true
        · simp only [hl, if_true, Option.map_eq_some'] at hf
          obtain ⟨v1, -, hkv1⟩ := hf
          rw [← hfst, ← hkv1]
          exact List.mem_map_of_mem Prod.fst he1
        · simp [hl] at hf
      split
      · exact hrest
      · rename_i x hx
        by_cases hl : e.2.isLeaf = true
        · simp only [hl, if_true, Option.map_eq_some'] at hx
          obtain ⟨v1, -, hkv1⟩ := hx
          simp only [List.map_cons, List.nodup_cons]
          refine ⟨?_, hrest⟩
          intro hmem
          rw [← hkv1] at hmem
          exact hnd.1 (hsub _ hmem)
        · simp [hl] at hx
  | succ n ih =>
    obtain ⟨hnd, hc⟩ := hw
    simp only [entriesBelow, List.map_flatMap]
    rw [List.nodup_flatMap]
    refine ⟨fun e he => ih (level + 1) e.2 (hc e he).1, ?_⟩
    have hpw : List.Pairwise (fun a b : K × Node K V => a.1 ≠ b.1) node.children :=
      (List.pairwise_map).mp hnd
    refine List.Pairwise.imp_of_mem ?_ hpw
    intro a b ha hb hab
    simp only [Function.onFun]
    intro x hxa hxb
    obtain ⟨kva, hkva, hfa⟩ := List.mem_map.mp hxa
    obtain ⟨kvb, hkvb, hfb⟩ := List.mem_map.mp hxb
    have h1 := (hc a ha).2 kva hkva
    have h2 := (hc b hb).2 kvb hkvb
    rw [hfa] at h1
    rw [hfb] at h2
    exact hab (h1.symm.trans h2)

/-- `insert` keeps the shape. -/
theorem WFNode_insertLoop [DecidableEq K] (hasher : K → Nat) (cast : Nat → K) (key : K)
    (val : V) (level steps : Nat) (node : Node K V) (hw : WFNode hasher cast level steps node) :
    WFNode hasher cast level steps (insertLoop hasher cast key val level steps node) := by
  induction steps generalizing level node with
  | zero =>
    obtain ⟨hnd, hl⟩ := hw
    have hnd1 : ((if (mapFind node.children key).isNone
        then mapSet node.children key Node.fresh else node.children).map Prod.fst).Nodup := by
      split
      · exact nodup_mapSet _ _ _ hnd
      · exact hnd
    simp only [WFNode, insertLoop, children_withChildren]
    refine ⟨nodup_mapSet _ _ _ hnd1, ?_⟩
    intro e he
    rcases mem_mapSet _ _ _ hnd1 e he with h1 | ⟨h1, h2⟩
    · subst h1
      simp [Node.isLeaf, Node.value]
    · split at h1
      · rcases mem_mapSet _ _ _ hnd e h1 with h3 | ⟨h3, -⟩
        · subst h3
          exact absurd rfl h2
        · exact hl e h3
      · exact hl e h1
  | succ n ih =>
    obtain ⟨hnd, hc⟩ := hw
    have hnd1 : ((if (mapFind node.children (getChildKey hasher cast key level)).isNone
        then mapSet node.children (getChildKey hasher cast key level) Node.fresh
        else node.children).map Prod.fst).Nodup := by
      split
      · exact nodup_mapSet _ _ _ hnd
      · exact hnd
    have hfind := mapFind_ensure node.children (getChildKey hasher cast key level)
      (Node.fresh : Node K V)
    -- the child the walk continues in, and what is known about it
    have hchild : WFNode hasher cast (level + 1) n
        ((mapFind node.children (getChildKey hasher cast key level)).getD Node.fresh) ∧
        ∀ kv ∈ entriesBelow n
          ((mapFind node.children (getChildKey hasher cast key level)).getD Node.fresh),
          getChildKey hasher cast kv.1 level = getChildKey hasher cast key level := by
      cases hf : mapFind node.children (getChildKey hasher cast key level) with
      | none =>
        simp only [Option.getD_none]
        refine ⟨WFNode_fresh hasher cast _ _, ?_⟩
        intro kv hkv
        rw [entriesBelow_no_children n (Node.fresh : Node K V) rfl] at hkv
        cases hkv
      | some c =>
        simp only [Option.getD_some]
        exact hc _ (mem_of_mapFind _ _ _ hf)
    simp only [WFNode, insertLoop, children_withChildren]
    rw [hfind]
    simp only [Option.getD_some]
    refine ⟨nodup_mapSet _ _ _ hnd1, ?_⟩
    intro e he
    rcases mem_mapSet _ _ _ hnd1 e he with h1 | ⟨h1, h2⟩
    · subst h1
      have hw1 := ih (level + 1) _ hchild.1
      refine ⟨hw1, ?_⟩
      intro kv hkv
      obtain ⟨k, v⟩ := kv
      simp only
      by_cases hk : k = key
      · rw [hk]
      · have h3 := (mem_entriesBelow_iff hasher cast (level + 1) n _ hw1 k v).mp hkv
        rw [searchLoop_insertLoop_ne hasher cast key k val hk] at h3
        exact hchild.2 (k, v)
          ((mem_entriesBelow_iff hasher cast (level + 1) n _ hchild.1 k v).mpr h3)
    · split at h1
      · rcases mem_mapSet _ _ _ hnd e h1 with h3 | ⟨h3, -⟩
        · subst h3
          exact absurd rfl h2
        · exact hc e h3
      · exact hc e h1

/-- `remove` keeps the shape. -/
theorem WFNode_removeLoop [DecidableEq K] (hasher : K → Nat) (cast : Nat → K) (key : K)
    (level steps : Nat) (node node1 : Node K V) (b : Bool)
    (hw : WFNode hasher cast level steps node)
    (h : removeLoop hasher cast key level steps node = some (node1, b)) :
    WFNode hasher cast level steps node1 := by
  induction steps generalizing level node node1 b with
  | zero =>
    obtain ⟨hnd, hl⟩ := hw
    simp only [removeLoop] at h
    cases hf : mapFind node.children key with
    | none => rw [hf] at h; cases h
    | some c =>
      rw [hf] at h
      simp only at h
      split at h
      · cases h
      · cases h
        simp only [WFNode, children_withChildren]
        exact ⟨nodup_mapErase _ _ hnd, fun e he => hl e (mem_mapErase _ _ e he).1⟩
  | succ n ih =>
    obtain ⟨hnd, hc⟩ := hw
    simp only [removeLoop] at h
    cases hf : mapFind node.children (getChildKey hasher cast key level) with
    | none => rw [hf] at h; cases h
    | some c =>
      rw [hf] at h
      simp only at h
      have hcm := mem_of_mapFind _ _ _ hf
      obtain ⟨hwc, hpc⟩ := hc _ hcm
      cases hr : removeLoop hasher cast key (level + 1) n c with
      | none => rw [hr] at h; cases h
      | some r =>
        obtain ⟨c1, cl⟩ := r
        rw [hr] at h
        simp only at h
        have hw1 := ih (level + 1) c c1 cl hwc hr
        split at h
        · cases h
          simp only [WFNode, children_withChildren]
          exact ⟨nodup_mapErase _ _ hnd, fun e he => hc e (mem_mapErase _ _ e he).1⟩
        · cases h
          simp only [WFNode, children_withChildren]
          refine ⟨nodup_mapSet _ _ _ hnd, ?_⟩
          intro e he
          rcases mem_mapSet _ _ _ hnd e he with h1 | ⟨h1, -⟩
          · subst h1
            refine ⟨hw1, ?_⟩
            intro kv hkv
            obtain ⟨k, v⟩ := kv
            simp only
            have h3 := (mem_entriesBelow_iff hasher cast (level + 1) n _ hw1 k v).mp hkv
            by_cases hk : k = key
            · rw [hk]
            · rw [searchLoop_removeLoop_ne hasher cast key k hk (level + 1) n c c1 cl hr] at h3
              exact hpc (k, v)
                ((mem_entriesBelow_iff hasher cast (level + 1) n _ hwc k v).mpr h3)
          · exact hc e h1

/-- In a well-shaped node `remove` finds what `search` finds. -/
theorem removeLoop_isSome [DecidableEq K] (hasher : K → Nat) (cast : Nat → K) (key : K)
    (level steps : Nat) (node : Node K V) (hw : WFNode hasher cast level steps node) :
    (removeLoop hasher cast key level steps node).isSome
      = (searchLoop hasher cast key level steps node).isSome := by
  induction steps generalizing level node with
  | zero =>
    obtain ⟨hnd, hl⟩ := hw
    simp only [removeLoop, searchLoop]
    cases hf : mapFind node.children key with
    | none => rfl
    | some c =>
      obtain ⟨h1, h2⟩ := hl _ (mem_of_mapFind _ _ _ hf)
      simp only at h1 h2
      simp [h1, h2]
  | succ n ih =>
    obtain ⟨hnd, hc⟩ := hw
    simp only [removeLoop, searchLoop]
    cases hf : mapFind node.children (getChildKey hasher cast key level) with
    | none => rfl
    | some c =>
      simp only
      have hi := ih (level + 1) c (hc _ (mem_of_mapFind _ _ _ hf)).1
      cases hr : removeLoop hasher cast key (level + 1) n c with
      | none =>
        rw [hr] at hi
        simp only
        exact hi
      | some r =>
        rw [hr] at hi
        simp only
        rw [← hi]
        split <;> rfl


/-! ## The range query -/

theorem leafLoop_eq [LE K] [DecidableRel (fun a b : K => a ≤ b)] (minKey maxKey : K)
    (l : List (K × Node K V)) (results : List (K × V))
    (hl : ∀ e ∈ l, e.2.isLeaf = true ∧ e.2.value.isSome = true) :
    leafLoop minKey maxKey l results = .ok (results ++
      (l.filterMap (fun e => if e.2.isLeaf then e.2.value.map (fun v => (e.1, v)) else none)).filter
        (fun kv => decide (minKey ≤ kv.1) && decide (kv.1 ≤ maxKey))) := by
  induction l generalizing results with
  | nil => simp [leafLoop]
  | cons e l ih =>
    obtain ⟨k, c⟩ := e
    obtain ⟨h1, h2⟩ := hl (k, c) (List.mem_cons_self _ _)
    simp only at h1 h2
    obtain ⟨v, hv⟩ := Option.isSome_iff_exists.mp h2
    have hrest := fun r => ih r (fun e he => hl e (List.mem_cons_of_mem _ he))
    simp only [leafLoop, h1, hv, Bool.true_and, List.filterMap_cons, if_true, Option.map_some']
    by_cases hr : (decide (minKey ≤ k) && decide (k ≤ maxKey)) = true
    · rw [if_pos hr, hrest, List.filter_cons_of_pos (by simpa using hr)]
      simp
    · rw [if_neg hr, hrest, List.filter_cons_of_neg (by simpa using hr)]

theorem rangeQueryHelper_eq [DecidableEq K] [LE K] [DecidableRel (fun a b : K => a ≤ b)]
    (hasher : K → Nat) (cast : Nat → K) (depth : Nat) (minKey maxKey : K)
    (steps level : Nat) (node : Node K V) (results : List (K × V))
    (hd : level + steps = depth - 1) (hw : WFNode hasher cast level steps node) :
    rangeQueryHelper depth minKey maxKey node level results = .ok (results ++
      (entriesBelow steps node).filter
        (fun kv => decide (minKey ≤ kv.1) && decide (kv.1 ≤ maxKey))) := by
  induction steps generalizing level node results with
  | zero =>
    obtain ⟨-, hl⟩ := hw
    cases node with
    | mk children value isLeaf =>
      have hlev : level = depth - 1 := by omega
      rw [rangeQueryHelper, if_pos hlev]
      exact leafLoop_eq minKey maxKey children results hl
  | succ n ih =>
    obtain ⟨-, hc⟩ := hw
    cases node with
    | mk children value isLeaf =>
      have hlev : level ≠ depth - 1 := by omega
      rw [rangeQueryHelper, if_neg hlev]
      simp only [Node.children] at hc
      simp only [entriesBelow, Node.children]
      clear hlev
      induction children generalizing results with
      | nil => simp [childrenLoop]
      | cons e l ihl =>
        obtain ⟨k, c⟩ := e
        rw [childrenLoop, ih (level + 1) c results (by omega)
          (hc (k, c) (List.mem_cons_self _ _)).1]
        simp only
        rw [ihl _ (fun e he => hc e (List.mem_cons_of_mem _ he))]
        simp [List.filter_append]

/-! ## Whole trees -/

theorem WFTree_construct [DecidableEq K] (hasher : K → Nat) (cast : Nat → K) (depth : Nat) :
    WFTree hasher cast (construct depth : HashTree K V) :=
  WFNode_fresh hasher cast 0 (depth - 1)

theorem WFTree_insert [DecidableEq K] (hasher : K → Nat) (cast : Nat → K) (t : HashTree K V)
    (k : K) (v : V) (hw : WFTree hasher cast t) : WFTree hasher cast (insert hasher cast t k v) :=
  WFNode_insertLoop hasher cast k v 0 (t.depth - 1) t.root hw

theorem WFTree_remove [DecidableEq K] (hasher : K → Nat) (cast : Nat → K) (t : HashTree K V)
    (k : K) (hw : WFTree hasher cast t) : WFTree hasher cast (remove hasher cast t k).2 := by
  simp only [remove]
  cases hr : removeLoop hasher cast k 0 (t.depth - 1) t.root with
  | none => exact hw
  | some r =>
    obtain ⟨root1, b⟩ := r
    exact WFNode_removeLoop hasher cast k 0 (t.depth - 1) t.root root1 b hw hr

theorem WFTree_runCmds [DecidableEq K] (hasher : K → Nat) (cast : Nat → K)
    (cmds : List (Cmd K V)) (t : HashTree K V) (hw : WFTree hasher cast t) :
    WFTree hasher cast (runCmds hasher cast cmds t) := by
  induction cmds generalizing t with
  | nil => exact hw
  | cons c cs ih =>
    cases c with
    | insert k v => exact ih _ (WFTree_insert hasher cast t k v hw)
    | remove k => exact ih _ (WFTree_remove hasher cast t k hw)

theorem search_insert [DecidableEq K] (hasher : K → Nat) (cast : Nat → K) (t : HashTree K V)
    (k x : K) (v : V) :
    search hasher cast (insert hasher cast t k v) x
      = if x = k then some v else search hasher cast t x := by
  by_cases h : x = k
  · subst h
    simp only [search, insert, if_true]
    exact searchLoop_insertLoop_same hasher cast x v 0 (t.depth - 1) t.root
  · simp only [search, insert, if_neg h]
    exact searchLoop_insertLoop_ne hasher cast k x v h 0 (t.depth - 1) t.root

theorem search_remove [DecidableEq K] (hasher : K → Nat) (cast : Nat → K) (t : HashTree K V)
    (k x : K) :
    search hasher cast (remove hasher cast t k).2 x
      = if x = k then none else search hasher cast t x := by
  simp only [search, remove]
  cases hr : removeLoop hasher cast k 0 (t.depth - 1) t.root with
  | none =>
    simp only
    by_cases h : x = k
    · subst h
      rw [if_pos rfl]
      exact searchLoop_of_removeLoop_none hasher cast x 0 (t.depth - 1) t.root hr
    · rw [if_neg h]
  | some r =>
    obtain ⟨root1, b⟩ := r
    simp only
    by_cases h : x = k
    · subst h
      rw [if_pos rfl]
      exact searchLoop_removeLoop_same hasher cast x 0 (t.depth - 1) t.root root1 b hr
    · rw [if_neg h]
      exact searchLoop_removeLoop_ne hasher cast k x h 0 (t.depth - 1) t.root root1 b hr

theorem remove_flag [DecidableEq K] (hasher : K → Nat) (cast : Nat → K) (t : HashTree K V)
    (k : K) (hw : WFTree hasher cast t) :
    (remove hasher cast t k).1 = (search hasher cast t k).isSome := by
  have h := removeLoop_isSome hasher cast k 0 (t.depth - 1) t.root hw
  simp only [remove, search]
  rw [← h]
  cases removeLoop hasher cast k 0 (t.depth - 1) t.root <;> rfl

/-- The tree refines the reference map: `search` after a sequence of calls is
the reference map after the same calls. -/
theorem search_runCmds [DecidableEq K] (hasher : K → Nat) (cast : Nat → K)
    (cmds : List (Cmd K V)) (t : HashTree K V) (m : K → Option V)
    (h : ∀ x, search hasher cast t x = m x) (x : K) :
    search hasher cast (runCmds hasher cast cmds t) x = refMap cmds m x := by
  induction cmds generalizing t m with
  | nil => exact h x
  | cons c cs ih =>
    cases c with
    | insert k v =>
      simp only [runCmds, refMap]
      apply ih
      intro y
      rw [search_insert, h y]
    | remove k =>
      simp only [runCmds, refMap]
      apply ih
      intro y
      rw [search_remove, h y]

theorem search_construct [DecidableEq K] (hasher : K → Nat) (cast : Nat → K) (depth : Nat)
    (x : K) : search hasher cast (construct depth : HashTree K V) x = none :=
  searchLoop_no_children hasher cast x 0 (depth - 1) Node.fresh rfl

theorem depth_runCmds [DecidableEq K] (hasher : K → Nat) (cast : Nat → K)
    (cmds : List (Cmd K V)) (t : HashTree K V) :
    (runCmds hasher cast cmds t).depth = t.depth := by
  induction cmds generalizing t with
  | nil => rfl
  | cons c cs ih =>
    cases c with
    | insert k v => rw [runCmds, ih]; rfl
    | remove k =>
      rw [runCmds, ih]
      simp only [remove]
      split <;> rfl


/-- C16: for every depth from 1 to 17, every hash function and every finite
sequence of `insert` and `remove` calls on a fresh tree, `search(k)` returns
what the reference finite map holds for `k` after the same calls; `remove(k)`
returns `true` exactly when the reference map holds `k`; and an `insert` or
`remove` of another key leaves `search(k)` as it was. The bounds on the depth
are those within which `depth - 1` and the shift of `hashAtLevel` are defined
in C++. -/
theorem C16_finite_map [DecidableEq K] (hasher : K → Nat) (cast : Nat → K) (depth : Nat)
    (_h1 : 1 ≤ depth) (_h17 : depth ≤ 17) (cmds : List (Cmd K V)) (k : K) :
    search hasher cast (runCmds hasher cast cmds (construct depth)) k
      = refMap cmds (fun _ => none) k ∧
    (remove hasher cast (runCmds hasher cast cmds (construct depth)) k).1
      = (refMap cmds (fun _ => none) k).isSome ∧
    ∀ k1, k1 ≠ k →
      (∀ v, search hasher cast
          (insert hasher cast (runCmds hasher cast cmds (construct depth)) k1 v) k
        = search hasher cast (runCmds hasher cast cmds (construct depth)) k) ∧
      search hasher cast (remove hasher cast (runCmds hasher cast cmds (construct depth)) k1).2 k
        = search hasher cast (runCmds hasher cast cmds (construct depth)) k := by
  have hs := search_runCmds hasher cast cmds (construct depth) (fun _ => none)
    (search_construct hasher cast depth)
  have hw := WFTree_runCmds hasher cast cmds (construct depth)
    (WFTree_construct hasher cast depth)
  refine ⟨hs k, ?_, ?_⟩
  · rw [remove_flag hasher cast _ k hw, hs k]
  · intro k1 hne
    refine ⟨fun v => ?_, ?_⟩
    · rw [search_insert, if_neg (Ne.symm hne)]
    · rw [search_remove, if_neg (Ne.symm hne)]

/-- The instance of C16 on the demo driver: after the six insertions at
depth 4, `search(42)` and `search(7)` return their values, `search(999)`
returns nothing, and after `remove(42)` so does `search(42)`. -/
theorem C16_finite_map_witness :
    1 ≤ 4 ∧ 4 ≤ 17 ∧
    search id id (runCmds id id demoCmds (construct 4)) 42 = some "Answer to everything" ∧
    search id id (runCmds id id demoCmds (construct 4)) 7 = some "Lucky number" ∧
    search id id (runCmds id id demoCmds (construct 4)) 999 = none ∧
    (remove id id (runCmds id id demoCmds (construct 4)) 42).1 = true ∧
    search id id (runCmds id id (demoCmds ++ [.remove 42]) (construct 4)) 42 = none :=
  ⟨by decide, by decide,
    (C16_finite_map id id 4 (by decide) (by decide) demoCmds 42).1.trans (by decide),
    (C16_finite_map id id 4 (by decide) (by decide) demoCmds 7).1.trans (by decide),
    (C16_finite_map id id 4 (by decide) (by decide) demoCmds 999).1.trans (by decide),
    (C16_finite_map id id 4 (by decide) (by decide) demoCmds 42).2.1.trans (by decide),
    (C16_finite_map id id 4 (by decide) (by decide) (demoCmds ++ [.remove 42]) 42).1.trans
      (by decide)⟩

/-- C17: for every depth from 1 to 17, every tree built by a finite sequence of
`insert` and `remove` calls and every `minKey` and `maxKey`,
`rangeQuery(minKey, maxKey)` returns normally a list that holds exactly the
pairs `(k, v)` with `minKey ≤ k ≤ maxKey` and `search(k) = v`, each key at most
once; it is empty when `maxKey < minKey`, and it holds no key the reference
map does not hold. -/
theorem C17_range_query [LinearOrder K] (hasher : K → Nat) (cast : Nat → K) (depth : Nat)
    (_h1 : 1 ≤ depth) (_h17 : depth ≤ 17) (cmds : List (Cmd K V)) (minKey maxKey : K) :
    ∃ l, rangeQuery (runCmds hasher cast cmds (construct depth)) minKey maxKey = .ok l ∧
      (∀ k v, (k, v) ∈ l ↔
        (minKey ≤ k ∧ k ≤ maxKey ∧
          search hasher cast (runCmds hasher cast cmds (construct depth)) k = some v)) ∧
      (l.map Prod.fst).Nodup ∧
      (maxKey < minKey → l = []) ∧
      ∀ k, refMap cmds (fun _ => none) k = none → k ∉ l.map Prod.fst := by
  have hs := search_runCmds hasher cast cmds (construct depth) (fun _ => none)
    (search_construct hasher cast depth)
  have hw := WFTree_runCmds hasher cast cmds (construct depth)
    (WFTree_construct hasher cast depth)
  have hd : (runCmds hasher cast cmds (construct depth : HashTree K V)).depth = depth :=
    depth_runCmds hasher cast cmds (construct depth)
  generalize runCmds hasher cast cmds (construct depth : HashTree K V) = t at hs hw hd
  have hq := rangeQueryHelper_eq hasher cast t.depth minKey maxKey (t.depth - 1) 0 t.root []
    (by omega) hw
  have hmem : ∀ k v, (k, v) ∈ (entriesBelow (t.depth - 1) t.root).filter
      (fun kv => decide (minKey ≤ kv.1) && decide (kv.1 ≤ maxKey)) ↔
      (minKey ≤ k ∧ k ≤ maxKey ∧ search hasher cast t k = some v) := by
    intro k v
    rw [List.mem_filter, mem_entriesBelow_iff hasher cast 0 (t.depth - 1) t.root hw k v]
    simp only [search, Bool.and_eq_true, decide_eq_true_eq]
    tauto
  refine ⟨_, by simpa [rangeQuery] using hq, hmem, ?_, ?_, ?_⟩
  · exact List.Nodup.sublist ((List.filter_sublist _).map Prod.fst)
      (nodup_keys_entriesBelow hasher cast 0 (t.depth - 1) t.root hw)
  · intro hlt
    rw [List.filter_eq_nil_iff]
    intro kv _ hin
    simp only [Bool.and_eq_true, decide_eq_true_eq] at hin
    exact absurd (le_trans hin.1 hin.2) (not_le.mpr hlt)
  · intro k hk hin
    obtain ⟨kv, hkv, hfst⟩ := List.mem_map.mp hin
    obtain ⟨k1, v⟩ := kv
    simp only at hfst
    subst hfst
    have := ((hmem k1 v).mp hkv).2.2
    rw [hs k1, hk] at this
    cases this

/-- The instance of C17 on the demo driver: after the six insertions at
depth 4, `rangeQuery(5, 50)` returns the pairs of the keys 42, 7, 15 and 8. -/
theorem C17_range_query_witness :
    1 ≤ 4 ∧ 4 ≤ 17 ∧
    (∃ l, rangeQuery (runCmds id id demoCmds (construct 4)) 5 50 = .ok l ∧
      (∀ k v, (k, v) ∈ l ↔
        (5 ≤ k ∧ k ≤ 50 ∧ search id id (runCmds id id demoCmds (construct 4)) k = some v)) ∧
      (l.map Prod.fst).Nodup ∧ ((50 : Nat) < 5 → l = []) ∧
      ∀ k, refMap demoCmds (fun _ => none) k = none → k ∉ l.map Prod.fst) ∧
    rangeQuery (runCmds id id demoCmds (construct 4)) 5 50
      = .ok [(42, "Answer to everything"), (7, "Lucky number"), (15, "Fifteen"), (8, "Eight")] :=
  ⟨by decide, by decide,
    C17_range_query id id 4 (by decide) (by decide) demoCmds 5 50, rfl⟩

end HashTree
